import Mathlib

/-!
Verification development for the xgrammar repository.

The Rust crate under `rust/src` exposes the token-bitmask helpers directly
(`get_bitmask_shape`, `allocate_token_bitmask`, `reset_token_bitmask`); these
are embedded from the source.  The grammar engine itself (matcher core, batch
coordinator, EBNF parser/printer, regex and JSON-schema converters) is an
external native library that is only exercised by the repository's
characterization tests, so those components are modelled from the
specification, faithful to its wording, and the claims are settled against
the models.
-/

namespace Xg

/-! ## Token bitmask helpers (from `rust/src/matcher/mod.rs`) -/

/-- From the source: `get_bitmask_shape(batch_size, vocab_size)` returns
`(batch_size, (vocab_size + 31) / 32)`. -/
def get_bitmask_shape (batch_size vocab_size : Nat) : Nat × Nat :=
  (batch_size, (vocab_size + 31) / 32)

/-- From the source: `allocate_token_bitmask` builds a boxed slice of
`batch_size * bitmask_size` int32 words, every word `-1`. -/
def allocate_token_bitmask (batch_size vocab_size : Nat) : List Int :=
  List.replicate (batch_size * (get_bitmask_shape batch_size vocab_size).2) (-1)

/-- From the source: `reset_token_bitmask` overwrites every word of the
buffer with `-1` (`bitmask.fill(-1i32)`). -/
def reset_token_bitmask (bitmask : List Int) : List Int :=
  bitmask.map (fun _ => (-1 : Int))

/-! ## Matcher core, modelled from the spec

The `GrammarMatcher` implementation is an external native library; only its
characterization tests live in the repository.  Following §3 and §4.6 of the
spec, a matcher holds a set of active pushdown configurations, a terminated
flag, and a history buffer of snapshots bounded by `max_rollback_tokens`
(unbounded when negative).  The model is parametric in the configuration type
`C`; the grammar simulation is abstracted as a per-byte nondeterministic step
relation, which covers every compiled grammar. -/

/-- Modelled from the spec: the read-only data a matcher consumes — the
compiled grammar's per-byte configuration step, its accepting test, the
tokenizer's decoded byte string per token id, the configured stop-token ids
and the vocabulary size. -/
structure MatcherModel (C : Type) where
  stepByte : C → Nat → List C
  accepting : C → Bool
  tokenBytes : Nat → List Nat
  stopIds : List Nat
  vocabSize : Nat

/-- Modelled from the spec: a matcher's mutable state — the active
configuration set, whether a complete derivation plus stop token has been
reached, the snapshot history used by `rollback`, and the configured
`max_rollback_tokens` (negative means unbounded). -/
structure MatcherState (C : Type) where
  current : List C
  terminated : Bool
  history : List (List C × Bool)
  maxRollback : Int

/-- The observable part of a matcher state (configuration set and terminated
flag); `fill_next_token_bitmask` and acceptance depend only on this. -/
def MatcherState.obs {C : Type} (s : MatcherState C) : List C × Bool :=
  (s.current, s.terminated)

/-- Modelled from the spec: advancing every active configuration by one byte
(disjunctive, nondeterministic-automaton semantics). -/
def advanceByte {C : Type} (M : MatcherModel C) (cs : List C) (b : Nat) : List C :=
  cs.foldr (fun c acc => M.stepByte c b ++ acc) []

/-- Modelled from the spec: feeding bytes one at a time; fails (returning
`none`) at the first byte no configuration admits. -/
def acceptBytesFrom {C : Type} (M : MatcherModel C) (cs : List C) :
    List Nat → Option (List C)
  | [] => some cs
  | b :: bs =>
    match advanceByte M cs b with
    | [] => none
    | c :: cs' => acceptBytesFrom M (c :: cs') bs

/-- Modelled from the spec: pushing a snapshot onto the history buffer,
truncated to `max_rollback_tokens` entries when that bound is nonnegative. -/
def pushSnap {C : Type} (s : MatcherState C) (snap : List C × Bool) :
    List (List C × Bool) :=
  if s.maxRollback < 0 then snap :: s.history
  else (snap :: s.history).take s.maxRollback.toNat

/-- Modelled from the spec: `accept_token`.  A terminated matcher admits no
further token.  A stop token is accepted exactly when some live configuration
is accepting, and moves the matcher to the terminated state.  Any other token
is decoded to bytes and fed through `acceptBytesFrom`; on failure the call
returns `false` and the state exactly as before (byte-level atomicity). -/
def acceptToken {C : Type} (M : MatcherModel C) (s : MatcherState C) (t : Nat) :
    Bool × MatcherState C :=
  if s.terminated then (false, s)
  else if t ∈ M.stopIds then
    if s.current.any M.accepting then
      (true, ⟨s.current, true, pushSnap s (s.current, s.terminated), s.maxRollback⟩)
    else (false, s)
  else
    match acceptBytesFrom M s.current (M.tokenBytes t) with
    | some cs' => (true, ⟨cs', false, pushSnap s (s.current, s.terminated), s.maxRollback⟩)
    | none => (false, s)

/-- Modelled from the spec: `rollback(n)` restores the snapshot taken before
the `n`-th most recent acceptance and drops the undone history entries; it
fails when `n` exceeds the history depth or the rollback bound. -/
def rollback {C : Type} (s : MatcherState C) (n : Nat) : Option (MatcherState C) :=
  if n = 0 then some s
  else
    match s.history.get? (n - 1) with
    | some snap => some ⟨snap.1, snap.2, s.history.drop n, s.maxRollback⟩
    | none => none

/-- Modelled from the spec: `fill_next_token_bitmask` — one boolean per
vocabulary entry, set exactly when the matcher would accept that token from
its current state. -/
def fillNextTokenBitmask {C : Type} (M : MatcherModel C) (s : MatcherState C) :
    List Bool :=
  (List.range M.vocabSize).map (fun t => (acceptToken M s t).1)

/-- Accepting a list of tokens in order; fails if any call fails. -/
def acceptSeq {C : Type} (M : MatcherModel C) (s : MatcherState C) :
    List Nat → Option (MatcherState C)
  | [] => some s
  | t :: ts =>
    match acceptToken M s t with
    | (true, s') => acceptSeq M s' ts
    | (false, _) => none

/-- The bitmask observed before each acceptance and after the last one;
`none` if some acceptance fails. -/
def bitmaskTrace {C : Type} (M : MatcherModel C) (s : MatcherState C) :
    List Nat → Option (List (List Bool))
  | [] => some [fillNextTokenBitmask M s]
  | t :: ts =>
    match acceptToken M s t with
    | (true, s') => (bitmaskTrace M s' ts).map (fillNextTokenBitmask M s :: ·)
    | (false, _) => none

/-- History truncation to a rollback bound (negative bound = unbounded);
`pushSnap` is truncation applied to a freshly extended history. -/
def capHist {C : Type} (m : Int) (l : List (List C × Bool)) : List (List C × Bool) :=
  if m < 0 then l else l.take m.toNat

/-! ## Batch coordinator, modelled from the spec (§4.8, §5)

`batch_fill_next_token_bitmask` computes one row per matcher and scatters the
rows into a shared buffer, optionally through caller-supplied output indices.
Work is fanned across a pool of worker threads; each write is one row.  An
execution of the pool is modelled as the order in which the row writes reach
the buffer — any interleaving of the per-worker sequences, i.e. any
permutation of the write list; a pool of size 1 performs them in order. -/

/-- One row write into the shared buffer. -/
def writeRow {R : Type} (buf : List R) (w : Nat × R) : List R :=
  buf.set w.1 w.2

/-- Applying a sequence of row writes in order. -/
def applyWrites {R : Type} (buf : List R) (ws : List (Nat × R)) : List R :=
  ws.foldl writeRow buf

/-- Modelled from the spec: the output row for matcher `i` — the caller's
index permutation when supplied, the identity otherwise. -/
def scatterTarget (indices : Option (List Nat)) (i : Nat) : Nat :=
  match indices with
  | none => i
  | some l => l.getD i i

/-- The row writes issued for matchers numbered from `i0`. -/
def batchWritesAux {Mt R : Type} (fillRow : Mt → R) (indices : Option (List Nat)) :
    Nat → List Mt → List (Nat × R)
  | _, [] => []
  | i, m :: ms =>
    (scatterTarget indices i, fillRow m) :: batchWritesAux fillRow indices (i + 1) ms

/-- Modelled from the spec: the full write list of
`batch_fill_next_token_bitmask` — row `scatterTarget indices i` receives the
bitmask computed independently from matcher `i`'s own state. -/
def batchWrites {Mt R : Type} (fillRow : Mt → R) (matchers : List Mt)
    (indices : Option (List Nat)) : List (Nat × R) :=
  batchWritesAux fillRow indices 0 matchers

/-! ## JSON-schema object constraint check (modelled)

The JSON-schema converter is not under `src/`; the repository pins its
behaviour through `test_json_schema_converter.rs`.  For an object schema with
`minProperties` strictly greater than `maxProperties`, compilation fails and
the test `test_object_error_handle` asserts that the error string contains
"minxPropertiesmax is greater than maxProperties". -/

/-- Modelled from the spec and the characterization test
`test_object_error_handle`: the converter's minProperties/maxProperties
consistency check, failing with the error message the test pins. -/
def checkMinMaxProperties (minProperties maxProperties : Nat) : Except String Unit :=
  if minProperties > maxProperties then
    Except.error "minxPropertiesmax is greater than maxProperties"
  else Except.ok ()

/-- Whether `needle` occurs at the start of `hay`. -/
def startsWithChars : List Char → List Char → Bool
  | [], _ => true
  | _ :: _, [] => false
  | a :: as, b :: bs => a == b && startsWithChars as bs

/-- Whether `needle` occurs anywhere in `hay` (Rust `str::contains`). -/
def containsChars (needle : List Char) : List Char → Bool
  | [] => startsWithChars needle []
  | c :: rest => startsWithChars needle (c :: rest) || containsChars needle rest

/-! ## Regex → EBNF converter, modelled from the spec (§4.2)

The converter is not under `src/`; its behaviour is pinned by
`test_regex_converter.rs`.  The model covers the constructs the claims are
about: literals, grouping, alternation, anchors (stripped), the quantifiers
`*`, `+`, `?`, `[:]m,n[:]`, and the non-greedy forms, which are accepted but
treated identically to the greedy forms (the trailing `?` is consumed and
ignored).  Two consecutive repetition modifiers are rejected. -/

def lbrace : Char := Char.ofNat 123

def rbrace : Char := Char.ofNat 125

/-- Regex metacharacters of the modelled subset. -/
def isRegexMeta (c : Char) : Bool :=
  c == '(' || c == ')' || c == '|' || c == '*' || c == '+' || c == '?' ||
  c == lbrace || c == rbrace || c == '^' || c == '$' || c == '[' || c == ']' ||
  c == '\\' || c == '.'

/-- Quantifier shapes of the modelled subset. -/
inductive Quant where
  | star
  | plus
  | opt
  | rep (m n : Nat)
deriving DecidableEq

/-- Regex abstract syntax of the modelled subset. -/
inductive RE where
  | eps
  | chr (c : Char)
  | group (r : RE)
  | alt (a b : RE)
  | seqn (a b : RE)
  | quant (a : RE) (q : Quant)
deriving DecidableEq

/-- Sequence smart constructor: dropping a trailing empty tail. -/
def seqCons (a b : RE) : RE :=
  if b = RE.eps then a else RE.seqn a b

def digitsToNat (l : List Char) : Nat :=
  l.foldl (fun acc c => 10 * acc + (c.toNat - 48)) 0

def splitDigits (l : List Char) : List Char × List Char :=
  (l.takeWhile Char.isDigit, l.dropWhile Char.isDigit)

/-- Parse the inside of a counted repetition `m,n[:]` (the opening brace is
already consumed). -/
def parseRep (l : List Char) : Option (Nat × Nat × List Char) :=
  let (d1, r1) := splitDigits l
  if d1.isEmpty then none
  else
    match r1 with
    | ',' :: r2 =>
      let (d2, r3) := splitDigits r2
      if d2.isEmpty then none
      else
        match r3 with
        | c :: r4 => if c == rbrace then some (digitsToNat d1, digitsToNat d2, r4) else none
        | [] => none
    | _ => none

/-- Modelled from the spec: a `?` directly after a quantifier marks the
non-greedy form, which is treated identically to the greedy one — it is
consumed without changing the produced grammar. -/
def absorbNonGreedy (r : RE) : List Char → Option (RE × List Char)
  | c :: rest => if c == '?' then some (r, rest) else some (r, c :: rest)
  | [] => some (r, [])

/-- Parse an optional quantifier suffix after an atom. -/
def parseQuantSuffix (r : RE) : List Char → Option (RE × List Char)
  | [] => some (r, [])
  | c :: rest =>
    if c == '*' then absorbNonGreedy (RE.quant r .star) rest
    else if c == '+' then absorbNonGreedy (RE.quant r .plus) rest
    else if c == '?' then absorbNonGreedy (RE.quant r .opt) rest
    else if c == lbrace then
      match parseRep rest with
      | some (m, n, rest') => absorbNonGreedy (RE.quant r (.rep m n)) rest'
      | none => none
    else some (r, c :: rest)

mutual

/-- Parse one atom: a group, an anchor (stripped to the empty expression), or
a literal character. -/
def parseAtom : Nat → List Char → Option (RE × List Char)
  | 0, _ => none
  | _ + 1, [] => none
  | fuel + 1, c :: rest =>
    if c == '(' then
      match parseAltRE fuel rest with
      | some (r, c' :: rest') => if c' == ')' then some (RE.group r, rest') else none
      | _ => none
    else if c == '^' || c == '$' then some (RE.eps, rest)
    else if isRegexMeta c then none
    else some (RE.chr c, rest)

/-- Parse a sequence of quantified atoms, stopping before `)` or `|`. -/
def parseSeqRE : Nat → List Char → Option (RE × List Char)
  | 0, _ => none
  | _ + 1, [] => some (RE.eps, [])
  | fuel + 1, c :: rest =>
    if c == ')' || c == '|' then some (RE.eps, c :: rest)
    else
      match parseAtom fuel (c :: rest) with
      | some (r, rest1) =>
        match parseQuantSuffix r rest1 with
        | some (r2, rest2) =>
          match parseSeqRE fuel rest2 with
          | some (rs, rest3) => some (seqCons r2 rs, rest3)
          | none => none
        | none => none
      | none => none

/-- Parse an alternation of sequences. -/
def parseAltRE : Nat → List Char → Option (RE × List Char)
  | 0, _ => none
  | fuel + 1, l =>
    match parseSeqRE fuel l with
    | some (r, c :: rest') =>
      if c == '|' then
        match parseAltRE fuel rest' with
        | some (r2, rest'') => some (RE.alt r r2, rest'')
        | none => none
      else some (r, c :: rest')
    | some (r, []) => some (r, [])
    | none => none

end

/-- Parse a whole regex; unmatched parentheses and stray modifiers fail. -/
def parseRegexFull (l : List Char) : Option RE :=
  match parseAltRE (2 * l.length + 2) l with
  | some (r, []) => some r
  | _ => none

def printQuant : Quant → String
  | .star => "*"
  | .plus => "+"
  | .opt => "?"
  | .rep m n => "\x7b" ++ toString m ++ "," ++ toString n ++ "\x7d"

/-- The EBNF rendering of a regex expression, following the pinned test
outputs (space-separated sequence items, groups in spaced parentheses,
quantifier suffixes appended). -/
def printRE : RE → String
  | .eps => "\"\""
  | .chr c => "\"" ++ String.mk [c] ++ "\""
  | .group r => "( " ++ printRE r ++ " )"
  | .alt a b => printRE a ++ " | " ++ printRE b
  | .seqn a b => printRE a ++ " " ++ printRE b
  | .quant a q => printRE a ++ printQuant q

/-- Modelled from the spec: `regex_to_ebnf` — the grammar string the
converter produces. -/
def regex_to_ebnf (l : List Char) : Option String :=
  (parseRegexFull l).map (fun r => "root ::= " ++ printRE r ++ "\n")

/-- Modelled from the spec: the grammar normalization `Grammar::from_regex`
applies before printing — trivial groups are inlined, empty parts of a
sequence dropped, and equal alternatives folded. -/
def normRE : RE → RE
  | .eps => .eps
  | .chr c => .chr c
  | .group r => normRE r
  | .alt a b =>
    let a' := normRE a
    let b' := normRE b
    if a' = b' then a' else .alt a' b'
  | .seqn a b =>
    let a' := normRE a
    let b' := normRE b
    if a' = .eps then b' else if b' = .eps then a' else .seqn a' b'
  | .quant a q => .quant (normRE a) q

/-- Modelled from the spec: the grammar `Grammar::from_regex` produces. -/
def from_regex_grammar (l : List Char) : Option RE :=
  (parseRegexFull l).map normRE

/-- Modelled from the spec: `Grammar::from_regex(...).to_string()` — the
normalized grammar printed with the rule body in parentheses. -/
def from_regex_print (l : List Char) : Option String :=
  (from_regex_grammar l).map (fun r => "root ::= (" ++ printRE r ++ ")\n")

/-- Which repetition counts a quantifier admits. -/
def quantAllows : Quant → Nat → Prop
  | .star, _ => True
  | .plus, k => 1 ≤ k
  | .opt, k => k ≤ 1
  | .rep m n, k => m ≤ k ∧ k ≤ n

mutual

/-- The language of a modelled regex expression. -/
def ReMatches : RE → List Char → Prop
  | .eps, s => s = []
  | .chr c, s => s = [c]
  | .group r, s => ReMatches r s
  | .alt a b, s => ReMatches a s ∨ ReMatches b s
  | .seqn a b, s => ∃ s1 s2, s = s1 ++ s2 ∧ ReMatches a s1 ∧ ReMatches b s2
  | .quant a q, s => ∃ k, quantAllows q k ∧ RepMatches a k s

/-- `k`-fold repetition of a regex expression's language. -/
def RepMatches : RE → Nat → List Char → Prop
  | _, 0, s => s = []
  | a, k + 1, s => ∃ s1 s2, s = s1 ++ s2 ∧ ReMatches a s1 ∧ RepMatches a k s2

end

/-- The shapes of the supported single-quantifier strings: `*`, `+`, `?`, and
`[:]m,n[:]` with nonempty digit strings. -/
inductive IsQuantStr : List Char → Prop where
  | star : IsQuantStr ['*']
  | plus : IsQuantStr ['+']
  | opt : IsQuantStr ['?']
  | rep (ds1 ds2 : List Char) (h1 : ds1 ≠ []) (h2 : ds2 ≠ [])
      (hd1 : ∀ c ∈ ds1, c.isDigit = true) (hd2 : ∀ c ∈ ds2, c.isDigit = true) :
      IsQuantStr (lbrace :: (ds1 ++ ',' :: (ds2 ++ [rbrace])))

/-! ## Generic list helpers (splitting, joining, option-mapping) -/

/-- Split a token list at every occurrence of `sep`. -/
def splitSep {α : Type} [DecidableEq α] (sep : α) : List α → List (List α)
  | [] => [[]]
  | t :: r =>
    if t = sep then [] :: splitSep sep r
    else
      match splitSep sep r with
      | g :: gs => (t :: g) :: gs
      | [] => [[t]]

/-- Join pieces with a separator sequence (inverse of `splitSep` for
separator-free pieces). -/
def joinSepG {α : Type} (sep : List α) : List (List α) → List α
  | [] => []
  | [x] => x
  | x :: y :: ys => x ++ sep ++ joinSepG sep (y :: ys)

/-- Sequentialize an optional-producing function over a list. -/
def mapOptionList {α β : Type} (f : α → Option β) : List α → Option (List β)
  | [] => some []
  | x :: xs =>
    match f x, mapOptionList f xs with
    | some y, some ys => some (y :: ys)
    | _, _ => none

/-! ## Numeric range regex compiler, modelled from the spec (§4.3, §8)

`generate_range_regex(lo, hi)` is not under `src/`; its outputs are pinned by
`test_generate_range_regex`.  Those outputs are alternations whose branches
are sequences of digit-range atoms (optionally behind a minus sign, with `0`
standing alone), produced by the standard shared-prefix digit-interval
decomposition.  The model produces the same alternation structure: a branch
is a list of digit ranges, the regex is branches for the negative magnitudes,
a flag for zero, and branches for the positive values. -/

/-- One alternation branch: a digit-range atom per position. -/
abbrev DAlt := List (Nat × Nat)

/-- `\d[:]n[:]` — `n` unconstrained digit positions. -/
def fullDigits (n : Nat) : DAlt := List.replicate n (0, 9)

/-- Branches matching the same-length digit strings that are ≥ `as`. -/
def altsUp : List Nat → List DAlt
  | [] => [[]]
  | a :: as =>
    (altsUp as).map ((a, a) :: ·) ++
      (if a + 1 ≤ 9 then [(a + 1, 9) :: fullDigits as.length] else [])

/-- Branches matching the same-length digit strings that are ≤ `bs`. -/
def altsDown : List Nat → List DAlt
  | [] => [[]]
  | b :: bs =>
    (altsDown bs).map ((b, b) :: ·) ++
      (if 1 ≤ b then [(0, b - 1) :: fullDigits bs.length] else [])

/-- Branches matching the same-length digit strings between `as` and `bs`. -/
def altsBetween : List Nat → List Nat → List DAlt
  | [], [] => [[]]
  | a :: as, b :: bs =>
    if a = b then (altsBetween as bs).map ((a, a) :: ·)
    else
      (altsUp as).map ((a, a) :: ·) ++
        (if a + 1 ≤ b - 1 then [(a + 1, b - 1) :: fullDigits as.length] else []) ++
        (altsDown bs).map ((b, b) :: ·)
  | [], _ :: _ => []
  | _ :: _, [] => []

/-- Whether a digit string matches one branch. -/
def mAlt : DAlt → List Nat → Bool
  | [], [] => true
  | (lo, hi) :: ps, d :: ds => (decide (lo ≤ d) && decide (d ≤ hi)) && mAlt ps ds
  | [], _ :: _ => false
  | _ :: _, [] => false

/-- Lexicographic comparison of equal-length digit strings. -/
def leDigits : List Nat → List Nat → Bool
  | [], [] => true
  | a :: as, b :: bs => decide (a < b) || (decide (a = b) && leDigits as bs)
  | [], _ :: _ => false
  | _ :: _, [] => false

/-- The numeric value of a digit string (most significant digit first). -/
def valD : List Nat → Nat
  | [] => 0
  | d :: ds => d * 10 ^ ds.length + valD ds

/-- Decimal digits, least significant first, by fuelled division. -/
def digitsAuxR : Nat → Nat → List Nat
  | 0, _ => []
  | fuel + 1, n => if n = 0 then [] else n % 10 :: digitsAuxR fuel (n / 10)

/-- Decimal digits of `n`, most significant first (empty for 0). -/
def digitsOf (n : Nat) : List Nat := (digitsAuxR n n).reverse

/-- The number of decimal digits of `n`. -/
def numLen (n : Nat) : Nat := (digitsOf n).length

/-- Modelled from the spec: the digit-interval decomposition of `[lo, hi]`
(`1 ≤ lo ≤ hi`), one group of branches per decimal length. -/
def altsRange (lo hi : Nat) : List DAlt :=
  ((List.range' (numLen lo) (numLen hi + 1 - numLen lo)).map (fun L =>
    altsBetween (digitsOf (max lo (10 ^ (L - 1))))
      (digitsOf (min hi (10 ^ L - 1))))).join

/-- Modelled from the spec: the shape of the regex `generate_range_regex`
produces — branches for negative magnitudes, a `0` branch, branches for
positive values. -/
structure RangeRegex where
  negAlts : List DAlt
  hasZero : Bool
  posAlts : List DAlt

/-- Modelled from the spec: `generate_range_regex(lo, hi)` (both bounds
finite); fails when the range is empty. -/
def generate_range_regex (lo hi : Int) : Option RangeRegex :=
  if lo ≤ hi then
    some
      { negAlts := if lo < 0 then altsRange (max 1 (-hi).toNat) (-lo).toNat else []
        hasZero := decide (lo ≤ 0 ∧ 0 ≤ hi)
        posAlts := if 0 < hi then altsRange (max 1 lo.toNat) hi.toNat else [] }
  else none

def digitChar (d : Nat) : Char := Char.ofNat (48 + d)

/-- The decimal character string of a natural number. -/
def natChars (n : Nat) : List Char :=
  if n = 0 then ['0'] else (digitsOf n).map digitChar

/-- The decimal character string of an integer. -/
def decimalChars (x : Int) : List Char :=
  if x < 0 then '-' :: natChars (-x).toNat else natChars x.toNat

def charToDigit (c : Char) : Option Nat :=
  if 48 ≤ c.toNat ∧ c.toNat ≤ 57 then some (c.toNat - 48) else none

def digitsOfChars : List Char → Option (List Nat)
  | [] => some []
  | c :: r =>
    match charToDigit c, digitsOfChars r with
    | some d, some ds => some (d :: ds)
    | _, _ => none

/-- Whether the produced regex accepts a character string: an optional minus
sign followed by digit positions matched against a branch, or the bare `0`. -/
def rrAccepts (r : RangeRegex) (s : List Char) : Bool :=
  if s = ['0'] then r.hasZero
  else
    match s with
    | [] => false
    | c :: rest =>
      if c = '-' then
        match digitsOfChars rest with
        | some ds => r.negAlts.any (fun alt => mAlt alt ds)
        | none => false
      else
        match digitsOfChars (c :: rest) with
        | some ds => r.posAlts.any (fun alt => mAlt alt ds)
        | none => false

/-! ## EBNF parser and printer, modelled from the spec (§4.1)

The EBNF front end is not under `src/`.  Following §3 and §4.1, the model
covers rules `name ::= body` with an optional lookahead-assertion suffix
`(=expr)`, bodies that are alternations of sequences of quantified elements,
and atoms that are string literals (escape set `\n \t \r \0 \xNN \uNNNN
\U{...} \cX` plus backslash-escaped metacharacters), character classes
(optionally negated, with ranges and the same escapes), rule references,
parenthesized groups, and the `TagDispatch(...)` call form with the named
parameters `stop_eos`, `stop_str`, `loop_after_dispatch` and `excludes`
(all optional, defaults `true`, `()`, `true`, `()`).  The checks the spec
lists as errors are modelled: empty-string literal tags, a dispatch with
`stop_eos=false` and empty `stop_str`, and undefined rule references all
make parsing fail.  The printer emits one canonical layout (one rule per
line, single spaces, all dispatch parameters explicit); the parser is
liberal in whitespace, quantifier spelling and parameter spelling, so
parsing normalizes and printing round-trips after one pass. -/

/-- Valid Unicode scalar values (code points excluding surrogates). -/
def validCp (n : Nat) : Bool :=
  decide (n < 0xd800) || (decide (0xe000 ≤ n) && decide (n < 0x110000))

/-- Characters allowed in rule names. -/
def isIdentChar (c : Char) : Bool :=
  c.isAlphanum || c == '_' || c == '-'

/-- Characters that may stand unescaped inside a string literal. -/
def litRaw (c : Char) : Bool :=
  !(c == '"' || c == '\\' || c == '\n')

/-- Characters that may stand unescaped inside a character class. -/
def classRaw (c : Char) : Bool :=
  !(c == ']' || c == '\\' || c == '\n' || c == '^' || c == '-')

/-- Hexadecimal digit value. -/
def hexVal (c : Char) : Option Nat :=
  if 48 ≤ c.toNat ∧ c.toNat ≤ 57 then some (c.toNat - 48)
  else if 97 ≤ c.toNat ∧ c.toNat ≤ 102 then some (c.toNat - 87)
  else if 65 ≤ c.toNat ∧ c.toNat ≤ 70 then some (c.toNat - 55)
  else none

/-- Tokens of the EBNF surface syntax.  Literal and class payloads carry
decoded code points; `tRep m n` is a brace quantifier (`n = none` for an
open upper bound). -/
inductive ETok where
  | tLit (cs : List Nat)
  | tClass (neg : Bool) (items : List (Nat × Nat))
  | tIdent (n : List Char)
  | tDef
  | tOpen
  | tClose
  | tBar
  | tNL
  | tStar
  | tPlus
  | tQuest
  | tLook
  | tComma
  | tEq
  | tRep (m : Nat) (n : Option Nat)
deriving DecidableEq

set_option maxHeartbeats 1600000 in
mutual

/-- Modelled from the spec: tokenizing EBNF source text.  Spaces and tabs
separate tokens; newlines separate rules; `(=` opens a lookahead
assertion. -/
def tokenize : List Char → Option (List ETok)
  | [] => some []
  | c :: r =>
    if c = ' ' then tokenize r
    else if c = '\t' then tokenize r
    else if c = '\n' then (ETok.tNL :: ·) <$> tokenize r
    else if c = '(' then tokParen r
    else if c = ')' then (ETok.tClose :: ·) <$> tokenize r
    else if c = '|' then (ETok.tBar :: ·) <$> tokenize r
    else if c = '*' then (ETok.tStar :: ·) <$> tokenize r
    else if c = '+' then (ETok.tPlus :: ·) <$> tokenize r
    else if c = '?' then (ETok.tQuest :: ·) <$> tokenize r
    else if c = ',' then (ETok.tComma :: ·) <$> tokenize r
    else if c = '=' then (ETok.tEq :: ·) <$> tokenize r
    else if c = ':' then tokColon r
    else if c = '"' then tokLit [] r
    else if c = '[' then tokClass r
    else if c = lbrace then tokRepStart r
    else if isIdentChar c then tokIdent [c] r
    else none
  termination_by l => (l.length, 0)

/-- After `(`: a following `=` makes it a lookahead opener. -/
def tokParen : List Char → Option (List ETok)
  | [] => some [ETok.tOpen]
  | c :: r =>
    if c = '=' then (ETok.tLook :: ·) <$> tokenize r
    else (ETok.tOpen :: ·) <$> tokenize (c :: r)
  termination_by l => (l.length, 1)

/-- The tail of a `::=` definition symbol (the first colon is consumed). -/
def tokColon : List Char → Option (List ETok)
  | [] => none
  | c :: r =>
    if c = ':' then
      match r with
      | c2 :: r2 => if c2 = '=' then (ETok.tDef :: ·) <$> tokenize r2 else none
      | [] => none
    else none
  termination_by l => (l.length, 1)

/-- Inside a string literal (accumulator of code points, reversed). -/
def tokLit (acc : List Nat) : List Char → Option (List ETok)
  | [] => none
  | c :: r =>
    if c = '"' then (ETok.tLit acc.reverse :: ·) <$> tokenize r
    else if c = '\\' then tokLitEsc acc r
    else if litRaw c then tokLit (c.toNat :: acc) r
    else none
  termination_by l => (l.length, 1)

/-- Immediately after a backslash inside a string literal. -/
def tokLitEsc (acc : List Nat) : List Char → Option (List ETok)
  | [] => none
  | c :: r =>
    if c = 'n' then tokLit (10 :: acc) r
    else if c = 't' then tokLit (9 :: acc) r
    else if c = 'r' then tokLit (13 :: acc) r
    else if c = '0' then tokLit (0 :: acc) r
    else if c = 'x' then tokLitHex 2 0 acc r
    else if c = 'u' then tokLitHex 4 0 acc r
    else if c = 'U' then
      match r with
      | c2 :: r2 => if c2 = lbrace then tokLitHexBr 0 acc r2 else none
      | [] => none
    else if c = 'c' then
      match r with
      | x :: r2 => tokLit (x.toNat % 32 :: acc) r2
      | [] => none
    else tokLit (c.toNat :: acc) r
  termination_by l => (l.length, 1)

/-- A fixed count of hexadecimal digits of a literal escape. -/
def tokLitHex : Nat → Nat → List Nat → List Char → Option (List ETok)
  | 0, v, acc, l => if validCp v then tokLit (v :: acc) l else none
  | _ + 1, _, _, [] => none
  | k + 1, v, acc, c :: r =>
    match hexVal c with
    | some d => tokLitHex k (16 * v + d) acc r
    | none => none
  termination_by _ _ _ l => (l.length, 2)

/-- Hexadecimal digits of a braced `\U{...}` literal escape. -/
def tokLitHexBr (v : Nat) (acc : List Nat) : List Char → Option (List ETok)
  | [] => none
  | c :: r =>
    if c = rbrace then (if validCp v then tokLit (v :: acc) r else none)
    else
      match hexVal c with
      | some d => tokLitHexBr (16 * v + d) acc r
      | none => none
  termination_by l => (l.length, 1)

/-- An identifier run (accumulator reversed). -/
def tokIdent (acc : List Char) : List Char → Option (List ETok)
  | [] => some [ETok.tIdent acc.reverse]
  | c :: r =>
    if isIdentChar c then tokIdent (c :: acc) r
    else (ETok.tIdent acc.reverse :: ·) <$> tokenize (c :: r)
  termination_by l => (l.length, 2)

/-- Just after `[`: an optional leading `^` negates the class. -/
def tokClass : List Char → Option (List ETok)
  | [] => none
  | c :: r =>
    if c = '^' then tokClassBody true [] r
    else tokClassBody false [] (c :: r)
  termination_by l => (l.length, 4)

/-- Inside a character class, before an item (accumulator reversed). -/
def tokClassBody (neg : Bool) (acc : List (Nat × Nat)) :
    List Char → Option (List ETok)
  | [] => none
  | c :: r =>
    if c = ']' then (ETok.tClass neg acc.reverse :: ·) <$> tokenize r
    else if c = '\\' then tokClassEsc1 neg acc r
    else if classRaw c then tokClassDash neg acc c.toNat r
    else none
  termination_by l => (l.length, 1)

/-- After a backslash opening a class item. -/
def tokClassEsc1 (neg : Bool) (acc : List (Nat × Nat)) :
    List Char → Option (List ETok)
  | [] => none
  | c :: r =>
    if c = 'n' then tokClassDash neg acc 10 r
    else if c = 't' then tokClassDash neg acc 9 r
    else if c = 'r' then tokClassDash neg acc 13 r
    else if c = '0' then tokClassDash neg acc 0 r
    else if c = 'x' then tokClassHex1 2 0 neg acc r
    else if c = 'u' then tokClassHex1 4 0 neg acc r
    else tokClassDash neg acc c.toNat r
  termination_by l => (l.length, 1)

/-- Hex digits of an escape opening a class item. -/
def tokClassHex1 : Nat → Nat → Bool → List (Nat × Nat) →
    List Char → Option (List ETok)
  | 0, v, neg, acc, l => if validCp v then tokClassDash neg acc v l else none
  | _ + 1, _, _, _, [] => none
  | k + 1, v, neg, acc, c :: r =>
    match hexVal c with
    | some d => tokClassHex1 k (16 * v + d) neg acc r
    | none => none
  termination_by _ _ _ _ l => (l.length, 5)

/-- After a class item's first char: a `-` starts a range. -/
def tokClassDash (neg : Bool) (acc : List (Nat × Nat)) (c1 : Nat) :
    List Char → Option (List ETok)
  | [] => none
  | c :: r =>
    if c = '-' then tokClassSnd neg acc c1 r
    else tokClassBody neg ((c1, c1) :: acc) (c :: r)
  termination_by l => (l.length, 3)

/-- The second endpoint of a class range. -/
def tokClassSnd (neg : Bool) (acc : List (Nat × Nat)) (c1 : Nat) :
    List Char → Option (List ETok)
  | [] => none
  | c :: r =>
    if c = '\\' then tokClassEsc2 neg acc c1 r
    else if classRaw c then tokClassBody neg ((c1, c.toNat) :: acc) r
    else none
  termination_by l => (l.length, 1)

/-- After a backslash of a class range's second endpoint. -/
def tokClassEsc2 (neg : Bool) (acc : List (Nat × Nat)) (c1 : Nat) :
    List Char → Option (List ETok)
  | [] => none
  | c :: r =>
    if c = 'n' then tokClassBody neg ((c1, 10) :: acc) r
    else if c = 't' then tokClassBody neg ((c1, 9) :: acc) r
    else if c = 'r' then tokClassBody neg ((c1, 13) :: acc) r
    else if c = '0' then tokClassBody neg ((c1, 0) :: acc) r
    else if c = 'x' then tokClassHex2 2 0 neg acc c1 r
    else if c = 'u' then tokClassHex2 4 0 neg acc c1 r
    else tokClassBody neg ((c1, c.toNat) :: acc) r
  termination_by l => (l.length, 1)

/-- Hex digits of an escape closing a class range. -/
def tokClassHex2 : Nat → Nat → Bool → List (Nat × Nat) → Nat →
    List Char → Option (List ETok)
  | 0, v, neg, acc, c1, l => if validCp v then tokClassBody neg ((c1, v) :: acc) l else none
  | _ + 1, _, _, _, _, [] => none
  | k + 1, v, neg, acc, c1, c :: r =>
    match hexVal c with
    | some d => tokClassHex2 k (16 * v + d) neg acc c1 r
    | none => none
  termination_by _ _ _ _ _ l => (l.length, 2)

/-- Just after `{`: spaces then the first bound. -/
def tokRepStart : List Char → Option (List ETok)
  | [] => none
  | c :: r =>
    if c = ' ' then tokRepStart r
    else
      match charToDigit c with
      | some d => tokRepA d r
      | none => none
  termination_by l => (l.length, 1)

/-- Reading the first bound of a brace quantifier. -/
def tokRepA (m : Nat) : List Char → Option (List ETok)
  | [] => none
  | c :: r =>
    match charToDigit c with
    | some d => tokRepA (10 * m + d) r
    | none =>
      if c = ' ' then tokRepASp m r
      else if c = ',' then tokRepComma m r
      else if c = rbrace then (ETok.tRep m (some m) :: ·) <$> tokenize r
      else none
  termination_by l => (l.length, 1)

/-- After the first bound, skipping spaces. -/
def tokRepASp (m : Nat) : List Char → Option (List ETok)
  | [] => none
  | c :: r =>
    if c = ' ' then tokRepASp m r
    else if c = ',' then tokRepComma m r
    else if c = rbrace then (ETok.tRep m (some m) :: ·) <$> tokenize r
    else none
  termination_by l => (l.length, 1)

/-- After the comma of a brace quantifier. -/
def tokRepComma (m : Nat) : List Char → Option (List ETok)
  | [] => none
  | c :: r =>
    if c = ' ' then tokRepComma m r
    else if c = rbrace then (ETok.tRep m none :: ·) <$> tokenize r
    else
      match charToDigit c with
      | some d => tokRepB m d r
      | none => none
  termination_by l => (l.length, 1)

/-- Reading the second bound of a brace quantifier. -/
def tokRepB (m n : Nat) : List Char → Option (List ETok)
  | [] => none
  | c :: r =>
    match charToDigit c with
    | some d => tokRepB m (10 * n + d) r
    | none =>
      if c = ' ' then tokRepBSp m n r
      else if c = rbrace then (ETok.tRep m (some n) :: ·) <$> tokenize r
      else none
  termination_by l => (l.length, 1)

/-- After the second bound, skipping spaces. -/
def tokRepBSp (m n : Nat) : List Char → Option (List ETok)
  | [] => none
  | c :: r =>
    if c = ' ' then tokRepBSp m n r
    else if c = rbrace then (ETok.tRep m (some n) :: ·) <$> tokenize r
    else none
  termination_by l => (l.length, 1)

end

/-- Quantifier suffixes: `*`, `+`, `?`, `{m}` / `{m,}` / `{m,n}`. -/
inductive EQuant where
  | star
  | plus
  | opt
  | rep (m : Nat) (n : Option Nat)
deriving DecidableEq

mutual

/-- Grammar atoms: literals, character classes, rule references, groups and
tag-dispatch calls. -/
inductive GAtom where
  | lit (cs : List Nat)
  | cls (neg : Bool) (items : List (Nat × Nat))
  | ref (name : List Char)
  | group (b : GAlts)
  | dispatch (pairs : List (List Nat × List Char)) (stopEos : Bool)
      (stopStr : List (List Nat)) (loopAfter : Bool) (excl : List (List Nat))

/-- A sequence element: an atom with an optional quantifier. -/
inductive GElem where
  | elem (a : GAtom) (q : Option EQuant)

/-- A nonempty sequence of elements. -/
inductive GSeqn where
  | last (e : GElem)
  | cons (e : GElem) (s : GSeqn)

/-- A nonempty alternation of sequences. -/
inductive GAlts where
  | last (s : GSeqn)
  | cons (s : GSeqn) (b : GAlts)

end

/-- One rule: name, body, optional lookahead assertion. -/
structure ERule where
  name : List Char
  alts : GAlts
  look : Option GSeqn

/-- A grammar: the ordered rule table. -/
abbrev EGrammar := List ERule

/-- The keywords of the surface syntax. -/
def tagDispatchChars : List Char :=
  ['T', 'a', 'g', 'D', 'i', 's', 'p', 'a', 't', 'c', 'h']

def stopEosChars : List Char := ['s', 't', 'o', 'p', '_', 'e', 'o', 's']

def stopStrChars : List Char := ['s', 't', 'o', 'p', '_', 's', 't', 'r']

def loopAfterChars : List Char :=
  ['l', 'o', 'o', 'p', '_', 'a', 'f', 't', 'e', 'r', '_',
   'd', 'i', 's', 'p', 'a', 't', 'c', 'h']

def excludesChars : List Char := ['e', 'x', 'c', 'l', 'u', 'd', 'e', 's']

def trueChars : List Char := ['t', 'r', 'u', 'e']

def falseChars : List Char := ['f', 'a', 'l', 's', 'e']

/-- Boolean parameter values. -/
def identBool (s : List Char) : Option Bool :=
  if s = trueChars then some true
  else if s = falseChars then some false
  else none

/-- Whether a token can begin an atom. -/
def isAtomTok : ETok → Bool
  | .tLit _ => true
  | .tClass _ _ => true
  | .tIdent _ => true
  | .tOpen => true
  | _ => false

/-- Whether a token stream begins with an atom. -/
def atomStart : List ETok → Bool
  | [] => false
  | t :: _ => isAtomTok t

/-- Whether a token is a quantifier suffix. -/
def isQuantTok : ETok → Bool
  | .tStar => true
  | .tPlus => true
  | .tQuest => true
  | .tRep _ _ => true
  | _ => false

/-- Whether a token stream begins with a quantifier. -/
def quantStart : List ETok → Bool
  | [] => false
  | t :: _ => isQuantTok t

/-- Literal payloads: every code point valid. -/
def litOkB (cs : List Nat) : Bool := cs.all validCp

/-- Identifier payloads: nonempty and made of identifier characters. -/
def identOkB (n : List Char) : Bool := !n.isEmpty && n.all isIdentChar

/-- The rest of a string tuple `(lit, lit, ...)` after its first entry. -/
def parseStrMoreT : List ETok → Option (List (List Nat) × List ETok)
  | ETok.tClose :: r => some ([], r)
  | ETok.tComma :: ETok.tLit s :: r =>
    if litOkB s then
      match parseStrMoreT r with
      | some (ss, r2) => some (s :: ss, r2)
      | none => none
    else none
  | _ => none

/-- A parenthesized tuple of string literals. -/
def parseStrTupleT : List ETok → Option (List (List Nat) × List ETok)
  | ETok.tOpen :: ETok.tClose :: r => some ([], r)
  | ETok.tOpen :: ETok.tLit s :: r =>
    if litOkB s then
      match parseStrMoreT r with
      | some (ss, r2) => some (s :: ss, r2)
      | none => none
    else none
  | _ => none

/-- Class items: both endpoints valid code points. -/
def itemOkB (p : Nat × Nat) : Bool := validCp p.1 && validCp p.2

mutual

/-- Modelled from the spec: one atom of a rule body.  A `TagDispatch`
identifier followed by `(` opens a dispatch call; a bare identifier is a
rule reference. -/
def parseAtomT : Nat → List ETok → Option (GAtom × List ETok)
  | 0, _ => none
  | fuel + 1, ts =>
    match ts with
    | ETok.tLit cs :: r => if litOkB cs then some (.lit cs, r) else none
    | ETok.tClass neg items :: r =>
      if items.all itemOkB then some (.cls neg items, r) else none
    | ETok.tIdent s :: r =>
      if s = tagDispatchChars then
        match r with
        | ETok.tOpen :: r2 => parseDispItemsT fuel [] r2
        | _ => none
      else if identOkB s then some (.ref s, r) else none
    | ETok.tOpen :: r =>
      match parseAltsT fuel r with
      | some (b, ETok.tClose :: r2) => some (.group b, r2)
      | _ => none
    | _ => none

/-- The tag tuples of a dispatch call (accumulator reversed). -/
def parseDispItemsT : Nat → List (List Nat × List Char) → List ETok →
    Option (GAtom × List ETok)
  | 0, _, _ => none
  | fuel + 1, ps, ts =>
    match ts with
    | ETok.tOpen :: ETok.tLit tag :: ETok.tComma :: ETok.tIdent rn ::
        ETok.tClose :: r =>
      if tag.isEmpty || !litOkB tag || !identOkB rn then none
      else
        match r with
        | ETok.tComma :: (ETok.tOpen :: r3) =>
          parseDispItemsT fuel ((tag, rn) :: ps) (ETok.tOpen :: r3)
        | ETok.tComma :: r2 =>
          parseDispParamsT fuel (((tag, rn) :: ps).reverse) true [] true [] r2
        | ETok.tClose :: r2 =>
          parseDispParamsT fuel (((tag, rn) :: ps).reverse) true [] true []
            (ETok.tClose :: r2)
        | _ => none
    | _ => parseDispParamsT fuel ps.reverse true [] true [] ts

/-- The named parameters of a dispatch call, any order, all optional.  A
dispatch with `stop_eos=false` and empty `stop_str` is rejected. -/
def parseDispParamsT : Nat → List (List Nat × List Char) → Bool →
    List (List Nat) → Bool → List (List Nat) → List ETok →
    Option (GAtom × List ETok)
  | 0, _, _, _, _, _, _ => none
  | fuel + 1, ps, se, ss, lad, ex, ts =>
    match ts with
    | ETok.tClose :: r =>
      if !se && ss.isEmpty then none
      else some (.dispatch ps se ss lad ex, r)
    | ETok.tIdent n :: ETok.tEq :: r =>
      if n = stopEosChars then
        match r with
        | ETok.tIdent b :: r2 =>
          match identBool b with
          | some v => parseDispSepT fuel ps v ss lad ex r2
          | none => none
        | _ => none
      else if n = stopStrChars then
        match parseStrTupleT r with
        | some (v, r2) => parseDispSepT fuel ps se v lad ex r2
        | none => none
      else if n = loopAfterChars then
        match r with
        | ETok.tIdent b :: r2 =>
          match identBool b with
          | some v => parseDispSepT fuel ps se ss v ex r2
          | none => none
        | _ => none
      else if n = excludesChars then
        match parseStrTupleT r with
        | some (v, r2) => parseDispSepT fuel ps se ss lad v r2
        | none => none
      else none
    | _ => none

/-- After a dispatch parameter: a comma continues, a `)` closes. -/
def parseDispSepT : Nat → List (List Nat × List Char) → Bool →
    List (List Nat) → Bool → List (List Nat) → List ETok →
    Option (GAtom × List ETok)
  | 0, _, _, _, _, _, _ => none
  | fuel + 1, ps, se, ss, lad, ex, ts =>
    match ts with
    | ETok.tComma :: r => parseDispParamsT fuel ps se ss lad ex r
    | ETok.tClose :: r => parseDispParamsT fuel ps se ss lad ex (ETok.tClose :: r)
    | _ => none

/-- An element: an atom with at most one quantifier suffix. -/
def parseElemT : Nat → List ETok → Option (GElem × List ETok)
  | 0, _ => none
  | fuel + 1, ts =>
    match parseAtomT fuel ts with
    | some (a, r) =>
      match r with
      | ETok.tStar :: r2 => some (.elem a (some .star), r2)
      | ETok.tPlus :: r2 => some (.elem a (some .plus), r2)
      | ETok.tQuest :: r2 => some (.elem a (some .opt), r2)
      | ETok.tRep m n :: r2 => some (.elem a (some (.rep m n)), r2)
      | _ => some (.elem a none, r)
    | none => none

/-- A sequence: elements as long as an atom follows. -/
def parseSeqnT : Nat → List ETok → Option (GSeqn × List ETok)
  | 0, _ => none
  | fuel + 1, ts =>
    match parseElemT fuel ts with
    | some (e, r) =>
      if atomStart r then
        match parseSeqnT fuel r with
        | some (s, r2) => some (.cons e s, r2)
        | none => none
      else some (.last e, r)
    | none => none

/-- An alternation: sequences separated by bars. -/
def parseAltsT : Nat → List ETok → Option (GAlts × List ETok)
  | 0, _ => none
  | fuel + 1, ts =>
    match parseSeqnT fuel ts with
    | some (s, r) =>
      match r with
      | ETok.tBar :: r2 =>
        match parseAltsT fuel r2 with
        | some (b, r3) => some (.cons s b, r3)
        | none => none
      | _ => some (.last s, r)
    | none => none

end

/-- One rule line `name ::= body` with an optional `(=expr)` suffix. -/
def parseRuleToks (fuel : Nat) : List ETok → Option ERule
  | ETok.tIdent n :: ETok.tDef :: rest =>
    if identOkB n then
      match parseAltsT fuel rest with
      | some (b, []) => some ⟨n, b, none⟩
      | some (b, ETok.tLook :: r2) =>
        match parseSeqnT fuel r2 with
        | some (s, [ETok.tClose]) => some ⟨n, b, some s⟩
        | _ => none
      | _ => none
    else none
  | _ => none

mutual

/-- Rule references appearing in an atom. -/
def refsOfAtom : GAtom → List (List Char)
  | .lit _ => []
  | .cls _ _ => []
  | .ref n => [n]
  | .group b => refsOfAlts b
  | .dispatch ps _ _ _ _ => ps.map (·.2)

def refsOfElem : GElem → List (List Char)
  | .elem a _ => refsOfAtom a

def refsOfSeqn : GSeqn → List (List Char)
  | .last e => refsOfElem e
  | .cons e s => refsOfElem e ++ refsOfSeqn s

def refsOfAlts : GAlts → List (List Char)
  | .last s => refsOfSeqn s
  | .cons s b => refsOfSeqn s ++ refsOfAlts b

end

/-- Rule references appearing in a rule. -/
def refsOfRule (r : ERule) : List (List Char) :=
  refsOfAlts r.alts ++
    (match r.look with
     | none => []
     | some s => refsOfSeqn s)

/-- Modelled from the spec: every rule reference must be defined. -/
def validG (g : EGrammar) : Bool :=
  ((g.map refsOfRule).join).all (fun n => g.any (fun r => decide (r.name = n)))

/-- A whole grammar: newline-terminated rule lines, then the
undefined-reference check. -/
def parseGrammarToks (ts : List ETok) : Option EGrammar :=
  match (splitSep ETok.tNL ts).reverse with
  | [] :: linesRev =>
    match mapOptionList
        (fun line => parseRuleToks (2 * line.length + 6) line)
        linesRev.reverse with
    | some g => if validG g then some g else none
    | none => none
  | _ => none

/-- Modelled from the spec: parsing EBNF source text into the grammar IR. -/
def parseEbnf (l : List Char) : Option EGrammar :=
  (tokenize l).bind parseGrammarToks

/-- A lowercase hexadecimal digit. -/
def hexDigChar (d : Nat) : Char :=
  if d < 10 then Char.ofNat (48 + d) else Char.ofNat (87 + d)

/-- Two lowercase hexadecimal digits. -/
def printHex2 (n : Nat) : List Char := [hexDigChar (n / 16), hexDigChar (n % 16)]

/-- The canonical spelling of a code point inside a string literal. -/
def printLitCp (n : Nat) : List Char :=
  if n = 10 then ['\\', 'n']
  else if n = 9 then ['\\', 't']
  else if n = 13 then ['\\', 'r']
  else if n = 34 then ['\\', '"']
  else if n = 92 then ['\\', '\\']
  else if n < 32 then '\\' :: 'x' :: printHex2 n
  else if n = 127 then '\\' :: 'x' :: printHex2 n
  else [Char.ofNat n]

/-- The canonical spelling of a code point inside a character class. -/
def printClassCp (n : Nat) : List Char :=
  if n = 10 then ['\\', 'n']
  else if n = 9 then ['\\', 't']
  else if n = 13 then ['\\', 'r']
  else if n = 93 then ['\\', ']']
  else if n = 92 then ['\\', '\\']
  else if n = 94 then ['\\', '^']
  else if n = 45 then ['\\', '-']
  else if n < 32 then '\\' :: 'x' :: printHex2 n
  else if n = 127 then '\\' :: 'x' :: printHex2 n
  else [Char.ofNat n]

/-- A printed string literal. -/
def printLitStr (cs : List Nat) : List Char :=
  '"' :: ((cs.map printLitCp).join ++ ['"'])

/-- A printed class item: single char or range. -/
def printItem (p : Nat × Nat) : List Char :=
  if p.1 = p.2 then printClassCp p.1
  else printClassCp p.1 ++ '-' :: printClassCp p.2

/-- A printed character class. -/
def printClass (neg : Bool) (items : List (Nat × Nat)) : List Char :=
  '[' :: ((if neg then ['^'] else []) ++ (items.map printItem).join ++ [']'])

/-- A printed boolean parameter value. -/
def printBool : Bool → List Char
  | true => trueChars
  | false => falseChars

/-- A printed tuple of string literals. -/
def printStrTuple : List (List Nat) → List Char
  | [] => ['(', ')']
  | s :: ss =>
    '(' :: (printLitStr s ++
      (ss.map (fun t => ',' :: ' ' :: printLitStr t)).join ++ [')'])

/-- A printed quantifier suffix. -/
def printQuantS : Option EQuant → List Char
  | none => []
  | some .star => ['*']
  | some .plus => ['+']
  | some .opt => ['?']
  | some (.rep m none) => lbrace :: (natChars m ++ [',', rbrace])
  | some (.rep m (some n)) =>
    if m = n then lbrace :: (natChars m ++ [rbrace])
    else lbrace :: (natChars m ++ ',' :: natChars n ++ [rbrace])

/-- A printed dispatch tag tuple, with its trailing comma. -/
def printPair (p : List Nat × List Char) : List Char :=
  '(' :: (printLitStr p.1 ++ ',' :: ' ' :: p.2 ++ [')', ',', ' '])

mutual

/-- Modelled from the spec: the canonical printed form of an atom. -/
def printAtomE : GAtom → List Char
  | .lit cs => printLitStr cs
  | .cls neg items => printClass neg items
  | .ref n => n
  | .group b => '(' :: (printAltsE b ++ [')'])
  | .dispatch ps se ss lad ex =>
    tagDispatchChars ++ '(' ::
      ((ps.map printPair).join ++
        stopEosChars ++ '=' :: (printBool se ++ [',', ' ']) ++
        stopStrChars ++ '=' :: (printStrTuple ss ++ [',', ' ']) ++
        loopAfterChars ++ '=' :: (printBool lad ++ [',', ' ']) ++
        excludesChars ++ '=' :: (printStrTuple ex ++ [')']))

def printElemE : GElem → List Char
  | .elem a q => printAtomE a ++ printQuantS q

def printSeqnE : GSeqn → List Char
  | .last e => printElemE e
  | .cons e s => printElemE e ++ ' ' :: printSeqnE s

def printAltsE : GAlts → List Char
  | .last s => printSeqnE s
  | .cons s b => printSeqnE s ++ ' ' :: '|' :: ' ' :: printAltsE b

end

/-- The canonical printed form of a rule (newline-terminated). -/
def printRuleE (r : ERule) : List Char :=
  r.name ++ ' ' :: ':' :: ':' :: '=' :: ' ' :: printAltsE r.alts ++
    (match r.look with
     | none => []
     | some s => ' ' :: '(' :: '=' :: printSeqnE s ++ [')']) ++ ['\n']

/-- Modelled from the spec: the canonical printed form (`to_string_ebnf`). -/
def printEbnf (g : EGrammar) : List Char :=
  (g.map printRuleE).join

/-- The token list of a printed quantifier. -/
def tokensOfQuant : Option EQuant → List ETok
  | none => []
  | some .star => [.tStar]
  | some .plus => [.tPlus]
  | some .opt => [.tQuest]
  | some (.rep m n) => [.tRep m n]

/-- The token list of a printed string tuple. -/
def strTupleToks : List (List Nat) → List ETok
  | [] => [.tOpen, .tClose]
  | s :: ss =>
    .tOpen :: .tLit s ::
      ((ss.map (fun t => [ETok.tComma, ETok.tLit t])).join ++ [.tClose])

/-- The token list of the dispatch parameter block. -/
def paramToks (se : Bool) (ss : List (List Nat)) (lad : Bool)
    (ex : List (List Nat)) : List ETok :=
  [.tIdent stopEosChars, .tEq, .tIdent (printBool se), .tComma,
   .tIdent stopStrChars, .tEq] ++ strTupleToks ss ++
  [.tComma, .tIdent loopAfterChars, .tEq, .tIdent (printBool lad), .tComma,
   .tIdent excludesChars, .tEq] ++ strTupleToks ex ++ [.tClose]

/-- The token list of one printed dispatch pair (with trailing comma). -/
def pairToks (p : List Nat × List Char) : List ETok :=
  [.tOpen, .tLit p.1, .tComma, .tIdent p.2, .tClose, .tComma]

mutual

/-- The token list of a printed atom. -/
def tokensOfAtom : GAtom → List ETok
  | .lit cs => [.tLit cs]
  | .cls neg items => [.tClass neg items]
  | .ref n => [.tIdent n]
  | .group b => .tOpen :: (tokensOfAlts b ++ [.tClose])
  | .dispatch ps se ss lad ex =>
    .tIdent tagDispatchChars :: .tOpen ::
      ((ps.map pairToks).join ++ paramToks se ss lad ex)

def tokensOfElem : GElem → List ETok
  | .elem a q => tokensOfAtom a ++ tokensOfQuant q

def tokensOfSeqn : GSeqn → List ETok
  | .last e => tokensOfElem e
  | .cons e s => tokensOfElem e ++ tokensOfSeqn s

def tokensOfAlts : GAlts → List ETok
  | .last s => tokensOfSeqn s
  | .cons s b => tokensOfSeqn s ++ .tBar :: tokensOfAlts b

end

/-- The token list of a printed rule (without the newline). -/
def tokensOfRule (r : ERule) : List ETok :=
  .tIdent r.name :: .tDef :: tokensOfAlts r.alts ++
    (match r.look with
     | none => []
     | some s => .tLook :: tokensOfSeqn s ++ [.tClose])

/-- The token list of a printed grammar. -/
def tokensOfGrammar (g : EGrammar) : List ETok :=
  (g.map (fun r => tokensOfRule r ++ [.tNL])).join

/-- Rule-reference names: identifiers other than the dispatch keyword. -/
def refOkB (n : List Char) : Bool := identOkB n && !(decide (n = tagDispatchChars))

mutual

/-- Well-formed atoms: payloads valid, references not the keyword, dispatch
tags nonempty and terminable. -/
def atomOkB : GAtom → Bool
  | .lit cs => litOkB cs
  | .cls _ items => items.all itemOkB
  | .ref n => refOkB n
  | .group b => altsOkB b
  | .dispatch ps se ss _ ex =>
    ps.all (fun p => !p.1.isEmpty && litOkB p.1 && identOkB p.2) &&
      (se || !ss.isEmpty) && ss.all litOkB && ex.all litOkB

def elemOkB : GElem → Bool
  | .elem a _ => atomOkB a

def seqnOkB : GSeqn → Bool
  | .last e => elemOkB e
  | .cons e s => elemOkB e && seqnOkB s

def altsOkB : GAlts → Bool
  | .last s => seqnOkB s
  | .cons s b => seqnOkB s && altsOkB b

end

/-- Well-formed rules. -/
def ruleOkB (r : ERule) : Bool :=
  identOkB r.name && altsOkB r.alts &&
    (match r.look with
     | none => true
     | some s => seqnOkB s)

/-- Well-formed grammars: rules well-formed and all references defined. -/
def grammarOk (g : EGrammar) : Bool := g.all ruleOkB && validG g

/-- Whether a character list does not begin with an identifier character. -/
def headNonIdent : List Char → Prop
  | [] => True
  | c :: _ => isIdentChar c = false

/-- Whether a character list does not begin with the given character. -/
def headIsNot (c : Char) : List Char → Prop
  | [] => True
  | d :: _ => ¬(d = c)

/-- Whether a character list does not begin with a decimal digit. -/
def headNonDigit : List Char → Prop
  | [] => True
  | c :: _ => charToDigit c = none

/-- Whether a character list begins, and not with `-`. -/
def headNotDash : List Char → Prop
  | [] => False
  | c :: _ => ¬(c = '-')

/-- Whether a character list begins, and not with `^`. -/
def headNotHat : List Char → Prop
  | [] => False
  | c :: _ => ¬(c = '^')

mutual

/-- Fuel needed by the token parser for an atom. -/
def sizeAtom : GAtom → Nat
  | .lit _ => 1
  | .cls _ _ => 1
  | .ref _ => 1
  | .group b => sizeAlts b + 1
  | .dispatch ps _ _ _ _ => ps.length + 12

def sizeElem : GElem → Nat
  | .elem a _ => sizeAtom a + 1

def sizeSeqn : GSeqn → Nat
  | .last e => sizeElem e + 1
  | .cons e s => max (sizeElem e) (sizeSeqn s) + 1

def sizeAlts : GAlts → Nat
  | .last s => sizeSeqn s + 1
  | .cons s b => max (sizeSeqn s) (sizeAlts b) + 1

end

/-- Whether a token stream does not begin with a bar. -/
def notBarStart : List ETok → Bool
  | ETok.tBar :: _ => false
  | _ => true

/-- A named dispatch parameter with its value. -/
inductive PVal where
  | pse (b : Bool)
  | pss (ss : List (List Nat))
  | plad (b : Bool)
  | pex (ss : List (List Nat))

/-- The token run of one printed dispatch parameter. -/
def pvalToks : PVal → List ETok
  | .pse b => [.tIdent stopEosChars, .tEq, .tIdent (printBool b)]
  | .pss ss => [.tIdent stopStrChars, .tEq] ++ strTupleToks ss
  | .plad b => [.tIdent loopAfterChars, .tEq, .tIdent (printBool b)]
  | .pex ss => [.tIdent excludesChars, .tEq] ++ strTupleToks ss

mutual

/-- The token run of a printed dispatch parameter list, ending at `)`. -/
def paramsToks : List PVal → List ETok
  | [] => [ETok.tClose]
  | v :: vs => pvalToks v ++ sepParamsToks vs

/-- The separator before the rest of a parameter list. -/
def sepParamsToks : List PVal → List ETok
  | [] => [ETok.tClose]
  | v :: vs => ETok.tComma :: (pvalToks v ++ sepParamsToks vs)

end

/-- Applying a parameter to the dispatch parameter state. -/
def applyPVal (st : Bool × List (List Nat) × Bool × List (List Nat)) :
    PVal → Bool × List (List Nat) × Bool × List (List Nat)
  | .pse b => (b, st.2.1, st.2.2.1, st.2.2.2)
  | .pss ss => (st.1, ss, st.2.2.1, st.2.2.2)
  | .plad b => (st.1, st.2.1, b, st.2.2.2)
  | .pex ss => (st.1, st.2.1, st.2.2.1, ss)

/-- Well-formed parameter values. -/
def pvalOk : PVal → Bool
  | .pse _ => true
  | .pss ss => ss.all litOkB
  | .plad _ => true
  | .pex ss => ss.all litOkB

/-- The terminability check the parser applies at the closing paren. -/
def okClose (st : Bool × List (List Nat) × Bool × List (List Nat)) : Bool :=
  st.1 || !st.2.1.isEmpty

/-- Well-formed dispatch pairs. -/
def pairOkB (p : List Nat × List Char) : Bool :=
  !p.1.isEmpty && litOkB p.1 && identOkB p.2

/-- The rule names of the witness grammar. -/
def rootChars : List Char := ['r', 'o', 'o', 't']

/-- The second rule name of the witness grammar. -/
def innerChars : List Char := ['i', 'n', 'n', 'e', 'r']

/-- A witness grammar exercising escapes, character classes, all quantifier
forms, nested grouping, rule references, TagDispatch with explicit
parameters, and a lookahead assertion. -/
def gW : EGrammar :=
  [⟨rootChars,
    .cons (.cons (.elem (.lit [97, 10, 955]) none)
            (.last (.elem (.cls true [(98, 100), (48, 48)]) (some .plus))))
      (.cons (.last (.elem (.group (.cons (.last (.elem (.ref innerChars)
              (some (.rep 2 (some 3)))))
            (.last (.last (.elem (.lit []) none)))))
          (some .opt)))
        (.last (.last (.elem (.cls false [(65, 90)]) (some (.rep 4 none)))))),
    none⟩,
   ⟨innerChars,
    .last (.last (.elem (.dispatch [([116, 49], rootChars), ([116, 50], innerChars)]
        false [[115]] true [[120]]) none)),
    some (.last (.elem (.lit [122]) (some (.rep 5 (some 5)))))⟩]

/-! ## A small concrete automaton, used to instantiate the matcher model

Configurations are naturals.  Byte 0 moves configuration 0 to 1, byte 1
moves 1 to 2; configuration 2 is accepting.  Token 0 decodes to byte [0],
token 1 to [1], token 2 to [0, 5] (its second byte is never admitted),
and token 9 is the stop token. -/

def toyModel : MatcherModel Nat where
  stepByte := fun c b =>
    if c == 0 && b == 0 then [1] else if c == 1 && b == 1 then [2] else []
  accepting := fun c => c == 2
  tokenBytes := fun t => if t == 0 then [0] else if t == 1 then [1] else [0, 5]
  stopIds := [9]
  vocabSize := 3

def toyState : MatcherState Nat := ⟨[0], false, [], -1⟩

def toyAccepted : MatcherState Nat := ⟨[2], false, [([1], false), ([0], false)], -1⟩

def toyRolled : MatcherState Nat := ⟨[0], false, [], -1⟩

def toyTerm : MatcherState Nat :=
  ⟨[2], true, [([2], false), ([1], false), ([0], false)], -1⟩

def toyRolled2 : MatcherState Nat := ⟨[1], false, [([0], false)], -1⟩

/-! ## Theorems -/

theorem get_bitmask_shape_fst (b v : Nat) : (get_bitmask_shape b v).1 = b := rfl

theorem get_bitmask_shape_ceil (b v : Nat) :
    v ≤ 32 * (get_bitmask_shape b v).2 ∧ 32 * (get_bitmask_shape b v).2 < v + 32 := by
  unfold get_bitmask_shape
  simp only
  omega

/-- C5: `get_bitmask_shape(b, v)` is `(b, ceil(v/32))` (the second component is
the unique `s` with `v ≤ 32*s < v + 32`); `allocate_token_bitmask(b, v)` is a
buffer of exactly `b * ceil(v/32)` words, each equal to `-1` (all bits set);
and `reset_token_bitmask` rewrites every word of an arbitrary buffer to `-1`,
keeping its length. -/
theorem token_bitmask_allocation_spec (b v : Nat) (buf : List Int) :
    (get_bitmask_shape b v).1 = b ∧
    v ≤ 32 * (get_bitmask_shape b v).2 ∧
    32 * (get_bitmask_shape b v).2 < v + 32 ∧
    (allocate_token_bitmask b v).length = b * (get_bitmask_shape b v).2 ∧
    (∀ x ∈ allocate_token_bitmask b v, x = -1) ∧
    (reset_token_bitmask buf).length = buf.length ∧
    (∀ x ∈ reset_token_bitmask buf, x = -1) := by
  refine ⟨rfl, (get_bitmask_shape_ceil b v).1, (get_bitmask_shape_ceil b v).2, ?_, ?_, ?_, ?_⟩
  · simp [allocate_token_bitmask]
  · intro x hx
    exact (List.eq_of_mem_replicate hx)
  · simp [reset_token_bitmask]
  · intro x hx
    simp [reset_token_bitmask] at hx
    obtain ⟨a, _, rfl⟩ := hx
    rfl

/-! ### Matcher: observable-state lemmas -/

theorem MatcherState.obs_current {C : Type} {s s' : MatcherState C}
    (h : s.obs = s'.obs) : s.current = s'.current := congrArg Prod.fst h

theorem MatcherState.obs_terminated {C : Type} {s s' : MatcherState C}
    (h : s.obs = s'.obs) : s.terminated = s'.terminated := congrArg Prod.snd h

theorem acceptToken_fst_obs {C : Type} (M : MatcherModel C) {s s' : MatcherState C}
    (h : s.obs = s'.obs) (t : Nat) :
    (acceptToken M s t).1 = (acceptToken M s' t).1 := by
  have hc := MatcherState.obs_current h
  have ht := MatcherState.obs_terminated h
  simp only [acceptToken, hc, ht]
  split
  · rfl
  · split
    · split <;> rfl
    · cases hb : acceptBytesFrom M s'.current (M.tokenBytes t) <;> simp [hb]

theorem acceptToken_snd_obs {C : Type} (M : MatcherModel C) {s s' : MatcherState C}
    (h : s.obs = s'.obs) (t : Nat) :
    ((acceptToken M s t).2).obs = ((acceptToken M s' t).2).obs := by
  have hc := MatcherState.obs_current h
  have ht := MatcherState.obs_terminated h
  simp only [acceptToken, hc, ht]
  split
  · exact h
  · split
    · split
      · rfl
      · exact h
    · cases hb : acceptBytesFrom M s'.current (M.tokenBytes t) <;>
        simp [hb, MatcherState.obs, hc, ht]

theorem fillNextTokenBitmask_obs {C : Type} (M : MatcherModel C) {s s' : MatcherState C}
    (h : s.obs = s'.obs) :
    fillNextTokenBitmask M s = fillNextTokenBitmask M s' := by
  unfold fillNextTokenBitmask
  exact List.map_congr_left (fun t _ => acceptToken_fst_obs M h t)

theorem bitmaskTrace_obs {C : Type} (M : MatcherModel C) {s s' : MatcherState C}
    (ts : List Nat) (h : s.obs = s'.obs) :
    bitmaskTrace M s ts = bitmaskTrace M s' ts := by
  induction ts generalizing s s' with
  | nil => simp [bitmaskTrace, fillNextTokenBitmask_obs M h]
  | cons t ts ih =>
    simp only [bitmaskTrace]
    have hf := acceptToken_fst_obs M h t
    have hs := acceptToken_snd_obs M h t
    cases h1 : acceptToken M s t with
    | mk ok1 s1 =>
      cases h2 : acceptToken M s' t with
      | mk ok2 s2 =>
        have hok : ok1 = ok2 := by rw [h1, h2] at hf; exact hf
        have hobs : s1.obs = s2.obs := by rw [h1, h2] at hs; exact hs
        cases ok1 with
        | true =>
          cases hok.symm
          simp [ih hobs, fillNextTokenBitmask_obs M h]
        | false => cases hok.symm; rfl

theorem acceptSeq_obs {C : Type} (M : MatcherModel C) {s s' : MatcherState C}
    (ts : List Nat) (h : s.obs = s'.obs) :
    (acceptSeq M s ts).map MatcherState.obs = (acceptSeq M s' ts).map MatcherState.obs := by
  induction ts generalizing s s' with
  | nil => simpa [acceptSeq] using h
  | cons t ts ih =>
    simp only [acceptSeq]
    have hf := acceptToken_fst_obs M h t
    have hs := acceptToken_snd_obs M h t
    cases h1 : acceptToken M s t with
    | mk ok1 s1 =>
      cases h2 : acceptToken M s' t with
      | mk ok2 s2 =>
        have hok : ok1 = ok2 := by rw [h1, h2] at hf; exact hf
        have hobs : s1.obs = s2.obs := by rw [h1, h2] at hs; exact hs
        cases ok1 with
        | true => cases hok.symm; exact ih hobs
        | false => cases hok.symm; rfl

/-! ### Matcher: history and rollback lemmas -/

theorem pushSnap_eq_capHist {C : Type} (s : MatcherState C) (snap : List C × Bool) :
    pushSnap s snap = capHist s.maxRollback (snap :: s.history) := rfl

theorem capHist_append_capHist {C : Type} (m : Int) (A L : List (List C × Bool)) :
    capHist m (A ++ capHist m L) = capHist m (A ++ L) := by
  unfold capHist
  split
  · rfl
  · rw [List.take_append_eq_append_take, List.take_take, List.take_append_eq_append_take,
      Nat.min_eq_left (Nat.sub_le _ _)]

theorem acceptToken_success_history {C : Type} {M : MatcherModel C}
    {s s1 : MatcherState C} {t : Nat} (h : acceptToken M s t = (true, s1)) :
    s1.history = capHist s.maxRollback ((s.current, s.terminated) :: s.history) ∧
    s1.maxRollback = s.maxRollback := by
  unfold acceptToken at h
  split at h
  · simp at h
  · split at h
    · split at h
      · cases h
        exact ⟨rfl, rfl⟩
      · simp at h
    · split at h
      · cases h
        exact ⟨rfl, rfl⟩
      · simp at h

theorem acceptSeq_history {C : Type} (M : MatcherModel C) {s s' : MatcherState C}
    {ts : List Nat} (h : acceptSeq M s ts = some s') (hne : ts ≠ []) :
    s'.maxRollback = s.maxRollback ∧
    ∃ snaps : List (List C × Bool), snaps.length = ts.length ∧
      snaps.getLast? = some s.obs ∧
      s'.history = capHist s.maxRollback (snaps ++ s.history) := by
  induction ts generalizing s with
  | nil => exact absurd rfl hne
  | cons t ts ih =>
    simp only [acceptSeq] at h
    cases h1 : acceptToken M s t with
    | mk ok s1 =>
      rw [h1] at h
      cases ok with
      | false => simp at h
      | true =>
        simp only at h
        obtain ⟨hh, hm⟩ := acceptToken_success_history h1
        by_cases hts : ts = []
        · subst hts
          simp only [acceptSeq, Option.some.injEq] at h
          subst h
          refine ⟨hm, [(s.current, s.terminated)], rfl, rfl, ?_⟩
          rw [hh]
          rfl
        · obtain ⟨hm', snaps, hlen, hlast, hhist⟩ := ih h hts
          refine ⟨hm'.trans hm, snaps ++ [(s.current, s.terminated)], by simp [hlen], ?_, ?_⟩
          · simp [MatcherState.obs]
          · rw [hhist, hh, hm, List.append_assoc, List.singleton_append,
              capHist_append_capHist]

theorem rollback_zero {C : Type} (s : MatcherState C) : rollback s 0 = some s := rfl

theorem rollback_after_acceptSeq {C : Type} (M : MatcherModel C)
    {s s' s'' : MatcherState C} {ts : List Nat}
    (h : acceptSeq M s ts = some s') (hr : rollback s' ts.length = some s'') :
    s''.obs = s.obs := by
  by_cases hts : ts = []
  · subst hts
    simp only [acceptSeq, Option.some.injEq] at h
    subst h
    simp only [List.length_nil, rollback_zero, Option.some.injEq] at hr
    rw [hr]
  · obtain ⟨hm, snaps, hlen, hlast, hhist⟩ := acceptSeq_history M h hts
    have hk : ts.length ≠ 0 := fun h0 => hts (List.length_eq_zero.mp h0)
    unfold rollback at hr
    rw [if_neg hk] at hr
    cases hg : s'.history.get? (ts.length - 1) with
    | none => rw [hg] at hr; cases hr
    | some snap =>
      rw [hg] at hr
      simp only [Option.some.injEq] at hr
      have hsnap : snap = s.obs := by
        rw [hhist] at hg
        unfold capHist at hg
        have hidx : (snaps ++ s.history).get? (ts.length - 1) = some snap := by
          split at hg
          · exact hg
          · have hlt : ts.length - 1 < s.maxRollback.toNat := by
              by_contra hge
              rw [List.get?_eq_none.mpr ?_] at hg
              · cases hg
              · calc ((snaps ++ s.history).take s.maxRollback.toNat).length
                    ≤ s.maxRollback.toNat := by
                      simp [List.length_take]
                  _ ≤ ts.length - 1 := Nat.le_of_not_lt hge
            rw [List.get?_take hlt] at hg
            exact hg
        have hlt2 : ts.length - 1 < snaps.length := by
          rw [hlen]; omega
        rw [List.get?_append hlt2, ← hlen] at hidx
        rw [List.getLast?_eq_get?] at hlast
        rw [hidx] at hlast
        exact (Option.some.injEq _ _).mp hlast.symm |>.symm
      rw [← hr]
      rw [hsnap]
      rfl

/-- C1: for every grammar, tokenizer and state (any configuration step
relation and matcher state), if the matcher accepts a sequence of tokens and
then rolls all of them back, `fill_next_token_bitmask` reproduces exactly the
bitmask observed before the tokens were accepted, and re-accepting the same
tokens succeeds again, reproducing the same per-step bitmasks and reaching an
observably identical state. -/
theorem rollback_restores_bitmask {C : Type} (M : MatcherModel C)
    {s0 s1 s2 : MatcherState C} {ts : List Nat}
    (hacc : acceptSeq M s0 ts = some s1)
    (hrb : rollback s1 ts.length = some s2) :
    fillNextTokenBitmask M s2 = fillNextTokenBitmask M s0 ∧
    bitmaskTrace M s2 ts = bitmaskTrace M s0 ts ∧
    ∃ s3, acceptSeq M s2 ts = some s3 ∧ s3.obs = s1.obs := by
  have hobs := rollback_after_acceptSeq M hacc hrb
  refine ⟨fillNextTokenBitmask_obs M hobs, bitmaskTrace_obs M ts hobs, ?_⟩
  have hmap := acceptSeq_obs M ts hobs
  rw [hacc] at hmap
  cases h3 : acceptSeq M s2 ts with
  | none => rw [h3] at hmap; cases hmap
  | some s3 =>
    rw [h3] at hmap
    simp only [Option.map_some', Option.some.injEq] at hmap
    exact ⟨s3, rfl, hmap⟩

/-! ### Matcher: termination lemmas -/

theorem acceptToken_of_terminated {C : Type} (M : MatcherModel C)
    {s : MatcherState C} (h : s.terminated = true) (t : Nat) :
    acceptToken M s t = (false, s) := by
  unfold acceptToken
  rw [if_pos h]

theorem acceptToken_success_src_not_terminated {C : Type} {M : MatcherModel C}
    {s s1 : MatcherState C} {t : Nat} (h : acceptToken M s t = (true, s1)) :
    s.terminated = false := by
  unfold acceptToken at h
  split at h
  · cases h
  · rename_i hterm
    exact Bool.not_eq_true _ ▸ (by simpa using hterm)

theorem acceptToken_success_nonstop_terminated {C : Type} {M : MatcherModel C}
    {s s1 : MatcherState C} {t : Nat} (hst : t ∉ M.stopIds)
    (h : acceptToken M s t = (true, s1)) : s1.terminated = false := by
  unfold acceptToken at h
  by_cases h0 : s.terminated = true
  · rw [if_pos h0] at h
    cases h
  · rw [if_neg h0, if_neg hst] at h
    cases hb : acceptBytesFrom M s.current (M.tokenBytes t) with
    | none => rw [hb] at h; cases h
    | some cs' =>
      rw [hb] at h
      injection h with h1 h2
      rw [← h2]

theorem acceptToken_success_stop_terminated {C : Type} {M : MatcherModel C}
    {s s1 : MatcherState C} {t : Nat} (hst : t ∈ M.stopIds)
    (h : acceptToken M s t = (true, s1)) : s1.terminated = true := by
  unfold acceptToken at h
  by_cases h0 : s.terminated = true
  · rw [if_pos h0] at h
    cases h
  · rw [if_neg h0, if_pos hst] at h
    by_cases h2 : s.current.any M.accepting = true
    · rw [if_pos h2] at h
      injection h with h1 h2
      rw [← h2]
    · rw [if_neg h2] at h
      cases h

theorem acceptSeq_nonstop_terminated {C : Type} {M : MatcherModel C}
    {s s' : MatcherState C} {ts : List Nat}
    (hstop : ∀ t ∈ ts, t ∉ M.stopIds) (h : acceptSeq M s ts = some s')
    (h0 : s.terminated = false) : s'.terminated = false := by
  induction ts generalizing s with
  | nil =>
    simp only [acceptSeq, Option.some.injEq] at h
    subst h
    exact h0
  | cons t ts ih =>
    simp only [acceptSeq] at h
    cases h1 : acceptToken M s t with
    | mk ok s1 =>
      rw [h1] at h
      cases ok with
      | false => cases h
      | true =>
        exact ih (fun u hu => hstop u (List.mem_cons_of_mem _ hu)) h
          (acceptToken_success_nonstop_terminated (hstop t (List.mem_cons_self _ _)) h1)

theorem acceptSeq_append {C : Type} (M : MatcherModel C) (s : MatcherState C)
    (as bs : List Nat) :
    acceptSeq M s (as ++ bs) = (acceptSeq M s as).bind (fun m => acceptSeq M m bs) := by
  induction as generalizing s with
  | nil => rfl
  | cons a as ih =>
    simp only [List.cons_append, acceptSeq]
    cases acceptToken M s a with
    | mk ok s1 =>
      cases ok with
      | false => rfl
      | true => exact ih s1

theorem acceptBytesFrom_append {C : Type} (M : MatcherModel C) (cs : List C)
    (xs ys : List Nat) :
    acceptBytesFrom M cs (xs ++ ys) =
      (acceptBytesFrom M cs xs).bind (fun cs' => acceptBytesFrom M cs' ys) := by
  induction xs generalizing cs with
  | nil => rfl
  | cons b bs ih =>
    simp only [List.cons_append, acceptBytesFrom]
    cases advanceByte M cs b with
    | nil => rfl
    | cons c cs' => exact ih (c :: cs')

/-- C2: if a token's bytes advance some prefix successfully and a later byte
is not admitted by any configuration, `accept_token` returns `false` and the
matcher is exactly the state from before the call, so every token acceptable
before the failed call is still acceptable afterwards (the call behaves as if
it never happened). -/
theorem accept_token_partial_failure_atomic {C : Type} (M : MatcherModel C)
    (s : MatcherState C) (t : Nat) (pre rest : List Nat) (b : Nat) (cs1 : List C)
    (ht : M.tokenBytes t = pre ++ b :: rest)
    (hpre : acceptBytesFrom M s.current pre = some cs1)
    (hfail : advanceByte M cs1 b = [])
    (hstop : t ∉ M.stopIds) :
    acceptToken M s t = (false, s) ∧
    ∀ u : Nat, acceptToken M (acceptToken M s t).2 u = acceptToken M s u := by
  have hbytes : acceptBytesFrom M s.current (M.tokenBytes t) = none := by
    rw [ht, acceptBytesFrom_append, hpre]
    simp only [Option.some_bind, acceptBytesFrom, hfail]
  have hmain : acceptToken M s t = (false, s) := by
    unfold acceptToken
    by_cases h0 : s.terminated = true
    · rw [if_pos h0]
    · rw [if_neg h0, if_neg hstop, hbytes]
  exact ⟨hmain, fun u => by rw [hmain]⟩

/-- C3: a complete derivation (a run of non-stop tokens that leaves an
accepting configuration live) followed by a configured stop token terminates
the matcher; in the terminated state every further non-stop token is
rejected with the state unchanged; and rolling back past the stop token
returns the matcher to a non-terminated state from which the rolled-back
tokens (including the stop token) can be re-accepted, reaching an observably
identical terminated state. -/
theorem termination_via_stop_token {C : Type} (M : MatcherModel C)
    {s0 s2 : MatcherState C} {ts : List Nat} {stop : Nat} (k : Nat)
    (hterm0 : s0.terminated = false)
    (hts : ∀ t ∈ ts, t ∉ M.stopIds)
    (hstop : stop ∈ M.stopIds)
    (hacc : acceptSeq M s0 (ts ++ [stop]) = some s2)
    (hk : k ≤ ts.length) :
    s2.terminated = true ∧
    (∀ u, u ∉ M.stopIds → acceptToken M s2 u = (false, s2)) ∧
    (∀ s3, rollback s2 (k + 1) = some s3 →
      s3.terminated = false ∧
      ∃ s4, acceptSeq M s3 (ts.drop (ts.length - k) ++ [stop]) = some s4 ∧
        s4.obs = s2.obs) := by
  have hsplit := acceptSeq_append M s0 ts [stop]
  rw [hacc] at hsplit
  cases h1 : acceptSeq M s0 ts with
  | none => rw [h1] at hsplit; cases hsplit
  | some s1 =>
    rw [h1] at hsplit
    simp only [Option.some_bind] at hsplit
    have hstopacc : acceptSeq M s1 [stop] = some s2 := hsplit.symm
    simp only [acceptSeq] at hstopacc
    cases h2 : acceptToken M s1 stop with
    | mk ok s2' =>
      rw [h2] at hstopacc
      cases ok with
      | false => cases hstopacc
      | true =>
        simp only [acceptSeq, Option.some.injEq] at hstopacc
        rw [hstopacc] at h2
        have hterm2 : s2.terminated = true := acceptToken_success_stop_terminated hstop h2
        refine ⟨hterm2, fun u _ => acceptToken_of_terminated M hterm2 u, ?_⟩
        intro s3 hrb
        -- split the run at `ts.length - k`
        have hdecomp : ts.take (ts.length - k) ++ (ts.drop (ts.length - k) ++ [stop])
            = ts ++ [stop] := by
          rw [← List.append_assoc, List.take_append_drop]
        have hacc' := hacc
        rw [← hdecomp, acceptSeq_append] at hacc'
        cases hmid : acceptSeq M s0 (ts.take (ts.length - k)) with
        | none => rw [hmid] at hacc'; cases hacc'
        | some mid =>
          rw [hmid] at hacc'
          simp only [Option.some_bind] at hacc'
          have hlen : (ts.drop (ts.length - k) ++ [stop]).length = k + 1 := by
            simp [List.length_drop]
            omega
          have hobs3 : s3.obs = mid.obs := by
            apply rollback_after_acceptSeq M hacc'
            rw [hlen]
            exact hrb
          have hmidterm : mid.terminated = false :=
            acceptSeq_nonstop_terminated
              (fun u hu => hts u (List.mem_of_mem_take hu)) hmid hterm0
          refine ⟨by rw [MatcherState.obs_terminated hobs3, hmidterm], ?_⟩
          have hmap := acceptSeq_obs M (ts.drop (ts.length - k) ++ [stop]) hobs3
          rw [hacc'] at hmap
          cases h4 : acceptSeq M s3 (ts.drop (ts.length - k) ++ [stop]) with
          | none => rw [h4] at hmap; cases hmap
          | some s4 =>
            rw [h4] at hmap
            simp only [Option.map_some', Option.some.injEq] at hmap
            exact ⟨s4, rfl, hmap⟩

theorem rollback_restores_bitmask_witness :
    fillNextTokenBitmask toyModel toyRolled = fillNextTokenBitmask toyModel toyState ∧
    bitmaskTrace toyModel toyRolled [0, 1] = bitmaskTrace toyModel toyState [0, 1] ∧
    ∃ s3, acceptSeq toyModel toyRolled [0, 1] = some s3 ∧ s3.obs = toyAccepted.obs :=
  @rollback_restores_bitmask Nat toyModel toyState toyAccepted toyRolled [0, 1] rfl rfl

theorem accept_token_partial_failure_atomic_witness :
    acceptToken toyModel toyState 2 = (false, toyState) ∧
    ∀ u : Nat, acceptToken toyModel (acceptToken toyModel toyState 2).2 u =
      acceptToken toyModel toyState u :=
  accept_token_partial_failure_atomic toyModel toyState 2 [0] [] 5 [1]
    rfl rfl rfl (by decide)

theorem termination_via_stop_token_witness :
    toyTerm.terminated = true ∧
    acceptToken toyModel toyTerm 0 = (false, toyTerm) ∧
    (toyRolled2.terminated = false ∧
      ∃ s4, acceptSeq toyModel toyRolled2 [1, 9] = some s4 ∧ s4.obs = toyTerm.obs) := by
  have h := @termination_via_stop_token Nat toyModel toyState toyTerm [0, 1] 9 1
    rfl (by decide) (by decide) rfl (by decide)
  exact ⟨h.1, h.2.1 0 (by decide), h.2.2 toyRolled2 rfl⟩

/-! ### Batch coordinator lemmas -/

theorem applyWrites_cons {R : Type} (buf : List R) (w : Nat × R) (ws : List (Nat × R)) :
    applyWrites buf (w :: ws) = applyWrites (writeRow buf w) ws := rfl

theorem applyWrites_perm {R : Type} {ws ws' : List (Nat × R)}
    (hp : ws.Perm ws') (hd : ws.Pairwise (fun a b => a.1 ≠ b.1)) :
    ∀ buf : List R, applyWrites buf ws = applyWrites buf ws' := by
  induction hp with
  | nil => intro buf; rfl
  | cons x hxs ih =>
    intro buf
    rw [applyWrites_cons, applyWrites_cons]
    exact ih (List.Pairwise.of_cons hd) (writeRow buf x)
  | swap x y l =>
    intro buf
    rw [applyWrites_cons, applyWrites_cons, applyWrites_cons, applyWrites_cons]
    have hxy : y.1 ≠ x.1 := (List.pairwise_cons.mp hd).1 x (List.mem_cons_self _ _)
    unfold writeRow
    rw [List.set_comm _ _ _ hxy]
  | trans h1 h2 ih1 ih2 =>
    intro buf
    rw [ih1 hd buf]
    exact ih2 ((h1.pairwise_iff (fun h => Ne.symm h)).mp hd) buf

theorem applyWrites_get_of_not_mem {R : Type} (buf : List R) (ws : List (Nat × R))
    (i : Nat) (h : ∀ w ∈ ws, w.1 ≠ i) :
    (applyWrites buf ws).get? i = buf.get? i := by
  induction ws generalizing buf with
  | nil => rfl
  | cons w ws ih =>
    rw [applyWrites_cons, ih _ (fun u hu => h u (List.mem_cons_of_mem _ hu))]
    unfold writeRow
    rw [List.get?_set_ne _ _ (h w (List.mem_cons_self _ _))]

theorem applyWrites_get_of_mem {R : Type} (buf : List R) (ws : List (Nat × R))
    (hd : ws.Pairwise (fun a b => a.1 ≠ b.1)) (i : Nat) (r : R)
    (hmem : (i, r) ∈ ws) (hlen : i < buf.length) :
    (applyWrites buf ws).get? i = some r := by
  induction ws generalizing buf with
  | nil => cases hmem
  | cons w ws ih =>
    rcases List.mem_cons.mp hmem with heq | htail
    · subst heq
      rw [applyWrites_cons,
        applyWrites_get_of_not_mem _ _ _
          (fun w hw => ((List.pairwise_cons.mp hd).1 w hw).symm)]
      show (buf.set i r).get? i = some r
      exact List.get?_set_eq_of_lt r hlen
    · rw [applyWrites_cons]
      exact ih (writeRow buf w) (List.Pairwise.of_cons hd) htail
        (by simpa [writeRow] using hlen)

theorem batchWritesAux_targets {Mt R : Type} (fillRow : Mt → R)
    (indices : Option (List Nat)) (ms : List Mt) (i0 : Nat) :
    ∀ w ∈ batchWritesAux fillRow indices i0 ms,
      ∃ j, j < ms.length ∧ w.1 = scatterTarget indices (i0 + j) := by
  induction ms generalizing i0 with
  | nil => intro w hw; cases hw
  | cons m ms ih =>
    intro w hw
    rcases List.mem_cons.mp hw with heq | htail
    · exact ⟨0, Nat.succ_pos _, by rw [heq]; simp⟩

    · obtain ⟨j, hj, hw1⟩ := ih (i0 + 1) w htail
      exact ⟨j + 1, Nat.succ_lt_succ hj, by rw [hw1]; ring_nf⟩

theorem batchWritesAux_pairwise {Mt R : Type} (fillRow : Mt → R)
    (indices : Option (List Nat)) (ms : List Mt) (i0 : Nat)
    (hinj : ∀ a b, a < ms.length → b < ms.length → a ≠ b →
      scatterTarget indices (i0 + a) ≠ scatterTarget indices (i0 + b)) :
    (batchWritesAux fillRow indices i0 ms).Pairwise (fun a b => a.1 ≠ b.1) := by
  induction ms generalizing i0 with
  | nil => exact List.Pairwise.nil
  | cons m ms ih =>
    rw [batchWritesAux, List.pairwise_cons]
    constructor
    · intro w hw
      obtain ⟨j, hj, hw1⟩ := batchWritesAux_targets fillRow indices ms (i0 + 1) w hw
      simp only
      intro hcontra
      apply hinj 0 (j + 1) (Nat.succ_pos _) (Nat.succ_lt_succ hj) (by omega)
      simp only [Nat.add_zero]
      rw [hcontra, hw1]
      congr 1
      omega
    · apply ih
      intro a b ha hb hab
      have h2 := hinj (a + 1) (b + 1) (Nat.succ_lt_succ ha) (Nat.succ_lt_succ hb)
        (by omega)
      have e1 : i0 + (a + 1) = i0 + 1 + a := by omega
      have e2 : i0 + (b + 1) = i0 + 1 + b := by omega
      rw [e1, e2] at h2
      exact h2

theorem batchWritesAux_mem {Mt R : Type} (fillRow : Mt → R)
    (indices : Option (List Nat)) (ms : List Mt) (i0 : Nat) (j : Nat) (m : Mt)
    (hj : ms.get? j = some m) :
    (scatterTarget indices (i0 + j), fillRow m) ∈ batchWritesAux fillRow indices i0 ms := by
  induction ms generalizing i0 j with
  | nil => cases hj
  | cons m' ms ih =>
    cases j with
    | zero =>
      simp only [List.get?] at hj
      cases hj
      exact List.mem_cons_self _ _
    | succ j =>
      simp only [List.get?] at hj
      have := ih (i0 + 1) j hj
      rw [batchWritesAux]
      apply List.mem_cons_of_mem
      have harith : i0 + 1 + j = i0 + (j + 1) := by omega
      rw [harith] at this
      exact this

/-- C4: the batch coordinator is deterministic.  Whatever order the thread
pool's workers commit their row writes in — a pool of size 1 writes them in
order, a pool of size N produces some interleaving, i.e. some permutation —
the final buffer is bit-for-bit the buffer of the in-order execution, because
each row is computed independently from its own matcher's state; and when an
output-index permutation is supplied, matcher `i`'s bitmask appears exactly at
the permuted row `scatterTarget indices i`. -/
theorem batch_fill_deterministic {Mt R : Type} (fillRow : Mt → R)
    (matchers : List Mt) (buf : List R) (indices : Option (List Nat))
    (order : List (Nat × R))
    (hinj : ∀ a b, a < matchers.length → b < matchers.length → a ≠ b →
      scatterTarget indices a ≠ scatterTarget indices b)
    (hperm : order.Perm (batchWrites fillRow matchers indices)) :
    applyWrites buf order = applyWrites buf (batchWrites fillRow matchers indices) ∧
    ∀ i m, matchers.get? i = some m → scatterTarget indices i < buf.length →
      (applyWrites buf order).get? (scatterTarget indices i) = some (fillRow m) := by
  have hd : (batchWrites fillRow matchers indices).Pairwise (fun a b => a.1 ≠ b.1) := by
    apply batchWritesAux_pairwise
    intro a b ha hb hab
    simpa using hinj a b ha hb hab
  have hmain : applyWrites buf order = applyWrites buf (batchWrites fillRow matchers indices) :=
    applyWrites_perm hperm ((hperm.pairwise_iff (fun h => Ne.symm h)).mpr hd) buf
  refine ⟨hmain, fun i m hm hlen => ?_⟩
  rw [hmain]
  apply applyWrites_get_of_mem _ _ hd _ _ _ hlen
  have := batchWritesAux_mem fillRow indices matchers 0 i m hm
  simpa [batchWrites] using this

theorem batch_fill_deterministic_witness :
    applyWrites [0, 0, 0] [(0, 14), (1, 10)] =
      applyWrites [0, 0, 0] (batchWrites (fun m : Nat => m * 2) [5, 7] (some [1, 0])) ∧
    (applyWrites [0, 0, 0] [(0, 14), (1, 10)]).get? (scatterTarget (some [1, 0]) 0) =
      some 10 := by
  have h := batch_fill_deterministic (fun m : Nat => m * 2) [5, 7] [0, 0, 0]
    (some [1, 0]) [(0, 14), (1, 10)]
    (by intro a b ha hb hab
        have ha2 : a < 2 := by simpa using ha
        have hb2 : b < 2 := by simpa using hb
        interval_cases a <;> interval_cases b <;> revert hab <;> decide)
    (by decide)
  exact ⟨h.1, h.2 0 5 rfl (by decide)⟩

/-- C7 (code bug): on the failing schema
`[:]obj minProperties 5, maxProperties 3[:]` the converter does fail as the
claim requires, but the error message its own test pins is the garbled
"minxPropertiesmax is greater than maxProperties"; it does not contain the
substring "minProperties is greater than maxProperties" that the spec (and
the claim) state.  The spec names the message correctly twice and every
sibling assertion in the same test uses the proper constraint names, so the
message in the code is a slip. -/
theorem min_max_properties_error_message_garbled :
    ∃ e, checkMinMaxProperties 5 3 = Except.error e ∧
      containsChars "minProperties is greater than maxProperties".data e.data = false ∧
      containsChars "minxPropertiesmax is greater than maxProperties".data e.data = true :=
  ⟨"minxPropertiesmax is greater than maxProperties", rfl, by decide, by decide⟩

/-! ### Regex converter lemmas -/

theorem parseAtom_literal (fuel : Nat) {c : Char} (hc : isRegexMeta c = false)
    (rest : List Char) :
    parseAtom (fuel + 1) (c :: rest) = some (RE.chr c, rest) := by
  simp only [isRegexMeta, Bool.or_eq_false_iff] at hc
  obtain ⟨⟨⟨⟨⟨⟨⟨⟨⟨⟨⟨⟨⟨h1, h2⟩, h3⟩, h4⟩, h5⟩, h6⟩, h7⟩, h8⟩, h9⟩, h10⟩, h11⟩, h12⟩, h13⟩, h14⟩ := hc
  unfold parseAtom
  simp [h1, h9, h10, isRegexMeta, h2, h3, h4, h5, h6, h7, h8, h11, h12, h13, h14]

theorem splitDigits_append_nondigit (ds : List Char)
    (hd : ∀ c ∈ ds, c.isDigit = true) (c : Char) (hc : c.isDigit = false)
    (rest : List Char) :
    splitDigits (ds ++ c :: rest) = (ds, c :: rest) := by
  unfold splitDigits
  induction ds with
  | nil => simp [List.takeWhile_cons, List.dropWhile_cons, hc]
  | cons d ds ih =>
    have hdd := hd d (List.mem_cons_self _ _)
    have := ih (fun u hu => hd u (List.mem_cons_of_mem _ hu))
    simp only [List.cons_append, List.takeWhile_cons, List.dropWhile_cons, hdd,
      Prod.mk.injEq] at this ⊢
    simp [this.1, this.2]

theorem parseRep_shape (ds1 ds2 : List Char) (h1 : ds1 ≠ []) (h2 : ds2 ≠ [])
    (hd1 : ∀ c ∈ ds1, c.isDigit = true) (hd2 : ∀ c ∈ ds2, c.isDigit = true)
    (tail : List Char) :
    parseRep (ds1 ++ ',' :: (ds2 ++ rbrace :: tail)) =
      some (digitsToNat ds1, digitsToNat ds2, tail) := by
  unfold parseRep
  rw [splitDigits_append_nondigit ds1 hd1 ',' (by decide) _]
  simp only [List.isEmpty_iff, h1, if_false]
  rw [splitDigits_append_nondigit ds2 hd2 rbrace (by decide) tail]
  simp only [List.isEmpty_iff, h2, if_false]
  simp

theorem parseQuantSuffix_on_quantstr {qs : List Char} (hq : IsQuantStr qs) :
    ∃ q : Quant, ∀ (r : RE) (tail : List Char),
      parseQuantSuffix r (qs ++ tail) = absorbNonGreedy (RE.quant r q) tail := by
  cases hq with
  | star => exact ⟨.star, fun r tail => by simp [parseQuantSuffix]⟩
  | plus => exact ⟨.plus, fun r tail => by simp [parseQuantSuffix]⟩
  | opt => exact ⟨.opt, fun r tail => by simp [parseQuantSuffix]⟩
  | rep ds1 ds2 h1 h2 hd1 hd2 =>
    refine ⟨.rep (digitsToNat ds1) (digitsToNat ds2), fun r tail => ?_⟩
    have e1 : (lbrace :: (ds1 ++ ',' :: (ds2 ++ [rbrace]))) ++ tail =
        lbrace :: (ds1 ++ ',' :: (ds2 ++ rbrace :: tail)) := by
      simp
    rw [e1]
    have g1 : (lbrace == '*') = false := by decide
    have g2 : (lbrace == '+') = false := by decide
    have g3 : (lbrace == '?') = false := by decide
    have g4 : (lbrace == lbrace) = true := by decide
    simp only [parseQuantSuffix, g1, g2, g3, g4, Bool.false_eq_true, if_false, if_true]
    rw [parseRep_shape ds1 ds2 h1 h2 hd1 hd2 tail]

theorem absorbNonGreedy_nil_or_mark (r : RE) (tail : List Char)
    (htail : tail = [] ∨ tail = ['?']) :
    absorbNonGreedy r tail = some (r, []) := by
  rcases htail with rfl | rfl <;> simp [absorbNonGreedy]

theorem parseAltRE_single_item (f : Nat) {c : Char} (hc : isRegexMeta c = false)
    (l : List Char) (r2 : RE) (hl : parseQuantSuffix (RE.chr c) l = some (r2, [])) :
    parseAltRE (f + 4) (c :: l) = some (r2, []) := by
  have hcases := hc
  simp only [isRegexMeta, Bool.or_eq_false_iff] at hcases
  obtain ⟨⟨⟨⟨⟨⟨⟨⟨⟨⟨⟨⟨⟨h1, h2⟩, h3⟩, h4⟩, h5⟩, h6⟩, h7⟩, h8⟩, h9⟩, h10⟩, h11⟩, h12⟩, h13⟩, h14⟩ := hcases
  have e1 : f + 4 = (f + 3) + 1 := rfl
  rw [e1, parseAltRE]
  have e2 : f + 3 = (f + 2) + 1 := rfl
  rw [e2, parseSeqRE]
  simp only [h2, h3, Bool.false_eq_true, Bool.or_self, if_false]
  have e3 : f + 2 = (f + 1) + 1 := rfl
  rw [e3, parseAtom_literal (f + 1) hc l]
  simp only [hl]
  have e4 : parseSeqRE ((f + 1) + 1) [] = some (RE.eps, []) := by rw [parseSeqRE]
  rw [e4]
  simp [seqCons]

/-- C9: for every supported single quantifier (`*`, `+`, `?`, or a counted
repetition with any digit strings) applied to a literal atom, the converter
produces for the non-greedy form (quantifier followed by one `?`) exactly the
same grammar string as for the greedy form, and both succeed — so both forms
accept the same language. -/
theorem nongreedy_quantifier_same_output (c : Char) (hc : isRegexMeta c = false)
    {qs : List Char} (hq : IsQuantStr qs) :
    regex_to_ebnf (c :: (qs ++ ['?'])) = regex_to_ebnf (c :: qs) ∧
    (regex_to_ebnf (c :: qs)).isSome = true := by
  obtain ⟨q, hsuffix⟩ := parseQuantSuffix_on_quantstr hq
  have run : ∀ tail : List Char, (tail = [] ∨ tail = ['?']) →
      parseRegexFull (c :: (qs ++ tail)) = some (RE.quant (RE.chr c) q) := by
    intro tail htail
    have hsfx : parseQuantSuffix (RE.chr c) (qs ++ tail) =
        some (RE.quant (RE.chr c) q, []) := by
      rw [hsuffix, absorbNonGreedy_nil_or_mark _ _ htail]
    have hqslen : 1 ≤ qs.length := by cases hq <;> simp
    have hF : ∃ m, 2 * (c :: (qs ++ tail)).length + 2 = m + 4 := by
      refine ⟨2 * (c :: (qs ++ tail)).length - 2, ?_⟩
      simp only [List.length_cons, List.length_append]
      omega
    obtain ⟨m, hm⟩ := hF
    unfold parseRegexFull
    rw [hm, parseAltRE_single_item m hc (qs ++ tail) _ hsfx]
  have run1 := run ['?'] (Or.inr rfl)
  have run2 := run [] (Or.inl rfl)
  rw [List.append_nil] at run2
  unfold regex_to_ebnf
  rw [run1, run2]
  simp

theorem nongreedy_quantifier_same_output_witness :
    regex_to_ebnf ('a' :: (['+'] ++ ['?'])) = regex_to_ebnf ('a' :: ['+']) ∧
    (regex_to_ebnf ('a' :: ['+'])).isSome = true :=
  nongreedy_quantifier_same_output 'a' (by decide) IsQuantStr.plus

/-- C10: each of the seven regexes denoting only the empty string compiles:
the produced grammar is the empty-string expression, it prints exactly as
`root ::= ("")`, and it accepts the empty string and rejects every non-empty
string. -/
theorem empty_regexes_empty_string_grammar (l : List Char)
    (hl : l ∈ [("" : String).data, "^$".data, "(())".data, "()".data,
      "^".data, "$".data, "()|()".data]) :
    from_regex_grammar l = some RE.eps ∧
    from_regex_print l = some "root ::= (\"\")\n" ∧
    (∀ s, ReMatches RE.eps s ↔ s = []) := by
  have hsem : ∀ s : List Char, ReMatches RE.eps s ↔ s = [] := by
    intro s
    rw [ReMatches]
  simp only [List.mem_cons, List.mem_singleton] at hl
  rcases hl with rfl | rfl | rfl | rfl | rfl | rfl | rfl | h
  · exact ⟨by decide, by decide, hsem⟩
  · exact ⟨by decide, by decide, hsem⟩
  · exact ⟨by decide, by decide, hsem⟩
  · exact ⟨by decide, by decide, hsem⟩
  · exact ⟨by decide, by decide, hsem⟩
  · exact ⟨by decide, by decide, hsem⟩
  · exact ⟨by decide, by decide, hsem⟩
  · cases h

theorem empty_regexes_empty_string_grammar_witness :
    from_regex_grammar "()|()".data = some RE.eps ∧
    from_regex_print "()|()".data = some "root ::= (\"\")\n" ∧
    (∀ s, ReMatches RE.eps s ↔ s = []) :=
  empty_regexes_empty_string_grammar "()|()".data (by decide)

/-! ### Generic split/join and option-list lemmas -/

theorem splitSep_sepfree {α : Type} [DecidableEq α] (sep : α) (xs : List α)
    (hx : sep ∉ xs) : splitSep sep xs = [xs] := by
  induction xs with
  | nil => rfl
  | cons x xs ih =>
    have hx' : sep ∉ xs := fun h => hx (List.mem_cons_of_mem _ h)
    have hxsep : ¬x = sep := fun hh => hx (by rw [hh]; exact List.mem_cons_self _ _)
    rw [splitSep, if_neg hxsep, ih hx']

theorem splitSep_cons_sep {α : Type} [DecidableEq α] (sep : α) (xs : List α)
    (hx : sep ∉ xs) (rest : List α) :
    splitSep sep (xs ++ sep :: rest) = xs :: splitSep sep rest := by
  induction xs with
  | nil =>
    rw [List.nil_append, splitSep, if_pos rfl]
  | cons x xs ih =>
    have hx' : sep ∉ xs := fun h => hx (List.mem_cons_of_mem _ h)
    have hxsep : ¬x = sep := fun hh => hx (by rw [hh]; exact List.mem_cons_self _ _)
    rw [List.cons_append, splitSep, if_neg hxsep, ih hx']

theorem splitSep_join_sep {α : Type} [DecidableEq α] (sep : α) (xss : List (List α))
    (h : ∀ xs ∈ xss, sep ∉ xs) (hne : ¬xss = []) :
    splitSep sep (joinSepG [sep] xss) = xss := by
  induction xss with
  | nil => exact absurd rfl hne
  | cons xs xss ih =>
    cases xss with
    | nil =>
      rw [joinSepG, splitSep_sepfree sep xs (h xs (List.mem_cons_self _ _))]
    | cons ys yss =>
      have e : joinSepG [sep] (xs :: ys :: yss) = xs ++ sep :: joinSepG [sep] (ys :: yss) := by
        rw [joinSepG]
        simp
      rw [e, splitSep_cons_sep sep xs (h xs (List.mem_cons_self _ _)),
        ih (fun u hu => h u (List.mem_cons_of_mem _ hu)) (by simp)]

theorem splitSep_join_trailing {α : Type} [DecidableEq α] (sep : α)
    (xss : List (List α)) (h : ∀ xs ∈ xss, sep ∉ xs) :
    splitSep sep ((xss.map (· ++ [sep])).join) = xss ++ [[]] := by
  induction xss with
  | nil => rfl
  | cons xs xss ih =>
    have e : ((xs :: xss).map (· ++ [sep])).join = xs ++ sep :: (xss.map (· ++ [sep])).join := by
      simp
    rw [e, splitSep_cons_sep sep xs (h xs (List.mem_cons_self _ _)),
      ih (fun u hu => h u (List.mem_cons_of_mem _ hu))]
    rfl

theorem mem_joinSepG_single {α : Type} (sep : α) (xss : List (List α)) (t : α)
    (ht : t ∈ joinSepG [sep] xss) : t = sep ∨ ∃ xs ∈ xss, t ∈ xs := by
  induction xss with
  | nil => cases ht
  | cons xs xss ih =>
    cases xss with
    | nil =>
      rw [joinSepG] at ht
      exact Or.inr ⟨xs, List.mem_cons_self _ _, ht⟩
    | cons ys yss =>
      rw [joinSepG] at ht
      rcases List.mem_append.mp ht with h1 | h2
      · rcases List.mem_append.mp h1 with h3 | h4
        · exact Or.inr ⟨xs, List.mem_cons_self _ _, h3⟩
        · exact Or.inl (by simpa using h4)
      · rcases ih h2 with h5 | ⟨zs, hz, hz2⟩
        · exact Or.inl h5
        · exact Or.inr ⟨zs, List.mem_cons_of_mem _ hz, hz2⟩

theorem mapOptionList_map_some {α β : Type} (f : α → Option β) (g : β → α)
    (bs : List β) (h : ∀ b ∈ bs, f (g b) = some b) :
    mapOptionList f (bs.map g) = some bs := by
  induction bs with
  | nil => rfl
  | cons b bs ih =>
    rw [List.map_cons, mapOptionList, h b (List.mem_cons_self _ _),
      ih (fun u hu => h u (List.mem_cons_of_mem _ hu))]

theorem splitSep_ne_nil {α : Type} [DecidableEq α] (sep : α) (l : List α) :
    ¬splitSep sep l = [] := by
  cases l with
  | nil => simp [splitSep]
  | cons t r =>
    rw [splitSep]
    by_cases ht : t = sep
    · rw [if_pos ht]
      simp
    · rw [if_neg ht]
      cases splitSep sep r <;> simp

theorem mapOptionList_ok {α β : Type} {f : α → Option β} {xs : List α}
    {ys : List β} (h : mapOptionList f xs = some ys) :
    ys.length = xs.length ∧ ∀ y ∈ ys, ∃ x, f x = some y := by
  induction xs generalizing ys with
  | nil =>
    rw [mapOptionList] at h
    cases h
    exact ⟨rfl, by simp⟩
  | cons x xs ih =>
    rw [mapOptionList] at h
    cases hfx : f x with
    | none => rw [hfx] at h; cases h
    | some y =>
      rw [hfx] at h
      cases hrest : mapOptionList f xs with
      | none => rw [hrest] at h; cases h
      | some ys' =>
        rw [hrest] at h
        cases h
        obtain ⟨hl, hmem⟩ := ih hrest
        refine ⟨by simp [hl], ?_⟩
        intro y2 hy2
        rcases List.mem_cons.mp hy2 with rfl | hy3
        · exact ⟨x, hfx⟩
        · exact hmem y2 hy3

/-! ### Range regex: digit string basics -/

theorem digitsAuxR_eq_digits (fuel : Nat) :
    ∀ n, n ≤ fuel → digitsAuxR fuel n = Nat.digits 10 n := by
  induction fuel with
  | zero =>
    intro n hn
    interval_cases n
    simp [digitsAuxR]
  | succ fuel ih =>
    intro n hn
    by_cases h0 : n = 0
    · subst h0
      simp [digitsAuxR]
    · rw [digitsAuxR, if_neg h0, Nat.digits_def' (by norm_num) (Nat.pos_of_ne_zero h0),
        ih (n / 10) (by omega)]

theorem digitsOf_eq (n : Nat) : digitsOf n = (Nat.digits 10 n).reverse := by
  rw [digitsOf, digitsAuxR_eq_digits n n (le_refl n)]

theorem valD_append (xs ys : List Nat) :
    valD (xs ++ ys) = valD xs * 10 ^ ys.length + valD ys := by
  induction xs with
  | nil => simp [valD]
  | cons x xs ih =>
    show x * 10 ^ (xs ++ ys).length + valD (xs ++ ys) =
      valD (x :: xs) * 10 ^ ys.length + valD ys
    rw [ih, List.length_append]
    simp only [valD]
    ring

theorem valD_reverse (l : List Nat) : valD l.reverse = Nat.ofDigits 10 l := by
  induction l with
  | nil => rfl
  | cons d l ih =>
    rw [List.reverse_cons, valD_append, ih, Nat.ofDigits_cons]
    simp [valD]
    ring

theorem valD_digitsOf (n : Nat) : valD (digitsOf n) = n := by
  rw [digitsOf_eq, valD_reverse, Nat.ofDigits_digits]

theorem digitsOf_le_9 (n : Nat) : ∀ d ∈ digitsOf n, d ≤ 9 := by
  intro d hd
  rw [digitsOf_eq, List.mem_reverse] at hd
  have := Nat.digits_lt_base (by norm_num) hd
  omega

theorem numLen_eq (n : Nat) : numLen n = (Nat.digits 10 n).length := by
  rw [numLen, digitsOf_eq, List.length_reverse]

theorem numLen_pos (n : Nat) (hn : 1 ≤ n) : 1 ≤ numLen n := by
  rw [numLen_eq, Nat.digits_len 10 n (by norm_num) (by omega)]
  omega

theorem numLen_lower (n : Nat) (hn : 1 ≤ n) : 10 ^ (numLen n - 1) ≤ n := by
  rw [numLen_eq, Nat.digits_len 10 n (by norm_num) (by omega)]
  simpa using Nat.pow_log_le_self 10 (show n ≠ 0 by omega)

theorem numLen_upper (n : Nat) : n < 10 ^ numLen n := by
  rw [numLen_eq]
  exact Nat.lt_base_pow_length_digits (by norm_num)

theorem numLen_eq_iff (n L : Nat) (hn : 1 ≤ n) (hL : 1 ≤ L) :
    numLen n = L ↔ 10 ^ (L - 1) ≤ n ∧ n < 10 ^ L := by
  constructor
  · intro h
    exact ⟨h ▸ numLen_lower n hn, h ▸ numLen_upper n⟩
  · intro ⟨h1, h2⟩
    rw [numLen_eq, Nat.digits_len 10 n (by norm_num) (by omega)]
    have := Nat.log_eq_of_pow_le_of_lt_pow h1
      (by rwa [show L - 1 + 1 = L by omega])
    omega

theorem numLen_mono {a b : Nat} (ha : 1 ≤ a) (hab : a ≤ b) : numLen a ≤ numLen b := by
  rw [numLen_eq, numLen_eq, Nat.digits_len 10 a (by norm_num) (by omega),
    Nat.digits_len 10 b (by norm_num) (by omega)]
  have := @Nat.log_mono_right 10 a b hab
  omega

theorem valD_lt_pow (ds : List Nat) (hds : ∀ d ∈ ds, d ≤ 9) :
    valD ds < 10 ^ ds.length := by
  induction ds with
  | nil => simp [valD]
  | cons d ds ih =>
    have hd : d ≤ 9 := hds d (List.mem_cons_self _ _)
    have hv : valD ds < 10 ^ ds.length := ih (fun u hu => hds u (List.mem_cons_of_mem _ hu))
    simp only [valD, List.length_cons]
    calc d * 10 ^ ds.length + valD ds < d * 10 ^ ds.length + 10 ^ ds.length := by omega
      _ = (d + 1) * 10 ^ ds.length := by ring
      _ ≤ 10 * 10 ^ ds.length := Nat.mul_le_mul_right _ (by omega)
      _ = 10 ^ (ds.length + 1) := by ring

theorem digit_block_lt {a d va vd P : Nat} (hva : va < P) (h : a < d) :
    a * P + va < d * P + vd := by
  calc a * P + va < a * P + P := by omega
    _ = (a + 1) * P := by ring
    _ ≤ d * P := Nat.mul_le_mul_right _ (by omega)
    _ ≤ d * P + vd := Nat.le_add_right _ _

theorem leDigits_iff_valD (as ds : List Nat) (hlen : as.length = ds.length)
    (has : ∀ d ∈ as, d ≤ 9) (hds : ∀ d ∈ ds, d ≤ 9) :
    leDigits as ds = true ↔ valD as ≤ valD ds := by
  induction as generalizing ds with
  | nil =>
    cases ds with
    | nil => simp [leDigits, valD]
    | cons d ds => cases hlen
  | cons a as ih =>
    cases ds with
    | nil => cases hlen
    | cons d ds =>
      simp only [List.length_cons, Nat.succ.injEq] at hlen
      have hva : valD as < 10 ^ as.length :=
        valD_lt_pow as (fun u hu => has u (List.mem_cons_of_mem _ hu))
      have hvd : valD ds < 10 ^ as.length := by
        rw [hlen]
        exact valD_lt_pow ds (fun u hu => hds u (List.mem_cons_of_mem _ hu))
      have hih := ih ds hlen (fun u hu => has u (List.mem_cons_of_mem _ hu))
        (fun u hu => hds u (List.mem_cons_of_mem _ hu))
      simp only [leDigits, valD, Bool.or_eq_true, Bool.and_eq_true, decide_eq_true_eq]
      rw [← hlen]
      constructor
      · rintro (hlt | ⟨heq, hle⟩)
        · exact Nat.le_of_lt (digit_block_lt hva hlt)
        · rw [heq]
          have := hih.mp hle
          omega
      · intro hle
        rcases Nat.lt_trichotomy a d with hlt | heq | hgt
        · exact Or.inl hlt
        · refine Or.inr ⟨heq, hih.mpr ?_⟩
          rw [heq] at hle
          omega
        · exfalso
          have := @digit_block_lt d a (valD ds) (valD as) (10 ^ as.length) hvd hgt
          omega

/-! ### Range regex: branch-set correctness -/

theorem mAlt_fullDigits (n : Nat) (ds : List Nat) :
    mAlt (fullDigits n) ds = true ↔ ds.length = n ∧ ∀ d ∈ ds, d ≤ 9 := by
  induction n generalizing ds with
  | zero =>
    cases ds with
    | nil => simp [fullDigits, mAlt]
    | cons d ds => simp [fullDigits, mAlt]
  | succ n ih =>
    cases ds with
    | nil => simp [fullDigits, List.replicate_succ, mAlt]
    | cons d ds =>
      simp only [fullDigits, List.replicate_succ, mAlt, Bool.and_eq_true,
        decide_eq_true_eq, List.length_cons, Nat.succ.injEq, List.mem_cons]
      rw [show (List.replicate n ((0 : Nat), (9 : Nat))) = fullDigits n from rfl, ih]
      constructor
      · rintro ⟨⟨_, h9⟩, hlen, hall⟩
        refine ⟨hlen, fun u hu => ?_⟩
        rcases hu with rfl | hu
        · exact h9
        · exact hall u hu
      · rintro ⟨hlen, hall⟩
        exact ⟨⟨Nat.zero_le d, hall d (Or.inl rfl)⟩, hlen, fun u hu => hall u (Or.inr hu)⟩

theorem altsUp_correct (as : List Nat) (has : ∀ x ∈ as, x ≤ 9) :
    ∀ ds : List Nat, (∀ x ∈ ds, x ≤ 9) →
    ((altsUp as).any (fun alt => mAlt alt ds) = true ↔
      ds.length = as.length ∧ leDigits as ds = true) := by
  induction as with
  | nil =>
    intro ds hds
    cases ds with
    | nil => simp [altsUp, mAlt, leDigits]
    | cons d ds => simp [altsUp, mAlt, leDigits]
  | cons a as ih =>
    intro ds hds
    have ha9 : a ≤ 9 := has a (List.mem_cons_self _ _)
    cases ds with
    | nil =>
      simp only [altsUp, List.any_append, List.any_map, Bool.or_eq_true,
        List.length_nil, List.length_cons]
      constructor
      · rintro (h | h)
        · simp [Function.comp, mAlt] at h
        · by_cases h9 : a + 1 ≤ 9 <;> simp [h9, mAlt] at h
      · rintro ⟨hlen, -⟩
        cases hlen
    | cons d ds =>
      have hd9 : d ≤ 9 := hds d (List.mem_cons_self _ _)
      have ih' := ih (fun x hx => has x (List.mem_cons_of_mem _ hx)) ds
        (fun x hx => hds x (List.mem_cons_of_mem _ hx))
      simp only [altsUp, List.any_append, List.any_map, Bool.or_eq_true,
        List.length_cons, Nat.succ.injEq]
      have estep : ∀ alt : DAlt, ((fun alt => mAlt alt (d :: ds)) ∘ ((a, a) :: ·)) alt =
          ((decide (a ≤ d) && decide (d ≤ a)) && mAlt alt ds) := fun alt => rfl
      rcases Nat.lt_trichotomy d a with hda | hda | hda
      · -- d below a: nothing matches, and leDigits is false
        have e1 : (decide (a ≤ d) && decide (d ≤ a)) = false := by
          simp [decide_eq_false_iff_not]
          omega
        constructor
        · rintro (h | h)
          · rw [List.any_eq_true] at h
            obtain ⟨alt, -, halt⟩ := h
            rw [estep alt, e1] at halt
            simp at halt
          · by_cases h9 : a + 1 ≤ 9 <;> simp [h9, mAlt, decide_eq_true_eq] at h
            omega
        · rintro ⟨-, hle⟩
          simp only [leDigits, Bool.or_eq_true, Bool.and_eq_true, decide_eq_true_eq] at hle
          omega
      · -- d = a: reduces to the recursive case
        have e1 : (decide (a ≤ d) && decide (d ≤ a)) = true := by
          subst hda
          simp
        constructor
        · rintro (h | h)
          · rw [List.any_eq_true] at h
            obtain ⟨alt, hmem, halt⟩ := h
            rw [estep alt, e1, Bool.true_and] at halt
            have : (altsUp as).any (fun alt => mAlt alt ds) = true :=
              List.any_eq_true.mpr ⟨alt, hmem, halt⟩
            obtain ⟨hlen, hle⟩ := ih'.mp this
            refine ⟨hlen, ?_⟩
            simp only [leDigits, Bool.or_eq_true, Bool.and_eq_true, decide_eq_true_eq]
            exact Or.inr ⟨hda.symm, hle⟩
          · by_cases h9 : a + 1 ≤ 9 <;> simp [h9, mAlt, decide_eq_true_eq] at h
            omega
        · rintro ⟨hlen, hle⟩
          simp only [leDigits, Bool.or_eq_true, Bool.and_eq_true, decide_eq_true_eq] at hle
          rcases hle with h | ⟨-, hle⟩
          · omega
          · left
            obtain ⟨alt, hmem, halt⟩ := List.any_eq_true.mp (ih'.mpr ⟨hlen, hle⟩)
            exact List.any_eq_true.mpr ⟨alt, hmem, by rw [estep alt, e1, Bool.true_and]; exact halt⟩
      · -- d above a: the top branch matches exactly
        have h9 : a + 1 ≤ 9 := by omega
        constructor
        · rintro (h | h)
          · rw [List.any_eq_true] at h
            obtain ⟨alt, -, halt⟩ := h
            rw [estep alt] at halt
            simp only [Bool.and_eq_true, decide_eq_true_eq] at halt
            omega
          · simp only [h9, if_true, List.any_cons, List.any_nil, Bool.or_false] at h
            rw [show mAlt ((a + 1, 9) :: fullDigits as.length) (d :: ds) =
              ((decide (a + 1 ≤ d) && decide (d ≤ 9)) && mAlt (fullDigits as.length) ds)
              from rfl] at h
            simp only [Bool.and_eq_true, decide_eq_true_eq] at h
            obtain ⟨-, hfull⟩ := h
            obtain ⟨hlen, -⟩ := (mAlt_fullDigits _ _).mp hfull
            refine ⟨hlen, ?_⟩
            simp [leDigits]
            omega
        · rintro ⟨hlen, -⟩
          right
          simp only [h9, if_true, List.any_cons, List.any_nil, Bool.or_false]
          rw [show mAlt ((a + 1, 9) :: fullDigits as.length) (d :: ds) =
            ((decide (a + 1 ≤ d) && decide (d ≤ 9)) && mAlt (fullDigits as.length) ds)
            from rfl]
          simp only [Bool.and_eq_true, decide_eq_true_eq]
          refine ⟨⟨by omega, hd9⟩, (mAlt_fullDigits _ _).mpr ⟨hlen, ?_⟩⟩
          exact fun x hx => hds x (List.mem_cons_of_mem _ hx)

theorem altsDown_correct (bs : List Nat) (hbs : ∀ x ∈ bs, x ≤ 9) :
    ∀ ds : List Nat, (∀ x ∈ ds, x ≤ 9) →
    ((altsDown bs).any (fun alt => mAlt alt ds) = true ↔
      ds.length = bs.length ∧ leDigits ds bs = true) := by
  induction bs with
  | nil =>
    intro ds hds
    cases ds with
    | nil => simp [altsDown, mAlt, leDigits]
    | cons d ds => simp [altsDown, mAlt, leDigits]
  | cons b bs ih =>
    intro ds hds
    have hb9 : b ≤ 9 := hbs b (List.mem_cons_self _ _)
    cases ds with
    | nil =>
      simp only [altsDown, List.any_append, List.any_map, Bool.or_eq_true,
        List.length_nil, List.length_cons]
      constructor
      · rintro (h | h)
        · simp [Function.comp, mAlt] at h
        · by_cases h1 : 1 ≤ b <;> simp [h1, mAlt] at h
      · rintro ⟨hlen, -⟩
        cases hlen
    | cons d ds =>
      have hd9 : d ≤ 9 := hds d (List.mem_cons_self _ _)
      have ih' := ih (fun x hx => hbs x (List.mem_cons_of_mem _ hx)) ds
        (fun x hx => hds x (List.mem_cons_of_mem _ hx))
      simp only [altsDown, List.any_append, List.any_map, Bool.or_eq_true,
        List.length_cons, Nat.succ.injEq]
      have estep : ∀ alt : DAlt, ((fun alt => mAlt alt (d :: ds)) ∘ ((b, b) :: ·)) alt =
          ((decide (b ≤ d) && decide (d ≤ b)) && mAlt alt ds) := fun alt => rfl
      rcases Nat.lt_trichotomy d b with hdb | hdb | hdb
      · -- d below b: the bottom branch matches exactly
        have h1 : 1 ≤ b := by omega
        constructor
        · rintro (h | h)
          · rw [List.any_eq_true] at h
            obtain ⟨alt, -, halt⟩ := h
            rw [estep alt] at halt
            simp only [Bool.and_eq_true, decide_eq_true_eq] at halt
            omega
          · simp only [h1, if_true, List.any_cons, List.any_nil, Bool.or_false] at h
            rw [show mAlt ((0, b - 1) :: fullDigits bs.length) (d :: ds) =
              ((decide (0 ≤ d) && decide (d ≤ b - 1)) && mAlt (fullDigits bs.length) ds)
              from rfl] at h
            simp only [Bool.and_eq_true, decide_eq_true_eq] at h
            obtain ⟨-, hfull⟩ := h
            obtain ⟨hlen, -⟩ := (mAlt_fullDigits _ _).mp hfull
            refine ⟨hlen, ?_⟩
            simp only [leDigits, Bool.or_eq_true, Bool.and_eq_true, decide_eq_true_eq]
            exact Or.inl hdb
        · rintro ⟨hlen, -⟩
          right
          simp only [h1, if_true, List.any_cons, List.any_nil, Bool.or_false]
          rw [show mAlt ((0, b - 1) :: fullDigits bs.length) (d :: ds) =
            ((decide (0 ≤ d) && decide (d ≤ b - 1)) && mAlt (fullDigits bs.length) ds)
            from rfl]
          simp only [Bool.and_eq_true, decide_eq_true_eq]
          refine ⟨⟨Nat.zero_le d, by omega⟩, (mAlt_fullDigits _ _).mpr ⟨hlen, ?_⟩⟩
          exact fun x hx => hds x (List.mem_cons_of_mem _ hx)
      · -- d = b: reduces to the recursive case
        have e1 : (decide (b ≤ d) && decide (d ≤ b)) = true := by
          subst hdb
          simp
        constructor
        · rintro (h | h)
          · rw [List.any_eq_true] at h
            obtain ⟨alt, hmem, halt⟩ := h
            rw [estep alt, e1, Bool.true_and] at halt
            obtain ⟨hlen, hle⟩ := ih'.mp (List.any_eq_true.mpr ⟨alt, hmem, halt⟩)
            refine ⟨hlen, ?_⟩
            simp only [leDigits, Bool.or_eq_true, Bool.and_eq_true, decide_eq_true_eq]
            exact Or.inr ⟨hdb, hle⟩
          · by_cases h1 : 1 ≤ b <;> simp [h1, mAlt, decide_eq_true_eq] at h
            omega
        · rintro ⟨hlen, hle⟩
          simp only [leDigits, Bool.or_eq_true, Bool.and_eq_true, decide_eq_true_eq] at hle
          rcases hle with h | ⟨-, hle⟩
          · omega
          · left
            obtain ⟨alt, hmem, halt⟩ := List.any_eq_true.mp (ih'.mpr ⟨hlen, hle⟩)
            exact List.any_eq_true.mpr
              ⟨alt, hmem, by rw [estep alt, e1, Bool.true_and]; exact halt⟩
      · -- d above b: nothing matches, and leDigits is false
        constructor
        · rintro (h | h)
          · rw [List.any_eq_true] at h
            obtain ⟨alt, -, halt⟩ := h
            rw [estep alt] at halt
            simp only [Bool.and_eq_true, decide_eq_true_eq] at halt
            omega
          · by_cases h1 : 1 ≤ b <;> simp [h1, mAlt, decide_eq_true_eq] at h
            omega
        · rintro ⟨-, hle⟩
          simp only [leDigits, Bool.or_eq_true, Bool.and_eq_true, decide_eq_true_eq] at hle
          omega

theorem altsBetween_correct (as : List Nat) :
    ∀ bs : List Nat, as.length = bs.length → leDigits as bs = true →
    (∀ x ∈ as, x ≤ 9) → (∀ x ∈ bs, x ≤ 9) →
    ∀ ds : List Nat, (∀ x ∈ ds, x ≤ 9) →
    ((altsBetween as bs).any (fun alt => mAlt alt ds) = true ↔
      ds.length = as.length ∧ leDigits as ds = true ∧ leDigits ds bs = true) := by
  induction as with
  | nil =>
    intro bs hab _ _ _ ds hds
    cases bs with
    | cons b bs => cases hab
    | nil =>
      cases ds with
      | nil => simp [altsBetween, mAlt, leDigits]
      | cons d ds => simp [altsBetween, mAlt, leDigits]
  | cons a as ih =>
    intro bs hab hle has hbs ds hds
    cases bs with
    | nil => cases hab
    | cons b bs =>
      simp only [List.length_cons, Nat.succ.injEq] at hab
      have ha9 : a ≤ 9 := has a (List.mem_cons_self _ _)
      have hb9 : b ≤ 9 := hbs b (List.mem_cons_self _ _)
      have has' : ∀ x ∈ as, x ≤ 9 := fun x hx => has x (List.mem_cons_of_mem _ hx)
      have hbs' : ∀ x ∈ bs, x ≤ 9 := fun x hx => hbs x (List.mem_cons_of_mem _ hx)
      simp only [leDigits, Bool.or_eq_true, Bool.and_eq_true, decide_eq_true_eq] at hle
      by_cases hab2 : a = b
      · -- equal leading digits: recurse
        have hle' : leDigits as bs = true := by
          rcases hle with h | ⟨-, h⟩
          · omega
          · exact h
        rw [altsBetween, if_pos hab2]
        cases ds with
        | nil =>
          simp only [List.any_map, List.length_nil]
          constructor
          · intro h
            rw [List.any_eq_true] at h
            obtain ⟨alt, -, halt⟩ := h
            simp [Function.comp, mAlt] at halt
          · rintro ⟨hlen, -⟩
            cases hlen
        | cons d ds =>
          have hd9 : d ≤ 9 := hds d (List.mem_cons_self _ _)
          have hds' : ∀ x ∈ ds, x ≤ 9 := fun x hx => hds x (List.mem_cons_of_mem _ hx)
          have ih' := ih bs hab hle' has' hbs' ds hds'
          have estep : ∀ alt : DAlt, ((fun alt => mAlt alt (d :: ds)) ∘ ((a, a) :: ·)) alt =
              ((decide (a ≤ d) && decide (d ≤ a)) && mAlt alt ds) := fun alt => rfl
          simp only [List.any_map, List.length_cons, Nat.succ.injEq]
          constructor
          · intro h
            rw [List.any_eq_true] at h
            obtain ⟨alt, hmem, halt⟩ := h
            rw [estep alt] at halt
            simp only [Bool.and_eq_true, decide_eq_true_eq] at halt
            obtain ⟨⟨had1, had2⟩, halt⟩ := halt
            have hda : d = a := by omega
            obtain ⟨hlen, hle1, hle2⟩ := ih'.mp (List.any_eq_true.mpr ⟨alt, hmem, halt⟩)
            refine ⟨hlen, ?_, ?_⟩ <;>
              simp only [leDigits, Bool.or_eq_true, Bool.and_eq_true, decide_eq_true_eq]
            · exact Or.inr ⟨hda.symm, hle1⟩
            · exact Or.inr ⟨by omega, hle2⟩
          · rintro ⟨hlen, hle1, hle2⟩
            simp only [leDigits, Bool.or_eq_true, Bool.and_eq_true,
              decide_eq_true_eq] at hle1 hle2
            have hda : d = a := by omega
            have hle1' : leDigits as ds = true := by
              rcases hle1 with h | ⟨-, h⟩
              · omega
              · exact h
            have hle2' : leDigits ds bs = true := by
              rcases hle2 with h | ⟨-, h⟩
              · omega
              · exact h
            obtain ⟨alt, hmem, halt⟩ := List.any_eq_true.mp (ih'.mpr ⟨hlen, hle1', hle2'⟩)
            refine List.any_eq_true.mpr ⟨alt, hmem, ?_⟩
            rw [estep alt]
            simp only [Bool.and_eq_true, decide_eq_true_eq]
            exact ⟨⟨by omega, by omega⟩, halt⟩
      · -- distinct leading digits: a < b
        have hlt : a < b := by
          rcases hle with h | ⟨h, -⟩
          · exact h
          · exact absurd h hab2
        rw [altsBetween, if_neg hab2]
        cases ds with
        | nil =>
          simp only [List.any_append, List.any_map, Bool.or_eq_true, List.length_nil,
            List.length_cons]
          constructor
          · rintro ((h | h) | h)
            · rw [List.any_eq_true] at h
              obtain ⟨alt, -, halt⟩ := h
              simp [Function.comp, mAlt] at halt
            · by_cases hm : a + 1 ≤ b - 1 <;> simp [hm, mAlt] at h
            · rw [List.any_eq_true] at h
              obtain ⟨alt, -, halt⟩ := h
              simp [Function.comp, mAlt] at halt
          · rintro ⟨hlen, -⟩
            cases hlen
        | cons d ds =>
          have hd9 : d ≤ 9 := hds d (List.mem_cons_self _ _)
          have hds' : ∀ x ∈ ds, x ≤ 9 := fun x hx => hds x (List.mem_cons_of_mem _ hx)
          have hup := altsUp_correct as has' ds hds'
          have hdown := altsDown_correct bs hbs' ds hds'
          have estep1 : ∀ alt : DAlt, ((fun alt => mAlt alt (d :: ds)) ∘ ((a, a) :: ·)) alt =
              ((decide (a ≤ d) && decide (d ≤ a)) && mAlt alt ds) := fun alt => rfl
          have estep3 : ∀ alt : DAlt, ((fun alt => mAlt alt (d :: ds)) ∘ ((b, b) :: ·)) alt =
              ((decide (b ≤ d) && decide (d ≤ b)) && mAlt alt ds) := fun alt => rfl
          simp only [List.any_append, List.any_map, Bool.or_eq_true, List.length_cons,
            Nat.succ.injEq]
          constructor
          · rintro ((h | h) | h)
            · -- low chunk: d = a
              rw [List.any_eq_true] at h
              obtain ⟨alt, hmem, halt⟩ := h
              rw [estep1 alt] at halt
              simp only [Bool.and_eq_true, decide_eq_true_eq] at halt
              obtain ⟨⟨h1, h2⟩, halt⟩ := halt
              obtain ⟨hlen, hleas⟩ := hup.mp (List.any_eq_true.mpr ⟨alt, hmem, halt⟩)
              refine ⟨hlen, ?_, ?_⟩ <;>
                simp only [leDigits, Bool.or_eq_true, Bool.and_eq_true, decide_eq_true_eq]
              · exact Or.inr ⟨by omega, hleas⟩
              · exact Or.inl (by omega)
            · -- middle chunk
              by_cases hm : a + 1 ≤ b - 1
              · simp only [hm, if_true, List.any_cons, List.any_nil, Bool.or_false] at h
                rw [show mAlt ((a + 1, b - 1) :: fullDigits as.length) (d :: ds) =
                  ((decide (a + 1 ≤ d) && decide (d ≤ b - 1)) && mAlt (fullDigits as.length) ds)
                  from rfl] at h
                simp only [Bool.and_eq_true, decide_eq_true_eq] at h
                obtain ⟨⟨h1, h2⟩, hfull⟩ := h
                obtain ⟨hlen, -⟩ := (mAlt_fullDigits _ _).mp hfull
                refine ⟨hlen, ?_, ?_⟩ <;>
                  simp only [leDigits, Bool.or_eq_true, Bool.and_eq_true, decide_eq_true_eq]
                · exact Or.inl (by omega)
                · exact Or.inl (by omega)
              · simp [hm] at h
            · -- high chunk: d = b
              rw [List.any_eq_true] at h
              obtain ⟨alt, hmem, halt⟩ := h
              rw [estep3 alt] at halt
              simp only [Bool.and_eq_true, decide_eq_true_eq] at halt
              obtain ⟨⟨h1, h2⟩, halt⟩ := halt
              obtain ⟨hlen, hlebs⟩ := hdown.mp (List.any_eq_true.mpr ⟨alt, hmem, halt⟩)
              refine ⟨by omega, ?_, ?_⟩ <;>
                simp only [leDigits, Bool.or_eq_true, Bool.and_eq_true, decide_eq_true_eq]
              · exact Or.inl (by omega)
              · exact Or.inr ⟨by omega, hlebs⟩
          · rintro ⟨hlen, hle1, hle2⟩
            simp only [leDigits, Bool.or_eq_true, Bool.and_eq_true,
              decide_eq_true_eq] at hle1 hle2
            by_cases hda : d = a
            · -- low chunk
              left
              left
              have hleas : leDigits as ds = true := by
                rcases hle1 with h | ⟨-, h⟩
                · omega
                · exact h
              obtain ⟨alt, hmem, halt⟩ := List.any_eq_true.mp (hup.mpr ⟨hlen, hleas⟩)
              refine List.any_eq_true.mpr ⟨alt, hmem, ?_⟩
              rw [estep1 alt]
              simp only [Bool.and_eq_true, decide_eq_true_eq]
              exact ⟨⟨by omega, by omega⟩, halt⟩
            · by_cases hdb : d = b
              · -- high chunk
                right
                have hlebs : leDigits ds bs = true := by
                  rcases hle2 with h | ⟨-, h⟩
                  · omega
                  · exact h
                obtain ⟨alt, hmem, halt⟩ :=
                  List.any_eq_true.mp (hdown.mpr ⟨by omega, hlebs⟩)
                refine List.any_eq_true.mpr ⟨alt, hmem, ?_⟩
                rw [estep3 alt]
                simp only [Bool.and_eq_true, decide_eq_true_eq]
                exact ⟨⟨by omega, by omega⟩, halt⟩
              · -- middle chunk
                left
                right
                have hadlt : a < d := by
                  rcases hle1 with h | ⟨h, -⟩
                  · exact h
                  · exact absurd h.symm hda
                have hdblt : d < b := by
                  rcases hle2 with h | ⟨h, -⟩
                  · exact h
                  · exact absurd h hdb
                have hm : a + 1 ≤ b - 1 := by omega
                simp only [hm, if_true, List.any_cons, List.any_nil, Bool.or_false]
                rw [show mAlt ((a + 1, b - 1) :: fullDigits as.length) (d :: ds) =
                  ((decide (a + 1 ≤ d) && decide (d ≤ b - 1)) && mAlt (fullDigits as.length) ds)
                  from rfl]
                simp only [Bool.and_eq_true, decide_eq_true_eq]
                exact ⟨⟨by omega, by omega⟩, (mAlt_fullDigits _ _).mpr ⟨hlen, hds'⟩⟩

theorem altsRange_correct (a b n : Nat) (ha : 1 ≤ a) (hab : a ≤ b) (hn : 1 ≤ n) :
    ((altsRange a b).any (fun alt => mAlt alt (digitsOf n)) = true ↔ a ≤ n ∧ n ≤ b) := by
  have hb : 1 ≤ b := le_trans ha hab
  have hblock : ∀ L, numLen a ≤ L → L ≤ numLen b →
      ((altsBetween (digitsOf (max a (10 ^ (L - 1)))) (digitsOf (min b (10 ^ L - 1)))).any
        (fun alt => mAlt alt (digitsOf n)) = true ↔
        numLen n = L ∧ max a (10 ^ (L - 1)) ≤ n ∧ n ≤ min b (10 ^ L - 1)) := by
    intro L hL1 hL2
    have hLpos : 1 ≤ L := le_trans (numLen_pos a ha) hL1
    have haL : a < 10 ^ L :=
      lt_of_lt_of_le (numLen_upper a) (Nat.pow_le_pow_right (by norm_num) hL1)
    have hbL : 10 ^ (L - 1) ≤ b :=
      le_trans (Nat.pow_le_pow_right (by norm_num) (by omega)) (numLen_lower b hb)
    have hpow : 10 ^ (L - 1) < 10 ^ L :=
      Nat.pow_lt_pow_right (by norm_num) (by omega)
    have hlo1 : 1 ≤ max a (10 ^ (L - 1)) := le_trans ha (le_max_left _ _)
    have hlohi : max a (10 ^ (L - 1)) ≤ min b (10 ^ L - 1) := by omega
    have hhi1 : 1 ≤ min b (10 ^ L - 1) := le_trans hlo1 hlohi
    have hloL : numLen (max a (10 ^ (L - 1))) = L :=
      (numLen_eq_iff _ L hlo1 hLpos).mpr ⟨le_max_right _ _, by omega⟩
    have hhiL : numLen (min b (10 ^ L - 1)) = L :=
      (numLen_eq_iff _ L hhi1 hLpos).mpr ⟨by omega, by omega⟩
    have hlenlo : (digitsOf (max a (10 ^ (L - 1)))).length = L := hloL
    have hlenhi : (digitsOf (min b (10 ^ L - 1))).length = L := hhiL
    have hlelohi : leDigits (digitsOf (max a (10 ^ (L - 1))))
        (digitsOf (min b (10 ^ L - 1))) = true := by
      rw [leDigits_iff_valD _ _ (by rw [hlenlo, hlenhi]) (digitsOf_le_9 _) (digitsOf_le_9 _),
        valD_digitsOf, valD_digitsOf]
      exact hlohi
    rw [altsBetween_correct (digitsOf (max a (10 ^ (L - 1)))) (digitsOf (min b (10 ^ L - 1)))
      (by rw [hlenlo, hlenhi]) hlelohi (digitsOf_le_9 _) (digitsOf_le_9 _)
      (digitsOf n) (digitsOf_le_9 n)]
    constructor
    · rintro ⟨hlen, h1, h2⟩
      have hnl : numLen n = L := by rw [numLen, hlen, hlenlo]
      have hlen' : (digitsOf n).length = L := hnl
      refine ⟨hnl, ?_, ?_⟩
      · have := (leDigits_iff_valD _ _ (by rw [hlenlo, hlen']) (digitsOf_le_9 _)
          (digitsOf_le_9 _)).mp h1
        rwa [valD_digitsOf, valD_digitsOf] at this
      · have := (leDigits_iff_valD _ _ (by rw [hlenhi, hlen']) (digitsOf_le_9 _)
          (digitsOf_le_9 _)).mp h2
        rwa [valD_digitsOf, valD_digitsOf] at this
    · rintro ⟨hnl, h1, h2⟩
      have hlen' : (digitsOf n).length = L := hnl
      refine ⟨by rw [hlen', hlenlo], ?_, ?_⟩
      · rw [leDigits_iff_valD _ _ (by rw [hlenlo, hlen']) (digitsOf_le_9 _) (digitsOf_le_9 _),
          valD_digitsOf, valD_digitsOf]
        exact h1
      · rw [leDigits_iff_valD _ _ (by rw [hlenhi, hlen']) (digitsOf_le_9 _) (digitsOf_le_9 _),
          valD_digitsOf, valD_digitsOf]
        exact h2
  have hmono : numLen a ≤ numLen b := numLen_mono ha hab
  rw [altsRange]
  constructor
  · intro h
    rw [List.any_eq_true] at h
    obtain ⟨alt, hmem, halt⟩ := h
    rw [List.mem_join] at hmem
    obtain ⟨blk, hblk, haltblk⟩ := hmem
    rw [List.mem_map] at hblk
    obtain ⟨L, hLmem, rfl⟩ := hblk
    rw [List.mem_range'_1] at hLmem
    have hL2 : L ≤ numLen b := by omega
    obtain ⟨hnl, h1, h2⟩ :=
      (hblock L hLmem.1 hL2).mp (List.any_eq_true.mpr ⟨alt, haltblk, halt⟩)
    exact ⟨le_trans (le_max_left _ _) h1, le_trans h2 (min_le_left _ _)⟩
  · rintro ⟨h1, h2⟩
    have hL1 : numLen a ≤ numLen n := numLen_mono ha h1
    have hL2 : numLen n ≤ numLen b := numLen_mono hn h2
    have hmem : numLen n ∈ List.range' (numLen a) (numLen b + 1 - numLen a) := by
      rw [List.mem_range'_1]
      omega
    have hin := (hblock (numLen n) hL1 hL2).mpr
      ⟨rfl, Nat.max_le.mpr ⟨h1, numLen_lower n hn⟩,
        le_min h2 (by have := numLen_upper n; omega)⟩
    obtain ⟨alt, haltmem, halt⟩ := List.any_eq_true.mp hin
    refine List.any_eq_true.mpr ⟨alt, ?_, halt⟩
    rw [List.mem_join]
    exact ⟨_, List.mem_map.mpr ⟨numLen n, hmem, rfl⟩, haltmem⟩

theorem charToDigit_digitChar (d : Nat) (hd : d ≤ 9) :
    charToDigit (digitChar d) = some d := by
  interval_cases d <;> decide

theorem digitsOfChars_map_digitChar (ds : List Nat) (hds : ∀ d ∈ ds, d ≤ 9) :
    digitsOfChars (ds.map digitChar) = some ds := by
  induction ds with
  | nil => rfl
  | cons d ds ih =>
    have hd : d ≤ 9 := hds d (List.mem_cons_self _ _)
    simp only [List.map_cons, digitsOfChars, charToDigit_digitChar d hd,
      ih (fun x hx => hds x (List.mem_cons_of_mem _ hx))]

theorem digitChar_ne_dash (d : Nat) (hd : d ≤ 9) : ¬ digitChar d = '-' := by
  interval_cases d <;> decide

theorem rrAccepts_zero (r : RangeRegex) : rrAccepts r ['0'] = r.hasZero := by
  rw [rrAccepts, if_pos rfl]

theorem rrAccepts_pos (r : RangeRegex) (n : Nat) (hn : 1 ≤ n) :
    rrAccepts r (natChars n) = r.posAlts.any (fun alt => mAlt alt (digitsOf n)) := by
  have h9 := digitsOf_le_9 n
  obtain ⟨d, ds, hds⟩ : ∃ d ds, digitsOf n = d :: ds := by
    cases hdig : digitsOf n with
    | nil =>
      exfalso
      have h1 := numLen_pos n hn
      rw [numLen, hdig] at h1
      simp at h1
    | cons d ds => exact ⟨d, ds, rfl⟩
  have hd9 : d ≤ 9 := h9 d (by rw [hds]; exact List.mem_cons_self _ _)
  have hvn : valD (digitsOf n) = n := valD_digitsOf n
  have hne0 : digitChar d :: List.map digitChar ds ≠ ['0'] := by
    intro hcon
    simp only [List.cons.injEq, List.map_eq_nil] at hcon
    obtain ⟨hc1, hc2⟩ := hcon
    have hd0 : d = 0 := by
      revert hc1
      interval_cases d <;> decide
    rw [hds, hd0, hc2] at hvn
    simp [valD] at hvn
    omega
  rw [natChars, if_neg (by omega), hds, List.map_cons]
  simp only [rrAccepts, if_neg hne0]
  rw [if_neg (digitChar_ne_dash d hd9), ← List.map_cons, ← hds,
    digitsOfChars_map_digitChar _ h9]

theorem rrAccepts_neg (r : RangeRegex) (n : Nat) (hn : 1 ≤ n) :
    rrAccepts r ('-' :: natChars n) = r.negAlts.any (fun alt => mAlt alt (digitsOf n)) := by
  have h9 := digitsOf_le_9 n
  have hne0 : ('-' :: natChars n) ≠ ['0'] := by
    intro hcon
    injection hcon with h1 _
    exact absurd h1 (by decide)
  simp only [rrAccepts, if_neg hne0]
  rw [if_pos trivial, natChars, if_neg (by omega), digitsOfChars_map_digitChar _ h9]

theorem decimalChars_zero : decimalChars 0 = ['0'] := rfl

theorem rrAccepts_range_iff (lo hi : Int) (hle : lo ≤ hi) (r : RangeRegex)
    (hr : generate_range_regex lo hi = some r) (x : Int) :
    (rrAccepts r (decimalChars x) = true ↔ lo ≤ x ∧ x ≤ hi) := by
  rw [generate_range_regex, if_pos hle, Option.some.injEq] at hr
  have hneg : r.negAlts =
      (if lo < 0 then altsRange (max 1 (-hi).toNat) (-lo).toNat else []) := by
    rw [← hr]
  have hzero : r.hasZero = decide (lo ≤ 0 ∧ 0 ≤ hi) := by
    rw [← hr]
  have hpos : r.posAlts =
      (if 0 < hi then altsRange (max 1 lo.toNat) hi.toNat else []) := by
    rw [← hr]
  rcases lt_trichotomy x 0 with hx | hx | hx
  · have hn1 : 1 ≤ (-x).toNat := by omega
    rw [decimalChars, if_pos hx, rrAccepts_neg r _ hn1, hneg]
    by_cases hlo : lo < 0
    · rw [if_pos hlo,
        altsRange_correct _ _ _ (le_max_left 1 _) (by omega) hn1]
      omega
    · rw [if_neg hlo]
      simp only [List.any_nil]
      exact iff_of_false (by simp) (by omega)
  · subst hx
    rw [decimalChars_zero, rrAccepts_zero, hzero]
    simp
  · have hn1 : 1 ≤ x.toNat := by omega
    rw [decimalChars, if_neg (by omega), rrAccepts_pos r _ hn1, hpos]
    by_cases hhi : 0 < hi
    · rw [if_pos hhi,
        altsRange_correct _ _ _ (le_max_left 1 _) (by omega) hn1]
      omega
    · rw [if_neg hhi]
      simp only [List.any_nil]
      exact iff_of_false (by simp) (by omega)

/-- C8: for every pair of integers `lo ≤ hi` within the signed-64-bit range,
`generate_range_regex lo hi` succeeds and the produced regex accepts the
decimal string of every integer `x` with `lo ≤ x ≤ hi`, and rejects the
decimal strings of `lo - 1` and of `hi + 1`. -/
theorem generate_range_regex_correct (lo hi : Int)
    (_h64lo : -(2 ^ 63) ≤ lo) (_h64hi : hi ≤ 2 ^ 63 - 1) (hle : lo ≤ hi) :
    ∃ r, generate_range_regex lo hi = some r ∧
      (∀ x : Int, lo ≤ x → x ≤ hi → rrAccepts r (decimalChars x) = true) ∧
      rrAccepts r (decimalChars (lo - 1)) = false ∧
      rrAccepts r (decimalChars (hi + 1)) = false := by
  obtain ⟨r, hr⟩ : ∃ r, generate_range_regex lo hi = some r :=
    ⟨_, by rw [generate_range_regex, if_pos hle]⟩
  refine ⟨r, hr, ?_, ?_, ?_⟩
  · intro x h1 h2
    exact (rrAccepts_range_iff lo hi hle r hr x).mpr ⟨h1, h2⟩
  · rw [Bool.eq_false_iff]
    intro hcon
    have := (rrAccepts_range_iff lo hi hle r hr (lo - 1)).mp hcon
    omega
  · rw [Bool.eq_false_iff]
    intro hcon
    have := (rrAccepts_range_iff lo hi hle r hr (hi + 1)).mp hcon
    omega

/-- Witness for the range-regex correctness theorem at `lo = -5`, `hi = 10`. -/
theorem generate_range_regex_correct_witness :
    (-(2 ^ 63) ≤ (-5 : Int)) ∧ ((10 : Int) ≤ 2 ^ 63 - 1) ∧ ((-5 : Int) ≤ 10) ∧
    (∃ r, generate_range_regex (-5) 10 = some r ∧
      (∀ x : Int, -5 ≤ x → x ≤ 10 → rrAccepts r (decimalChars x) = true) ∧
      rrAccepts r (decimalChars (-5 - 1)) = false ∧
      rrAccepts r (decimalChars (10 + 1)) = false) :=
  ⟨by decide, by decide, by decide,
    generate_range_regex_correct (-5) 10 (by decide) (by decide) (by decide)⟩

/-! ### EBNF characters and code points -/

theorem validCp_isValid {n : Nat} (h : validCp n = true) : n.isValidChar := by
  simp only [validCp, Bool.or_eq_true, Bool.and_eq_true, decide_eq_true_eq] at h
  unfold Nat.isValidChar
  omega

theorem charOfNat_toNat {n : Nat} (h : validCp n = true) :
    (Char.ofNat n).toNat = n := by
  unfold Char.ofNat
  rw [dif_pos (validCp_isValid h)]
  rfl

theorem validCp_toNat (c : Char) : validCp c.toNat = true := by
  have h := c.valid
  unfold UInt32.isValidChar Nat.isValidChar at h
  have he : c.toNat = c.val.toNat := rfl
  simp only [validCp, Bool.or_eq_true, Bool.and_eq_true, decide_eq_true_eq, he]
  omega

theorem char_eq_of_toNat {c d : Char} (h : c.toNat = d.toNat) : c = d :=
  Char.ext (UInt32.ext h)

theorem charOfNat_ne {n : Nat} (h : validCp n = true) (c : Char)
    (hne : ¬(n = c.toNat)) : ¬(Char.ofNat n = c) := by
  intro he
  exact hne (charOfNat_toNat h ▸ congrArg Char.toNat he)

/-! ### Tokenizer single-character lemmas -/

theorem tokenize_nil : tokenize [] = some [] := by
  rw [tokenize]

theorem tokenize_space (l : List Char) : tokenize (' ' :: l) = tokenize l := by
  rw [tokenize]
  rfl

theorem tokenize_nl (l : List Char) :
    tokenize ('\n' :: l) = (ETok.tNL :: ·) <$> tokenize l := by
  rw [tokenize]
  rfl

theorem tokenize_close (l : List Char) :
    tokenize (')' :: l) = (ETok.tClose :: ·) <$> tokenize l := by
  rw [tokenize]
  rfl

theorem tokenize_bar (l : List Char) :
    tokenize ('|' :: l) = (ETok.tBar :: ·) <$> tokenize l := by
  rw [tokenize]
  rfl

theorem tokenize_star (l : List Char) :
    tokenize ('*' :: l) = (ETok.tStar :: ·) <$> tokenize l := by
  rw [tokenize]
  rfl

theorem tokenize_plus (l : List Char) :
    tokenize ('+' :: l) = (ETok.tPlus :: ·) <$> tokenize l := by
  rw [tokenize]
  rfl

theorem tokenize_quest (l : List Char) :
    tokenize ('?' :: l) = (ETok.tQuest :: ·) <$> tokenize l := by
  rw [tokenize]
  rfl

theorem tokenize_comma (l : List Char) :
    tokenize (',' :: l) = (ETok.tComma :: ·) <$> tokenize l := by
  rw [tokenize]
  rfl

theorem tokenize_eq (l : List Char) :
    tokenize ('=' :: l) = (ETok.tEq :: ·) <$> tokenize l := by
  rw [tokenize]
  rfl

theorem tokenize_open (l : List Char) (h : headIsNot '=' l) :
    tokenize ('(' :: l) = (ETok.tOpen :: ·) <$> tokenize l := by
  rw [tokenize]
  show tokParen l = _
  cases l with
  | nil => rw [tokParen, tokenize_nil]; rfl
  | cons c r =>
    rw [tokParen, if_neg h]

theorem tokenize_look (l : List Char) :
    tokenize ('(' :: '=' :: l) = (ETok.tLook :: ·) <$> tokenize l := by
  rw [tokenize]
  show tokParen ('=' :: l) = _
  rw [tokParen, if_pos rfl]

theorem tokenize_defsym (l : List Char) :
    tokenize (':' :: ':' :: '=' :: l) = (ETok.tDef :: ·) <$> tokenize l := by
  rw [tokenize]
  show tokColon (':' :: '=' :: l) = _
  rw [tokColon]
  rfl

/-! ### Tokenizer: string literal lemmas -/

theorem charOfNat_eq_iff {n : Nat} (h : validCp n = true) (c : Char) :
    Char.ofNat n = c ↔ n = c.toNat := by
  constructor
  · intro he
    exact (charOfNat_toNat h) ▸ congrArg Char.toNat he
  · intro he
    exact char_eq_of_toNat (by rw [charOfNat_toNat h, he])

theorem hexVal_hexDigChar {d : Nat} (h : d < 16) :
    hexVal (hexDigChar d) = some d := by
  interval_cases d <;> decide

theorem litRaw_ofNat {n : Nat} (h : validCp n = true) (h34 : ¬n = 34)
    (h92 : ¬n = 92) (h10 : ¬n = 10) : litRaw (Char.ofNat n) = true := by
  have e34 : (Char.ofNat n == '"') = false := by
    rw [beq_eq_false_iff_ne]
    exact (charOfNat_eq_iff h '"').not.mpr h34
  have e92 : (Char.ofNat n == '\\') = false := by
    rw [beq_eq_false_iff_ne]
    exact (charOfNat_eq_iff h '\\').not.mpr h92
  have e10 : (Char.ofNat n == '\n') = false := by
    rw [beq_eq_false_iff_ne]
    exact (charOfNat_eq_iff h '\n').not.mpr h10
  rw [litRaw, e34, e92, e10]
  rfl

theorem tokLit_cp {n : Nat} (h : validCp n = true) (acc : List Nat)
    (l : List Char) : tokLit acc (printLitCp n ++ l) = tokLit (n :: acc) l := by
  by_cases h10 : n = 10
  · subst h10
    rw [show printLitCp 10 = ['\\', 'n'] from rfl]
    rw [List.cons_append, List.cons_append, List.nil_append, tokLit]
    show tokLitEsc acc ('n' :: l) = _
    rw [tokLitEsc.eq_def]
    rfl
  by_cases h9 : n = 9
  · subst h9
    rw [show printLitCp 9 = ['\\', 't'] from rfl]
    rw [List.cons_append, List.cons_append, List.nil_append, tokLit]
    show tokLitEsc acc ('t' :: l) = _
    rw [tokLitEsc.eq_def]
    rfl
  by_cases h13 : n = 13
  · subst h13
    rw [show printLitCp 13 = ['\\', 'r'] from rfl]
    rw [List.cons_append, List.cons_append, List.nil_append, tokLit]
    show tokLitEsc acc ('r' :: l) = _
    rw [tokLitEsc.eq_def]
    rfl
  by_cases h34 : n = 34
  · subst h34
    rw [show printLitCp 34 = ['\\', '"'] from rfl]
    rw [List.cons_append, List.cons_append, List.nil_append, tokLit]
    show tokLitEsc acc ('"' :: l) = _
    rw [tokLitEsc.eq_def]
    rfl
  by_cases h92 : n = 92
  · subst h92
    rw [show printLitCp 92 = ['\\', '\\'] from rfl]
    rw [List.cons_append, List.cons_append, List.nil_append, tokLit]
    show tokLitEsc acc ('\\' :: l) = _
    rw [tokLitEsc.eq_def]
    rfl
  by_cases hhex : n < 32 ∨ n = 127
  · have hp : printLitCp n = '\\' :: 'x' :: printHex2 n := by
      rw [printLitCp, if_neg h10, if_neg h9, if_neg h13, if_neg h34, if_neg h92]
      rcases hhex with hlt | h127
      · rw [if_pos hlt]
      · rw [if_neg (by omega), if_pos h127]
    have h256 : n < 256 := by omega
    rw [hp, printHex2]
    rw [List.cons_append, List.cons_append, List.cons_append, List.cons_append,
      List.nil_append, tokLit]
    show tokLitEsc acc ('x' :: hexDigChar (n / 16) :: hexDigChar (n % 16) :: l) = _
    rw [tokLitEsc.eq_def]
    show tokLitHex 2 0 acc (hexDigChar (n / 16) :: hexDigChar (n % 16) :: l) = _
    rw [tokLitHex, hexVal_hexDigChar (by omega)]
    show tokLitHex 1 (16 * 0 + n / 16) acc (hexDigChar (n % 16) :: l) = _
    rw [tokLitHex, hexVal_hexDigChar (by omega)]
    show tokLitHex 0 (16 * (16 * 0 + n / 16) + n % 16) acc l = _
    rw [show 16 * (16 * 0 + n / 16) + n % 16 = n from by omega]
    rw [tokLitHex, if_pos h]
  · have hp : printLitCp n = [Char.ofNat n] := by
      rw [printLitCp, if_neg h10, if_neg h9, if_neg h13, if_neg h34, if_neg h92,
        if_neg (fun hc => hhex (Or.inl hc)), if_neg (fun hc => hhex (Or.inr hc))]
    rw [hp, List.cons_append, List.nil_append, tokLit]
    rw [if_neg ((charOfNat_eq_iff h '"').not.mpr h34)]
    rw [if_neg ((charOfNat_eq_iff h '\\').not.mpr h92)]
    rw [if_pos (litRaw_ofNat h h34 h92 h10), charOfNat_toNat h]

theorem tokLit_run (cs : List Nat) (hcs : ∀ c ∈ cs, validCp c = true) :
    ∀ (acc : List Nat) (l : List Char),
    tokLit acc ((cs.map printLitCp).join ++ '"' :: l) =
      (ETok.tLit (acc.reverse ++ cs) :: ·) <$> tokenize l := by
  induction cs with
  | nil =>
    intro acc l
    rw [List.map_nil]
    show tokLit acc ('"' :: l) = _
    rw [tokLit]
    simp
  | cons c cs ih =>
    intro acc l
    rw [List.map_cons]
    rw [show (printLitCp c :: List.map printLitCp cs).join =
      printLitCp c ++ (List.map printLitCp cs).join from rfl]
    rw [List.append_assoc, tokLit_cp (hcs c (List.mem_cons_self _ _)),
      ih (fun x hx => hcs x (List.mem_cons_of_mem _ hx))]
    simp

theorem tokenize_litstr (cs : List Nat) (hcs : ∀ c ∈ cs, validCp c = true)
    (l : List Char) :
    tokenize (printLitStr cs ++ l) =
      (ETok.tLit cs :: ·) <$> tokenize l := by
  rw [printLitStr, List.cons_append, tokenize]
  show tokLit [] ((cs.map printLitCp).join ++ ['"'] ++ l) = _
  rw [List.append_assoc]
  rw [show (['"'] : List Char) ++ l = '"' :: l from rfl]
  rw [tokLit_run cs hcs]
  rfl


/-! ### Tokenizer: character class lemmas -/

theorem classRaw_ofNat {n : Nat} (h : validCp n = true) (h93 : ¬n = 93)
    (h92 : ¬n = 92) (h10 : ¬n = 10) (h94 : ¬n = 94) (h45 : ¬n = 45) :
    classRaw (Char.ofNat n) = true := by
  have e : ∀ c : Char, ¬n = c.toNat → (Char.ofNat n == c) = false := by
    intro c hne
    rw [beq_eq_false_iff_ne]
    exact (charOfNat_eq_iff h c).not.mpr hne
  rw [classRaw, e ']' h93, e '\\' h92, e '\n' h10, e '^' h94, e '-' h45]
  rfl

theorem printClassCp_head_spec {n : Nat} (h : validCp n = true) :
    (∃ t, printClassCp n = '\\' :: t) ∨
    (printClassCp n = [Char.ofNat n] ∧ ¬n = 45 ∧ ¬n = 94) := by
  rw [printClassCp]
  by_cases h10 : n = 10
  · rw [if_pos h10]; exact Or.inl ⟨_, rfl⟩
  rw [if_neg h10]
  by_cases h9 : n = 9
  · rw [if_pos h9]; exact Or.inl ⟨_, rfl⟩
  rw [if_neg h9]
  by_cases h13 : n = 13
  · rw [if_pos h13]; exact Or.inl ⟨_, rfl⟩
  rw [if_neg h13]
  by_cases h93 : n = 93
  · rw [if_pos h93]; exact Or.inl ⟨_, rfl⟩
  rw [if_neg h93]
  by_cases h92 : n = 92
  · rw [if_pos h92]; exact Or.inl ⟨_, rfl⟩
  rw [if_neg h92]
  by_cases h94 : n = 94
  · rw [if_pos h94]; exact Or.inl ⟨_, rfl⟩
  rw [if_neg h94]
  by_cases h45 : n = 45
  · rw [if_pos h45]; exact Or.inl ⟨_, rfl⟩
  rw [if_neg h45]
  by_cases h32 : n < 32
  · rw [if_pos h32]; exact Or.inl ⟨_, rfl⟩
  rw [if_neg h32]
  by_cases h127 : n = 127
  · rw [if_pos h127]; exact Or.inl ⟨_, rfl⟩
  rw [if_neg h127]
  exact Or.inr ⟨rfl, h45, h94⟩

theorem headNotDash_printClassCp {n : Nat} (h : validCp n = true)
    (X : List Char) : headNotDash (printClassCp n ++ X) := by
  rcases printClassCp_head_spec h with ⟨t, ht⟩ | ⟨ht, h45, _⟩ <;> rw [ht]
  · exact (by decide : ¬('\\' = '-'))
  · exact (charOfNat_eq_iff h '-').not.mpr h45

theorem headNotHat_printClassCp {n : Nat} (h : validCp n = true)
    (X : List Char) : headNotHat (printClassCp n ++ X) := by
  rcases printClassCp_head_spec h with ⟨t, ht⟩ | ⟨ht, _, h94⟩ <;> rw [ht]
  · exact (by decide : ¬('\\' = '^'))
  · exact (charOfNat_eq_iff h '^').not.mpr h94

theorem tokClassBody_cp {n : Nat} (h : validCp n = true) (neg : Bool)
    (acc : List (Nat × Nat)) (l : List Char) :
    tokClassBody neg acc (printClassCp n ++ l) = tokClassDash neg acc n l := by
  by_cases h10 : n = 10
  · subst h10
    rw [show printClassCp 10 = ['\\', 'n'] from rfl]
    rw [List.cons_append, List.cons_append, List.nil_append, tokClassBody]
    show tokClassEsc1 neg acc ('n' :: l) = _
    rw [tokClassEsc1.eq_def]
    rfl
  by_cases h9 : n = 9
  · subst h9
    rw [show printClassCp 9 = ['\\', 't'] from rfl]
    rw [List.cons_append, List.cons_append, List.nil_append, tokClassBody]
    show tokClassEsc1 neg acc ('t' :: l) = _
    rw [tokClassEsc1.eq_def]
    rfl
  by_cases h13 : n = 13
  · subst h13
    rw [show printClassCp 13 = ['\\', 'r'] from rfl]
    rw [List.cons_append, List.cons_append, List.nil_append, tokClassBody]
    show tokClassEsc1 neg acc ('r' :: l) = _
    rw [tokClassEsc1.eq_def]
    rfl
  by_cases h93 : n = 93
  · subst h93
    rw [show printClassCp 93 = ['\\', ']'] from rfl]
    rw [List.cons_append, List.cons_append, List.nil_append, tokClassBody]
    show tokClassEsc1 neg acc (']' :: l) = _
    rw [tokClassEsc1.eq_def]
    rfl
  by_cases h92 : n = 92
  · subst h92
    rw [show printClassCp 92 = ['\\', '\\'] from rfl]
    rw [List.cons_append, List.cons_append, List.nil_append, tokClassBody]
    show tokClassEsc1 neg acc ('\\' :: l) = _
    rw [tokClassEsc1.eq_def]
    rfl
  by_cases h94 : n = 94
  · subst h94
    rw [show printClassCp 94 = ['\\', '^'] from rfl]
    rw [List.cons_append, List.cons_append, List.nil_append, tokClassBody]
    show tokClassEsc1 neg acc ('^' :: l) = _
    rw [tokClassEsc1.eq_def]
    rfl
  by_cases h45 : n = 45
  · subst h45
    rw [show printClassCp 45 = ['\\', '-'] from rfl]
    rw [List.cons_append, List.cons_append, List.nil_append, tokClassBody]
    show tokClassEsc1 neg acc ('-' :: l) = _
    rw [tokClassEsc1.eq_def]
    rfl
  by_cases hhex : n < 32 ∨ n = 127
  · have hp : printClassCp n = '\\' :: 'x' :: printHex2 n := by
      rw [printClassCp, if_neg h10, if_neg h9, if_neg h13, if_neg h93,
        if_neg h92, if_neg h94, if_neg h45]
      rcases hhex with hlt | h127
      · rw [if_pos hlt]
      · rw [if_neg (by omega), if_pos h127]
    rw [hp, printHex2]
    rw [List.cons_append, List.cons_append, List.cons_append, List.cons_append,
      List.nil_append, tokClassBody]
    show tokClassEsc1 neg acc
      ('x' :: hexDigChar (n / 16) :: hexDigChar (n % 16) :: l) = _
    rw [tokClassEsc1.eq_def]
    show tokClassHex1 2 0 neg acc
      (hexDigChar (n / 16) :: hexDigChar (n % 16) :: l) = _
    rw [tokClassHex1, hexVal_hexDigChar (by omega)]
    show tokClassHex1 1 (16 * 0 + n / 16) neg acc (hexDigChar (n % 16) :: l) = _
    rw [tokClassHex1, hexVal_hexDigChar (by omega)]
    show tokClassHex1 0 (16 * (16 * 0 + n / 16) + n % 16) neg acc l = _
    rw [show 16 * (16 * 0 + n / 16) + n % 16 = n from by omega]
    rw [tokClassHex1, if_pos h]
  · have hp : printClassCp n = [Char.ofNat n] := by
      rw [printClassCp, if_neg h10, if_neg h9, if_neg h13, if_neg h93,
        if_neg h92, if_neg h94, if_neg h45,
        if_neg (fun hc => hhex (Or.inl hc)), if_neg (fun hc => hhex (Or.inr hc))]
    rw [hp, List.cons_append, List.nil_append, tokClassBody]
    rw [if_neg ((charOfNat_eq_iff h ']').not.mpr h93)]
    rw [if_neg ((charOfNat_eq_iff h '\\').not.mpr h92)]
    rw [if_pos (classRaw_ofNat h h93 h92 h10 h94 h45), charOfNat_toNat h]

theorem tokClassSnd_cp {n : Nat} (h : validCp n = true) (neg : Bool)
    (acc : List (Nat × Nat)) (c1 : Nat) (l : List Char) :
    tokClassSnd neg acc c1 (printClassCp n ++ l) =
      tokClassBody neg ((c1, n) :: acc) l := by
  by_cases h10 : n = 10
  · subst h10
    rw [show printClassCp 10 = ['\\', 'n'] from rfl]
    rw [List.cons_append, List.cons_append, List.nil_append, tokClassSnd]
    show tokClassEsc2 neg acc c1 ('n' :: l) = _
    rw [tokClassEsc2.eq_def]
    rfl
  by_cases h9 : n = 9
  · subst h9
    rw [show printClassCp 9 = ['\\', 't'] from rfl]
    rw [List.cons_append, List.cons_append, List.nil_append, tokClassSnd]
    show tokClassEsc2 neg acc c1 ('t' :: l) = _
    rw [tokClassEsc2.eq_def]
    rfl
  by_cases h13 : n = 13
  · subst h13
    rw [show printClassCp 13 = ['\\', 'r'] from rfl]
    rw [List.cons_append, List.cons_append, List.nil_append, tokClassSnd]
    show tokClassEsc2 neg acc c1 ('r' :: l) = _
    rw [tokClassEsc2.eq_def]
    rfl
  by_cases h93 : n = 93
  · subst h93
    rw [show printClassCp 93 = ['\\', ']'] from rfl]
    rw [List.cons_append, List.cons_append, List.nil_append, tokClassSnd]
    show tokClassEsc2 neg acc c1 (']' :: l) = _
    rw [tokClassEsc2.eq_def]
    rfl
  by_cases h92 : n = 92
  · subst h92
    rw [show printClassCp 92 = ['\\', '\\'] from rfl]
    rw [List.cons_append, List.cons_append, List.nil_append, tokClassSnd]
    show tokClassEsc2 neg acc c1 ('\\' :: l) = _
    rw [tokClassEsc2.eq_def]
    rfl
  by_cases h94 : n = 94
  · subst h94
    rw [show printClassCp 94 = ['\\', '^'] from rfl]
    rw [List.cons_append, List.cons_append, List.nil_append, tokClassSnd]
    show tokClassEsc2 neg acc c1 ('^' :: l) = _
    rw [tokClassEsc2.eq_def]
    rfl
  by_cases h45 : n = 45
  · subst h45
    rw [show printClassCp 45 = ['\\', '-'] from rfl]
    rw [List.cons_append, List.cons_append, List.nil_append, tokClassSnd]
    show tokClassEsc2 neg acc c1 ('-' :: l) = _
    rw [tokClassEsc2.eq_def]
    rfl
  by_cases hhex : n < 32 ∨ n = 127
  · have hp : printClassCp n = '\\' :: 'x' :: printHex2 n := by
      rw [printClassCp, if_neg h10, if_neg h9, if_neg h13, if_neg h93,
        if_neg h92, if_neg h94, if_neg h45]
      rcases hhex with hlt | h127
      · rw [if_pos hlt]
      · rw [if_neg (by omega), if_pos h127]
    rw [hp, printHex2]
    rw [List.cons_append, List.cons_append, List.cons_append, List.cons_append,
      List.nil_append, tokClassSnd]
    show tokClassEsc2 neg acc c1
      ('x' :: hexDigChar (n / 16) :: hexDigChar (n % 16) :: l) = _
    rw [tokClassEsc2.eq_def]
    show tokClassHex2 2 0 neg acc c1
      (hexDigChar (n / 16) :: hexDigChar (n % 16) :: l) = _
    rw [tokClassHex2, hexVal_hexDigChar (by omega)]
    show tokClassHex2 1 (16 * 0 + n / 16) neg acc c1 (hexDigChar (n % 16) :: l) = _
    rw [tokClassHex2, hexVal_hexDigChar (by omega)]
    show tokClassHex2 0 (16 * (16 * 0 + n / 16) + n % 16) neg acc c1 l = _
    rw [show 16 * (16 * 0 + n / 16) + n % 16 = n from by omega]
    rw [tokClassHex2, if_pos h]
  · have hp : printClassCp n = [Char.ofNat n] := by
      rw [printClassCp, if_neg h10, if_neg h9, if_neg h13, if_neg h93,
        if_neg h92, if_neg h94, if_neg h45,
        if_neg (fun hc => hhex (Or.inl hc)), if_neg (fun hc => hhex (Or.inr hc))]
    rw [hp, List.cons_append, List.nil_append, tokClassSnd]
    rw [if_neg ((charOfNat_eq_iff h '\\').not.mpr h92)]
    rw [if_pos (classRaw_ofNat h h93 h92 h10 h94 h45), charOfNat_toNat h]


theorem tokClass_go (X : List Char) (h : headNotHat X) :
    tokClass X = tokClassBody false [] X := by
  cases X with
  | nil => exact absurd h (by simp [headNotHat])
  | cons c r => rw [tokClass, if_neg h]

theorem tokClassDash_go (neg : Bool) (acc : List (Nat × Nat)) (c1 : Nat)
    (l : List Char) (hl : headNotDash l) :
    tokClassDash neg acc c1 l = tokClassBody neg ((c1, c1) :: acc) l := by
  cases l with
  | nil => exact absurd hl (by simp [headNotDash])
  | cons d r =>
    rw [tokClassDash, if_neg hl]

theorem tokClassBody_item (p : Nat × Nat) (hok : itemOkB p = true) (neg : Bool)
    (acc : List (Nat × Nat)) (l : List Char) (hl : headNotDash l) :
    tokClassBody neg acc (printItem p ++ l) = tokClassBody neg (p :: acc) l := by
  obtain ⟨lo, hi⟩ := p
  simp only [itemOkB, Bool.and_eq_true] at hok
  rw [printItem]
  by_cases he : lo = hi
  · simp only [if_pos he]
    rw [tokClassBody_cp hok.1, tokClassDash_go neg acc lo l hl, he]
  · simp only [if_neg he]
    rw [List.append_assoc, List.cons_append, tokClassBody_cp hok.1, tokClassDash]
    rw [if_pos rfl, tokClassSnd_cp hok.2]

theorem headNotDash_items (items : List (Nat × Nat))
    (hok : ∀ p ∈ items, itemOkB p = true) (l : List Char) :
    headNotDash ((items.map printItem).join ++ ']' :: l) := by
  cases items with
  | nil => exact (by decide : ¬(']' = '-'))
  | cons p ps =>
    have h1 : validCp p.1 = true := by
      have := hok p (List.mem_cons_self _ _)
      simp only [itemOkB, Bool.and_eq_true] at this
      exact this.1
    rw [List.map_cons]
    rw [show (printItem p :: List.map printItem ps).join =
      printItem p ++ (List.map printItem ps).join from rfl]
    rw [List.append_assoc, printItem]
    by_cases he : p.1 = p.2
    · rw [if_pos he]
      exact headNotDash_printClassCp h1 _
    · rw [if_neg he, List.append_assoc]
      exact headNotDash_printClassCp h1 _

theorem tokClassBody_items (items : List (Nat × Nat))
    (hok : ∀ p ∈ items, itemOkB p = true) :
    ∀ (neg : Bool) (acc : List (Nat × Nat)) (l : List Char),
    tokClassBody neg acc ((items.map printItem).join ++ ']' :: l) =
      (ETok.tClass neg (acc.reverse ++ items) :: ·) <$> tokenize l := by
  induction items with
  | nil =>
    intro neg acc l
    rw [List.map_nil]
    show tokClassBody neg acc (']' :: l) = _
    rw [tokClassBody]
    simp
  | cons p ps ih =>
    intro neg acc l
    rw [List.map_cons]
    rw [show (printItem p :: List.map printItem ps).join =
      printItem p ++ (List.map printItem ps).join from rfl]
    rw [List.append_assoc,
      tokClassBody_item p (hok p (List.mem_cons_self _ _)) neg acc _
        (headNotDash_items ps (fun q hq => hok q (List.mem_cons_of_mem _ hq)) l),
      ih (fun q hq => hok q (List.mem_cons_of_mem _ hq))]
    simp

theorem tokenize_class (neg : Bool) (items : List (Nat × Nat))
    (hok : ∀ p ∈ items, itemOkB p = true) (l : List Char) :
    tokenize (printClass neg items ++ l) =
      (ETok.tClass neg items :: ·) <$> tokenize l := by
  rw [printClass, List.cons_append, tokenize]
  show tokClass ((if neg = true then ['^'] else []) ++
    (items.map printItem).join ++ [']'] ++ l) = _
  cases neg with
  | true =>
    rw [if_pos rfl]
    rw [show (['^'] : List Char) ++ (items.map printItem).join ++ [']'] ++ l =
      '^' :: ((items.map printItem).join ++ (']' :: l)) from by simp]
    rw [tokClass, if_pos rfl, tokClassBody_items items hok]
    rfl
  | false =>
    rw [if_neg (by decide)]
    rw [show ([] : List Char) ++ (items.map printItem).join ++ [']'] ++ l =
      (items.map printItem).join ++ (']' :: l) from by simp]
    have hh : headNotHat ((items.map printItem).join ++ ']' :: l) := by
      cases items with
      | nil => exact (by decide : ¬(']' = '^'))
      | cons p ps =>
        have h1 : validCp p.1 = true := by
          have := hok p (List.mem_cons_self _ _)
          simp only [itemOkB, Bool.and_eq_true] at this
          exact this.1
        rw [List.map_cons]
        rw [show (printItem p :: List.map printItem ps).join =
          printItem p ++ (List.map printItem ps).join from rfl]
        rw [List.append_assoc, printItem]
        by_cases he : p.1 = p.2
        · rw [if_pos he]
          exact headNotHat_printClassCp h1 _
        · rw [if_neg he, List.append_assoc]
          exact headNotHat_printClassCp h1 _
    rw [tokClass_go _ hh, tokClassBody_items items hok]
    rfl


/-! ### Tokenizer: identifier lemmas -/

theorem tokIdent_run (s : List Char) (hs : s.all isIdentChar = true) :
    ∀ (acc : List Char) (l : List Char), headNonIdent l →
    tokIdent acc (s ++ l) =
      (ETok.tIdent (acc.reverse ++ s) :: ·) <$> tokenize l := by
  induction s with
  | nil =>
    intro acc l hl
    rw [List.nil_append]
    cases l with
    | nil =>
      rw [tokIdent, tokenize_nil]
      simp
    | cons c r =>
      rw [tokIdent, if_neg (by simp [headNonIdent] at hl; simp [hl])]
      simp
  | cons c cs ih =>
    intro acc l hl
    rw [List.all_cons, Bool.and_eq_true] at hs
    rw [List.cons_append, tokIdent, if_pos hs.1, ih hs.2 (c :: acc) l hl]
    simp

theorem tokenize_ident (s : List Char) (hne : ¬s = [])
    (hs : s.all isIdentChar = true) (l : List Char) (hl : headNonIdent l) :
    tokenize (s ++ l) = (ETok.tIdent s :: ·) <$> tokenize l := by
  cases s with
  | nil => exact absurd rfl hne
  | cons c cs =>
    rw [List.all_cons, Bool.and_eq_true] at hs
    have hcsp : isIdentChar c = true := hs.1
    have hnotsp : ∀ d : Char, isIdentChar d = true →
        ¬d = ' ' ∧ ¬d = '\t' ∧ ¬d = '\n' ∧ ¬d = '(' ∧ ¬d = ')' ∧ ¬d = '|' ∧
        ¬d = '*' ∧ ¬d = '+' ∧ ¬d = '?' ∧ ¬d = ',' ∧ ¬d = '=' ∧ ¬d = ':' ∧
        ¬d = '"' ∧ ¬d = '[' ∧ ¬d = lbrace := by
      intro d hd
      refine ⟨?_, ?_, ?_, ?_, ?_, ?_, ?_, ?_, ?_, ?_, ?_, ?_, ?_, ?_, ?_⟩ <;>
        (intro he; subst he; revert hd; decide)
    obtain ⟨e1, e2, e3, e4, e5, e6, e7, e8, e9, e10, e11, e12, e13, e14, e15⟩ :=
      hnotsp c hcsp
    rw [List.cons_append, tokenize, if_neg e1, if_neg e2, if_neg e3, if_neg e4,
      if_neg e5, if_neg e6, if_neg e7, if_neg e8, if_neg e9, if_neg e10,
      if_neg e11, if_neg e12, if_neg e13, if_neg e14, if_neg e15, if_pos hcsp,
      tokIdent_run cs hs.2 [c] l hl]
    simp


/-! ### Tokenizer: brace quantifier lemmas -/

theorem charToDigit_some_ne {c : Char} {d : Nat} (h : charToDigit c = some d) :
    ¬c = ' ' ∧ ¬c = ',' ∧ ¬c = rbrace := by
  refine ⟨?_, ?_, ?_⟩ <;> intro he <;> subst he
  · rw [show charToDigit ' ' = none from rfl] at h; cases h
  · rw [show charToDigit ',' = none from rfl] at h; cases h
  · rw [show charToDigit rbrace = none from rfl] at h; cases h

theorem tokRepA_digits (ds : List Nat) (h9 : ∀ d ∈ ds, d ≤ 9) :
    ∀ (m : Nat) (l : List Char),
    tokRepA m ((ds.map digitChar) ++ l) =
      tokRepA (m * 10 ^ ds.length + valD ds) l := by
  induction ds with
  | nil =>
    intro m l
    simp [valD]
  | cons d ds ih =>
    intro m l
    have hd : d ≤ 9 := h9 d (List.mem_cons_self _ _)
    rw [List.map_cons, List.cons_append, tokRepA,
      charToDigit_digitChar d hd]
    show tokRepA (10 * m + d) ((ds.map digitChar) ++ l) = _
    rw [ih (fun x hx => h9 x (List.mem_cons_of_mem _ hx))]
    rw [show (10 * m + d) * 10 ^ ds.length + valD ds =
      m * 10 ^ (d :: ds).length + valD (d :: ds) from by
        show _ = m * 10 ^ (ds.length + 1) + (d * 10 ^ ds.length + valD ds)
        ring]

theorem tokRepB_digits (ds : List Nat) (h9 : ∀ d ∈ ds, d ≤ 9) :
    ∀ (m n : Nat) (l : List Char),
    tokRepB m n ((ds.map digitChar) ++ l) =
      tokRepB m (n * 10 ^ ds.length + valD ds) l := by
  induction ds with
  | nil =>
    intro m n l
    simp [valD]
  | cons d ds ih =>
    intro m n l
    have hd : d ≤ 9 := h9 d (List.mem_cons_self _ _)
    rw [List.map_cons, List.cons_append, tokRepB,
      charToDigit_digitChar d hd]
    show tokRepB m (10 * n + d) ((ds.map digitChar) ++ l) = _
    rw [ih (fun x hx => h9 x (List.mem_cons_of_mem _ hx))]
    rw [show (10 * n + d) * 10 ^ ds.length + valD ds =
      n * 10 ^ (d :: ds).length + valD (d :: ds) from by
        show _ = n * 10 ^ (ds.length + 1) + (d * 10 ^ ds.length + valD ds)
        ring]

theorem digitsOf_ne_nil {m : Nat} (hm : ¬m = 0) : ¬digitsOf m = [] := by
  rw [digitsOf]
  cases m with
  | zero => exact absurd rfl hm
  | succ k =>
    rw [digitsAuxR, if_neg hm]
    simp

theorem tokRepStart_natChars (m : Nat) (l : List Char) :
    tokRepStart (natChars m ++ l) = tokRepA m l := by
  by_cases hm : m = 0
  · subst hm
    rw [show natChars 0 = ['0'] from rfl, List.cons_append, List.nil_append,
      tokRepStart]
    rw [if_neg (by decide), show charToDigit '0' = some 0 from rfl]
  · obtain ⟨d, ds, hds⟩ := List.exists_cons_of_ne_nil (digitsOf_ne_nil hm)
    have hd : d ≤ 9 := digitsOf_le_9 m d (by rw [hds]; exact List.mem_cons_self _ _)
    have h9 : ∀ x ∈ ds, x ≤ 9 := fun x hx =>
      digitsOf_le_9 m x (by rw [hds]; exact List.mem_cons_of_mem _ hx)
    have hne := charToDigit_some_ne (charToDigit_digitChar d hd)
    rw [natChars, if_neg hm, hds, List.map_cons, List.cons_append, tokRepStart,
      if_neg hne.1, charToDigit_digitChar d hd]
    show tokRepA d ((ds.map digitChar) ++ l) = _
    rw [tokRepA_digits ds h9]
    rw [show d * 10 ^ ds.length + valD ds = valD (d :: ds) from rfl, ← hds,
      valD_digitsOf]

theorem tokRepComma_natChars (m n : Nat) (l : List Char) :
    tokRepComma m (natChars n ++ l) = tokRepB m n l := by
  by_cases hn : n = 0
  · subst hn
    rw [show natChars 0 = ['0'] from rfl, List.cons_append, List.nil_append,
      tokRepComma]
    rw [if_neg (by decide), if_neg (by decide),
      show charToDigit '0' = some 0 from rfl]
  · obtain ⟨d, ds, hds⟩ := List.exists_cons_of_ne_nil (digitsOf_ne_nil hn)
    have hd : d ≤ 9 := digitsOf_le_9 n d (by rw [hds]; exact List.mem_cons_self _ _)
    have h9 : ∀ x ∈ ds, x ≤ 9 := fun x hx =>
      digitsOf_le_9 n x (by rw [hds]; exact List.mem_cons_of_mem _ hx)
    have hne := charToDigit_some_ne (charToDigit_digitChar d hd)
    rw [natChars, if_neg hn, hds, List.map_cons, List.cons_append, tokRepComma,
      if_neg hne.1, if_neg hne.2.2, charToDigit_digitChar d hd]
    show tokRepB m d ((ds.map digitChar) ++ l) = _
    rw [tokRepB_digits ds h9]
    rw [show d * 10 ^ ds.length + valD ds = valD (d :: ds) from rfl, ← hds,
      valD_digitsOf]

theorem tokRepA_comma (m : Nat) (l : List Char) :
    tokRepA m (',' :: l) = tokRepComma m l := by
  rw [tokRepA]
  rfl

theorem tokRepA_close (m : Nat) (l : List Char) :
    tokRepA m (rbrace :: l) = (ETok.tRep m (some m) :: ·) <$> tokenize l := by
  rw [tokRepA]
  rfl

theorem tokRepComma_close (m : Nat) (l : List Char) :
    tokRepComma m (rbrace :: l) = (ETok.tRep m none :: ·) <$> tokenize l := by
  rw [tokRepComma]
  rfl

theorem tokRepB_close (m n : Nat) (l : List Char) :
    tokRepB m n (rbrace :: l) = (ETok.tRep m (some n) :: ·) <$> tokenize l := by
  rw [tokRepB]
  rfl

theorem tokenize_lbrace (l : List Char) :
    tokenize (lbrace :: l) = tokRepStart l := by
  rw [tokenize]
  rfl

theorem tokenize_quant (q : Option EQuant) (l : List Char) :
    tokenize (printQuantS q ++ l) =
      (fun ts => tokensOfQuant q ++ ts) <$> tokenize l := by
  match q with
  | none =>
    rw [printQuantS, tokensOfQuant, List.nil_append]
    cases tokenize l <;> rfl
  | some .star =>
    rw [printQuantS, tokensOfQuant, List.cons_append, List.nil_append,
      tokenize_star]
    rfl
  | some .plus =>
    rw [printQuantS, tokensOfQuant, List.cons_append, List.nil_append,
      tokenize_plus]
    rfl
  | some .opt =>
    rw [printQuantS, tokensOfQuant, List.cons_append, List.nil_append,
      tokenize_quest]
    rfl
  | some (.rep m none) =>
    rw [printQuantS, tokensOfQuant, List.cons_append, tokenize_lbrace]
    rw [show (natChars m ++ [',', rbrace]) ++ l =
      natChars m ++ (',' :: rbrace :: l) from by simp]
    rw [tokRepStart_natChars, tokRepA_comma, tokRepComma_close]
    rfl
  | some (.rep m (some n)) =>
    rw [printQuantS, tokensOfQuant]
    by_cases he : m = n
    · rw [if_pos he]
      rw [List.cons_append]
      rw [show (natChars m ++ [rbrace]) ++ l = natChars m ++ (rbrace :: l)
        from by simp]
      rw [tokenize_lbrace, tokRepStart_natChars, tokRepA_close, he]
      rfl
    · rw [if_neg he]
      rw [List.cons_append]
      rw [show (natChars m ++ ',' :: natChars n ++ [rbrace]) ++ l =
        natChars m ++ (',' :: (natChars n ++ (rbrace :: l))) from by simp]
      rw [tokenize_lbrace, tokRepStart_natChars, tokRepA_comma,
        tokRepComma_natChars, tokRepB_close]
      rfl


/-! ### Tokenizer: dispatch component lemmas -/

theorem map_map_comp {α β γ : Type} (f : α → β) (g : β → γ) (x : Option α) :
    g <$> (f <$> x) = (fun a => g (f a)) <$> x := by
  cases x <;> rfl

theorem tokenize_strTuple (ss : List (List Nat))
    (hok : ∀ s ∈ ss, litOkB s = true) (l : List Char) :
    tokenize (printStrTuple ss ++ l) =
      (fun ts => strTupleToks ss ++ ts) <$> tokenize l := by
  cases ss with
  | nil =>
    rw [printStrTuple, strTupleToks]
    rw [show (['(', ')'] : List Char) ++ l = '(' :: (')' :: l) from rfl]
    rw [tokenize_open (')' :: l) (by exact (by decide : ¬(')' = '='))),
      tokenize_close, map_map_comp]
    rfl
  | cons s ss =>
    have hs : ∀ c ∈ s, validCp c = true := by
      have := hok s (List.mem_cons_self _ _)
      rw [litOkB, List.all_eq_true] at this
      exact this
    rw [printStrTuple, strTupleToks, List.cons_append]
    rw [show (printLitStr s ++
        (ss.map (fun t => ',' :: ' ' :: printLitStr t)).join ++ [')']) ++ l =
      printLitStr s ++
        ((ss.map (fun t => ',' :: ' ' :: printLitStr t)).join ++ (')' :: l))
      from by simp]
    rw [tokenize_open _ (by
      rcases s with _ | ⟨c, cs⟩ <;> exact (by decide : ¬('"' = '=')))]
    rw [tokenize_litstr s hs]
    have hrest : ∀ (ts : List (List Nat)), (∀ t ∈ ts, litOkB t = true) →
        tokenize ((ts.map (fun t => ',' :: ' ' :: printLitStr t)).join ++
          (')' :: l)) =
        (fun acc => (ts.map (fun t => [ETok.tComma, ETok.tLit t])).join ++
          (ETok.tClose :: acc)) <$> tokenize l := by
      intro ts
      induction ts with
      | nil =>
        intro _
        rw [List.map_nil]
        show tokenize (')' :: l) = _
        rw [tokenize_close]
        rfl
      | cons t ts ih =>
        intro hts
        have ht : ∀ c ∈ t, validCp c = true := by
          have := hts t (List.mem_cons_self _ _)
          rw [litOkB, List.all_eq_true] at this
          exact this
        rw [List.map_cons]
        rw [show ((',' :: ' ' :: printLitStr t) ::
            (ts.map (fun u => ',' :: ' ' :: printLitStr u))).join =
          ',' :: ' ' :: (printLitStr t ++
            (ts.map (fun u => ',' :: ' ' :: printLitStr u)).join) from by simp]
        rw [List.cons_append, List.cons_append, tokenize_comma, tokenize_space,
          List.append_assoc, tokenize_litstr t ht,
          ih (fun u hu => hts u (List.mem_cons_of_mem _ hu))]
        rw [map_map_comp, map_map_comp]
        rfl
    rw [hrest ss (fun u hu => hok u (List.mem_cons_of_mem _ hu))]
    rw [map_map_comp, map_map_comp]
    cases tokenize l <;> simp

theorem tokenize_bool (b : Bool) (l : List Char) (hl : headNonIdent l) :
    tokenize (printBool b ++ l) = (ETok.tIdent (printBool b) :: ·) <$> tokenize l := by
  cases b with
  | true => exact tokenize_ident trueChars (by decide) (by decide) l hl
  | false => exact tokenize_ident falseChars (by decide) (by decide) l hl

theorem tokenize_pair (p : List Nat × List Char)
    (hok : (!p.1.isEmpty && litOkB p.1 && identOkB p.2) = true) (l : List Char) :
    tokenize (printPair p ++ l) =
      (fun ts => pairToks p ++ ts) <$> tokenize l := by
  obtain ⟨tag, rn⟩ := p
  simp only [Bool.and_eq_true] at hok
  have htag : ∀ c ∈ tag, validCp c = true := by
    have := hok.1.2
    rw [litOkB, List.all_eq_true] at this
    exact this
  rw [printPair, List.cons_append]
  rw [show (printLitStr tag ++ ',' :: ' ' :: rn ++ [')', ',', ' ']) ++ l =
    printLitStr tag ++ (',' :: ' ' :: (rn ++ (')' :: ',' :: ' ' :: l)))
    from by simp]
  rw [tokenize_open _ (by
    rcases tag with _ | ⟨c, cs⟩ <;> exact (by decide : ¬('"' = '=')))]
  rw [tokenize_litstr tag htag, tokenize_comma, tokenize_space]
  rw [tokenize_ident rn (by
      intro he
      rw [identOkB, he] at hok
      exact absurd hok.2 (by decide))
    (by
      have := hok.2
      rw [identOkB, Bool.and_eq_true] at this
      exact this.2)
    _ (by exact (by decide : isIdentChar ')' = false))]
  rw [tokenize_close, tokenize_comma, tokenize_space]
  rw [map_map_comp, map_map_comp, map_map_comp, map_map_comp]
  cases tokenize l <;> simp [pairToks]

theorem tokenize_pairs (ps : List (List Nat × List Char))
    (hok : ∀ p ∈ ps, (!p.1.isEmpty && litOkB p.1 && identOkB p.2) = true)
    (l : List Char) :
    tokenize ((ps.map printPair).join ++ l) =
      (fun ts => (ps.map pairToks).join ++ ts) <$> tokenize l := by
  induction ps with
  | nil =>
    rw [List.map_nil, List.map_nil]
    show tokenize l = _
    cases tokenize l <;> rfl
  | cons p ps ih =>
    rw [List.map_cons, List.map_cons]
    rw [show (printPair p :: (ps.map printPair)).join =
      printPair p ++ (ps.map printPair).join from rfl]
    rw [List.append_assoc, tokenize_pair p (hok p (List.mem_cons_self _ _)),
      ih (fun q hq => hok q (List.mem_cons_of_mem _ hq))]
    rw [map_map_comp]
    cases tokenize l <;> simp


theorem tokenize_params (se : Bool) (ss : List (List Nat)) (lad : Bool)
    (ex : List (List Nat)) (hss : ∀ s ∈ ss, litOkB s = true)
    (hex : ∀ s ∈ ex, litOkB s = true) (l : List Char) :
    tokenize ((stopEosChars ++ '=' :: (printBool se ++ [',', ' ']) ++
        stopStrChars ++ '=' :: (printStrTuple ss ++ [',', ' ']) ++
        loopAfterChars ++ '=' :: (printBool lad ++ [',', ' ']) ++
        excludesChars ++ '=' :: (printStrTuple ex ++ [')'])) ++ l) =
      (fun ts => paramToks se ss lad ex ++ ts) <$> tokenize l := by
  have hmassage : (stopEosChars ++ '=' :: (printBool se ++ [',', ' ']) ++
        stopStrChars ++ '=' :: (printStrTuple ss ++ [',', ' ']) ++
        loopAfterChars ++ '=' :: (printBool lad ++ [',', ' ']) ++
        excludesChars ++ '=' :: (printStrTuple ex ++ [')'])) ++ l =
      (stopEosChars ++ ('=' :: (printBool se ++ (',' :: ' ' :: (stopStrChars ++ ('=' :: (printStrTuple ss ++ (',' :: ' ' :: (loopAfterChars ++ ('=' :: (printBool lad ++ (',' :: ' ' :: (excludesChars ++ ('=' :: (printStrTuple ex ++ (')' :: l)))))))))))))))) := by
    simp
  rw [hmassage]
  rw [tokenize_ident stopEosChars (by decide) (by decide) _
    (by exact (by decide : isIdentChar '=' = false))]
  rw [tokenize_eq]
  rw [tokenize_bool se _ (by exact (by decide : isIdentChar ',' = false))]
  rw [tokenize_comma, tokenize_space]
  rw [tokenize_ident stopStrChars (by decide) (by decide) _
    (by exact (by decide : isIdentChar '=' = false))]
  rw [tokenize_eq, tokenize_strTuple ss hss, tokenize_comma, tokenize_space]
  rw [tokenize_ident loopAfterChars (by decide) (by decide) _
    (by exact (by decide : isIdentChar '=' = false))]
  rw [tokenize_eq]
  rw [tokenize_bool lad _ (by exact (by decide : isIdentChar ',' = false))]
  rw [tokenize_comma, tokenize_space]
  rw [tokenize_ident excludesChars (by decide) (by decide) _
    (by exact (by decide : isIdentChar '=' = false))]
  rw [tokenize_eq, tokenize_strTuple ex hex, tokenize_close]
  rw [map_map_comp, map_map_comp, map_map_comp, map_map_comp, map_map_comp,
    map_map_comp, map_map_comp, map_map_comp, map_map_comp, map_map_comp,
    map_map_comp, map_map_comp, map_map_comp, map_map_comp]
  cases tokenize l <;> simp [paramToks]

/-! ### Print head shape lemmas -/

theorem printAtomE_head_ne_eq (a : GAtom) (hok : atomOkB a = true)
    (X : List Char) : headIsNot '=' (printAtomE a ++ X) := by
  cases a with
  | lit cs =>
    rw [printAtomE, printLitStr, List.cons_append]
    exact (by decide : ¬('"' = '='))
  | cls neg items =>
    rw [printAtomE, printClass, List.cons_append]
    exact (by decide : ¬('[' = '='))
  | ref n =>
    rw [atomOkB, refOkB, Bool.and_eq_true] at hok
    have h1 := hok.1
    rw [identOkB, Bool.and_eq_true] at h1
    cases n with
    | nil => exact absurd h1.1 (by decide)
    | cons c cs =>
      rw [printAtomE, List.cons_append]
      intro he
      subst he
      have h2 := h1.2
      rw [List.all_cons, Bool.and_eq_true] at h2
      exact absurd h2.1 (by decide)
  | group b =>
    rw [printAtomE, List.cons_append]
    exact (by decide : ¬('(' = '='))
  | dispatch ps se ss lad ex =>
    have hT : ∀ Y : List Char, headIsNot '=' (tagDispatchChars ++ Y) := by
      intro Y
      rw [show tagDispatchChars ++ Y = 'T' :: (tagDispatchChars.tail ++ Y)
        from rfl]
      exact (by decide : ¬('T' = '='))
    rw [printAtomE, List.append_assoc]
    exact hT _

theorem printElemE_head_ne_eq (e : GElem) (hok : elemOkB e = true)
    (X : List Char) : headIsNot '=' (printElemE e ++ X) := by
  obtain ⟨a, q⟩ := e
  rw [printElemE, List.append_assoc]
  exact printAtomE_head_ne_eq a hok _

theorem printSeqnE_head_ne_eq (se : GSeqn) (hok : seqnOkB se = true)
    (X : List Char) : headIsNot '=' (printSeqnE se ++ X) := by
  cases se with
  | last e => rw [printSeqnE]; exact printElemE_head_ne_eq e hok X
  | cons e s =>
    rw [seqnOkB, Bool.and_eq_true] at hok
    rw [printSeqnE, List.append_assoc]
    exact printElemE_head_ne_eq e hok.1 _

theorem printAltsE_head_ne_eq (b : GAlts) (hok : altsOkB b = true)
    (X : List Char) : headIsNot '=' (printAltsE b ++ X) := by
  cases b with
  | last s => rw [printAltsE]; exact printSeqnE_head_ne_eq s hok X
  | cons s b2 =>
    rw [altsOkB, Bool.and_eq_true] at hok
    rw [printAltsE, List.append_assoc]
    exact printSeqnE_head_ne_eq s hok.1 _


theorem headNonIdent_quant (q : Option EQuant) (l : List Char)
    (hl : headNonIdent l) : headNonIdent (printQuantS q ++ l) := by
  match q with
  | none => rw [printQuantS, List.nil_append]; exact hl
  | some .star => exact (by decide : isIdentChar '*' = false)
  | some .plus => exact (by decide : isIdentChar '+' = false)
  | some .opt => exact (by decide : isIdentChar '?' = false)
  | some (.rep m none) =>
    rw [printQuantS, List.cons_append]
    exact (by decide : isIdentChar lbrace = false)
  | some (.rep m (some n)) =>
    rw [printQuantS]
    by_cases he : m = n
    · rw [if_pos he, List.cons_append]
      exact (by decide : isIdentChar lbrace = false)
    · rw [if_neg he, List.cons_append]
      exact (by decide : isIdentChar lbrace = false)

mutual

theorem tok_print_atom (a : GAtom) (hok : atomOkB a = true) (l : List Char)
    (hl : headNonIdent l) :
    tokenize (printAtomE a ++ l) =
      (fun ts => tokensOfAtom a ++ ts) <$> tokenize l := by
  cases a with
  | lit cs =>
    rw [printAtomE, tokensOfAtom,
      tokenize_litstr cs (by rw [atomOkB, litOkB, List.all_eq_true] at hok; exact hok)]
    rfl
  | cls neg items =>
    rw [printAtomE, tokensOfAtom,
      tokenize_class neg items
        (by rw [atomOkB, List.all_eq_true] at hok; exact hok)]
    rfl
  | ref n =>
    rw [atomOkB, refOkB, Bool.and_eq_true] at hok
    have h1 := hok.1
    rw [identOkB, Bool.and_eq_true] at h1
    rw [printAtomE, tokensOfAtom,
      tokenize_ident n (by intro he; rw [he] at h1; exact absurd h1.1 (by decide))
        h1.2 l hl]
    rfl
  | group b =>
    have hokb : altsOkB b = true := hok
    rw [printAtomE, tokensOfAtom, List.cons_append, List.append_assoc]
    rw [show ([')'] : List Char) ++ l = ')' :: l from rfl]
    rw [tokenize_open (printAltsE b ++ (')' :: l))
      (printAltsE_head_ne_eq b hokb (')' :: l))]
    rw [tok_print_alts b hokb (')' :: l)
      (by exact (by decide : isIdentChar ')' = false))]
    rw [tokenize_close, map_map_comp, map_map_comp]
    cases tokenize l <;> simp
  | dispatch ps se ss lad ex =>
    rw [atomOkB, Bool.and_eq_true, Bool.and_eq_true, Bool.and_eq_true] at hok
    obtain ⟨⟨⟨hps, hse⟩, hss⟩, hex⟩ := hok
    have hps' : ∀ p ∈ ps, (!p.1.isEmpty && litOkB p.1 && identOkB p.2) = true := by
      rw [List.all_eq_true] at hps
      exact hps
    have hss' : ∀ t ∈ ss, litOkB t = true := by
      rw [List.all_eq_true] at hss
      exact hss
    have hex' : ∀ t ∈ ex, litOkB t = true := by
      rw [List.all_eq_true] at hex
      exact hex
    rw [printAtomE, tokensOfAtom]
    have hform : (tagDispatchChars ++ '(' ::
        ((ps.map printPair).join ++
          stopEosChars ++ '=' :: (printBool se ++ [',', ' ']) ++
          stopStrChars ++ '=' :: (printStrTuple ss ++ [',', ' ']) ++
          loopAfterChars ++ '=' :: (printBool lad ++ [',', ' ']) ++
          excludesChars ++ '=' :: (printStrTuple ex ++ [')']))) ++ l =
        tagDispatchChars ++ ('(' ::
        ((ps.map printPair).join ++
          ((stopEosChars ++ '=' :: (printBool se ++ [',', ' ']) ++
          stopStrChars ++ '=' :: (printStrTuple ss ++ [',', ' ']) ++
          loopAfterChars ++ '=' :: (printBool lad ++ [',', ' ']) ++
          excludesChars ++ '=' :: (printStrTuple ex ++ [')'])) ++ l))) := by
      simp
    rw [hform]
    rw [tokenize_ident tagDispatchChars (by decide) (by decide) _
      (by exact (by decide : isIdentChar '(' = false))]
    have hbody : headIsNot '=' ((ps.map printPair).join ++
        ((stopEosChars ++ '=' :: (printBool se ++ [',', ' ']) ++
        stopStrChars ++ '=' :: (printStrTuple ss ++ [',', ' ']) ++
        loopAfterChars ++ '=' :: (printBool lad ++ [',', ' ']) ++
        excludesChars ++ '=' :: (printStrTuple ex ++ [')'])) ++ l)) := by
      cases ps with
      | nil =>
        rw [List.map_nil]
        rw [show (([] : List (List Char)).join :
          List Char) = [] from rfl, List.nil_append]
        rw [show (stopEosChars ++ '=' :: (printBool se ++ [',', ' ']) ++
          stopStrChars ++ '=' :: (printStrTuple ss ++ [',', ' ']) ++
          loopAfterChars ++ '=' :: (printBool lad ++ [',', ' ']) ++
          excludesChars ++ '=' :: (printStrTuple ex ++ [')'])) ++ l =
          's' :: ((stopEosChars.tail ++ '=' :: (printBool se ++ [',', ' ']) ++
          stopStrChars ++ '=' :: (printStrTuple ss ++ [',', ' ']) ++
          loopAfterChars ++ '=' :: (printBool lad ++ [',', ' ']) ++
          excludesChars ++ '=' :: (printStrTuple ex ++ [')'])) ++ l) from by
            rw [show stopEosChars = 's' :: stopEosChars.tail from rfl]
            simp]
        exact (by decide : ¬('s' = '='))
      | cons p qs =>
        rw [List.map_cons]
        rw [show ((printPair p :: (qs.map printPair)).join :
          List Char) = printPair p ++ (qs.map printPair).join from rfl]
        rw [printPair, List.cons_append, List.cons_append]
        exact (by decide : ¬('(' = '='))
    rw [tokenize_open _ hbody]
    rw [tokenize_pairs ps hps', tokenize_params se ss lad ex hss' hex']
    rw [map_map_comp, map_map_comp, map_map_comp]
    cases tokenize l <;> simp [paramToks]

theorem tok_print_elem (e : GElem) (hok : elemOkB e = true) (l : List Char)
    (hl : headNonIdent l) :
    tokenize (printElemE e ++ l) =
      (fun ts => tokensOfElem e ++ ts) <$> tokenize l := by
  obtain ⟨a, q⟩ := e
  rw [printElemE, tokensOfElem, List.append_assoc,
    tok_print_atom a hok _ (headNonIdent_quant q l hl), tokenize_quant,
    map_map_comp]
  cases tokenize l <;> simp

theorem tok_print_seqn (sq : GSeqn) (hok : seqnOkB sq = true) (l : List Char)
    (hl : headNonIdent l) :
    tokenize (printSeqnE sq ++ l) =
      (fun ts => tokensOfSeqn sq ++ ts) <$> tokenize l := by
  cases sq with
  | last e =>
    rw [printSeqnE, tokensOfSeqn]
    exact tok_print_elem e hok l hl
  | cons e s =>
    rw [seqnOkB, Bool.and_eq_true] at hok
    rw [printSeqnE, tokensOfSeqn, List.append_assoc, List.cons_append]
    rw [tok_print_elem e hok.1 _ (by exact (by decide : isIdentChar ' ' = false))]
    rw [tokenize_space, tok_print_seqn s hok.2 l hl, map_map_comp]
    cases tokenize l <;> simp

theorem tok_print_alts (b : GAlts) (hok : altsOkB b = true) (l : List Char)
    (hl : headNonIdent l) :
    tokenize (printAltsE b ++ l) =
      (fun ts => tokensOfAlts b ++ ts) <$> tokenize l := by
  cases b with
  | last s =>
    rw [printAltsE, tokensOfAlts]
    exact tok_print_seqn s hok l hl
  | cons s b2 =>
    rw [altsOkB, Bool.and_eq_true] at hok
    rw [printAltsE, tokensOfAlts, List.append_assoc, List.cons_append,
      List.cons_append, List.cons_append]
    rw [tok_print_seqn s hok.1 _ (by exact (by decide : isIdentChar ' ' = false))]
    rw [tokenize_space, tokenize_bar, tokenize_space]
    rw [tok_print_alts b2 hok.2 l hl, map_map_comp, map_map_comp]
    cases tokenize l <;> simp

end


theorem tok_print_rule (r : ERule) (hok : ruleOkB r = true) (l : List Char) :
    tokenize (printRuleE r ++ l) =
      (fun ts => (tokensOfRule r ++ [ETok.tNL]) ++ ts) <$> tokenize l := by
  obtain ⟨nm, alts, look⟩ := r
  rw [ruleOkB, Bool.and_eq_true, Bool.and_eq_true] at hok
  obtain ⟨⟨hnm, halts⟩, hlook⟩ := hok
  rw [identOkB, Bool.and_eq_true] at hnm
  have hnm2 : (!nm.isEmpty) = true ∧ nm.all isIdentChar = true := hnm
  cases look with
  | none =>
    rw [printRuleE, tokensOfRule]
    have hform : (nm ++ ' ' :: ':' :: ':' :: '=' :: ' ' :: printAltsE alts ++
        [] ++ ['\n']) ++ l =
        nm ++ (' ' :: ':' :: ':' :: '=' :: ' ' ::
          (printAltsE alts ++ ('\n' :: l))) := by
      simp
    rw [hform]
    have hne : ¬nm = [] := by
      intro he
      rw [he] at hnm2
      exact absurd hnm2.1 (by decide)
    rw [tokenize_ident nm hne hnm2.2 _
      (by exact (by decide : isIdentChar ' ' = false))]
    rw [tokenize_space, tokenize_defsym, tokenize_space]
    rw [tok_print_alts alts halts _ (by exact (by decide : isIdentChar '\n' = false))]
    rw [tokenize_nl, map_map_comp, map_map_comp, map_map_comp]
    cases tokenize l <;> simp
  | some sq =>
    have hsq : seqnOkB sq = true := hlook
    rw [printRuleE, tokensOfRule]
    have hform : (nm ++ ' ' :: ':' :: ':' :: '=' :: ' ' :: printAltsE alts ++
        (' ' :: '(' :: '=' :: printSeqnE sq ++ [')']) ++ ['\n']) ++ l =
        nm ++ (' ' :: ':' :: ':' :: '=' :: ' ' ::
          (printAltsE alts ++ (' ' :: '(' :: '=' ::
            (printSeqnE sq ++ (')' :: '\n' :: l))))) := by
      simp
    rw [hform]
    have hne : ¬nm = [] := by
      intro he
      rw [he] at hnm2
      exact absurd hnm2.1 (by decide)
    rw [tokenize_ident nm hne hnm2.2 _
      (by exact (by decide : isIdentChar ' ' = false))]
    rw [tokenize_space, tokenize_defsym, tokenize_space]
    rw [tok_print_alts alts halts _ (by exact (by decide : isIdentChar ' ' = false))]
    rw [tokenize_space, tokenize_look]
    rw [tok_print_seqn sq hsq _ (by exact (by decide : isIdentChar ')' = false))]
    rw [tokenize_close, tokenize_nl]
    rw [map_map_comp, map_map_comp, map_map_comp, map_map_comp, map_map_comp]
    cases tokenize l <;> simp

theorem tok_print_grammar_append (g : EGrammar) (hok : g.all ruleOkB = true)
    (l : List Char) :
    tokenize (printEbnf g ++ l) =
      (fun ts => tokensOfGrammar g ++ ts) <$> tokenize l := by
  induction g with
  | nil =>
    rw [printEbnf, tokensOfGrammar, List.map_nil, List.map_nil]
    show tokenize l = _
    cases tokenize l <;> rfl
  | cons r rs ih =>
    rw [List.all_cons, Bool.and_eq_true] at hok
    rw [printEbnf, tokensOfGrammar, List.map_cons, List.map_cons]
    rw [show ((printRuleE r :: (rs.map printRuleE)).join : List Char) =
      printRuleE r ++ (rs.map printRuleE).join from rfl]
    rw [show (((tokensOfRule r ++ [ETok.tNL]) ::
        (rs.map (fun u => tokensOfRule u ++ [ETok.tNL]))).join : List ETok) =
      (tokensOfRule r ++ [ETok.tNL]) ++
        (rs.map (fun u => tokensOfRule u ++ [ETok.tNL])).join from rfl]
    rw [List.append_assoc, tok_print_rule r hok.1]
    have ih2 := ih hok.2
    rw [printEbnf] at ih2
    rw [ih2, map_map_comp]
    cases tokenize l <;> simp [tokensOfGrammar]

theorem tok_print_ebnf (g : EGrammar) (hok : g.all ruleOkB = true) :
    tokenize (printEbnf g) = some (tokensOfGrammar g) := by
  have h := tok_print_grammar_append g hok []
  rw [List.append_nil] at h
  rw [h, tokenize_nil]
  simp


/-! ### Token parser: building block lemmas -/

theorem parseStrMoreT_toks (ss : List (List Nat))
    (hok : ∀ t ∈ ss, litOkB t = true) (rest : List ETok) :
    parseStrMoreT ((ss.map (fun t => [ETok.tComma, ETok.tLit t])).join ++
      ETok.tClose :: rest) = some (ss, rest) := by
  induction ss with
  | nil =>
    rw [List.map_nil]
    rw [show (([] : List (List ETok)).join : List ETok) = [] from rfl,
      List.nil_append, parseStrMoreT]
  | cons t ts ih =>
    rw [List.map_cons]
    rw [show (([ETok.tComma, ETok.tLit t] ::
        (ts.map (fun u => [ETok.tComma, ETok.tLit u]))).join : List ETok) =
      ETok.tComma :: ETok.tLit t ::
        (ts.map (fun u => [ETok.tComma, ETok.tLit u])).join from rfl]
    rw [List.cons_append, List.cons_append, parseStrMoreT,
      if_pos (hok t (List.mem_cons_self _ _)),
      ih (fun u hu => hok u (List.mem_cons_of_mem _ hu))]

theorem parseStrTupleT_toks (ss : List (List Nat))
    (hok : ∀ t ∈ ss, litOkB t = true) (rest : List ETok) :
    parseStrTupleT (strTupleToks ss ++ rest) = some (ss, rest) := by
  cases ss with
  | nil =>
    rw [strTupleToks]
    rw [show ([ETok.tOpen, ETok.tClose] : List ETok) ++ rest =
      ETok.tOpen :: ETok.tClose :: rest from rfl]
    rw [parseStrTupleT]
  | cons t ts =>
    rw [strTupleToks, List.cons_append, List.cons_append, List.append_assoc]
    rw [show ([ETok.tClose] : List ETok) ++ rest = ETok.tClose :: rest from rfl]
    rw [parseStrTupleT, if_pos (hok t (List.mem_cons_self _ _)),
      parseStrMoreT_toks ts (fun u hu => hok u (List.mem_cons_of_mem _ hu))]

theorem identBool_printBool (b : Bool) : identBool (printBool b) = some b := by
  cases b <;> rfl

theorem paramToks_eq (se : Bool) (ss : List (List Nat)) (lad : Bool)
    (ex : List (List Nat)) :
    paramToks se ss lad ex =
      paramsToks [.pse se, .pss ss, .plad lad, .pex ex] := by
  simp [paramToks, paramsToks, sepParamsToks, pvalToks]

theorem tokensOfAtom_cons (a : GAtom) :
    ∃ t ts, tokensOfAtom a = t :: ts ∧ isAtomTok t = true ∧
      isQuantTok t = false ∧ ¬t = ETok.tBar ∧ ¬t = ETok.tClose ∧
      ¬t = ETok.tLook ∧ ¬t = ETok.tNL := by
  cases a with
  | lit cs => exact ⟨_, _, rfl, rfl, rfl, by simp, by simp, by simp, by simp⟩
  | cls neg items =>
    exact ⟨_, _, rfl, rfl, rfl, by simp, by simp, by simp, by simp⟩
  | ref n => exact ⟨_, _, rfl, rfl, rfl, by simp, by simp, by simp, by simp⟩
  | group b => exact ⟨_, _, rfl, rfl, rfl, by simp, by simp, by simp, by simp⟩
  | dispatch ps se ss lad ex =>
    exact ⟨_, _, rfl, rfl, rfl, by simp, by simp, by simp, by simp⟩

theorem tokensOfSeqn_head (s : GSeqn) (X : List ETok) :
    atomStart (tokensOfSeqn s ++ X) = true ∧
      quantStart (tokensOfSeqn s ++ X) = false := by
  have he : ∀ e : GElem, ∃ t ts, tokensOfElem e = t :: ts ∧
      isAtomTok t = true ∧ isQuantTok t = false := by
    intro e
    obtain ⟨a, q⟩ := e
    obtain ⟨t, ts, ht, h1, h2, -⟩ := tokensOfAtom_cons a
    exact ⟨t, ts ++ tokensOfQuant q, by rw [tokensOfElem, ht, List.cons_append],
      h1, h2⟩
  cases s with
  | last e =>
    obtain ⟨t, ts, ht, h1, h2⟩ := he e
    rw [tokensOfSeqn, ht, List.cons_append]
    exact ⟨h1, h2⟩
  | cons e s2 =>
    obtain ⟨t, ts, ht, h1, h2⟩ := he e
    rw [tokensOfSeqn, ht, List.cons_append, List.cons_append]
    exact ⟨h1, h2⟩


/-! ### Token parser: step lemmas -/

theorem parseAtomT_lit (f : Nat) (cs : List Nat) (rest : List ETok)
    (h : litOkB cs = true) :
    parseAtomT (f + 1) (ETok.tLit cs :: rest) = some (.lit cs, rest) := by
  rw [parseAtomT]
  show (if litOkB cs = true then some (GAtom.lit cs, rest) else none) = _
  rw [if_pos h]

theorem parseAtomT_cls (f : Nat) (neg : Bool) (items : List (Nat × Nat))
    (rest : List ETok) (h : items.all itemOkB = true) :
    parseAtomT (f + 1) (ETok.tClass neg items :: rest) =
      some (.cls neg items, rest) := by
  rw [parseAtomT]
  show (if items.all itemOkB = true then some (GAtom.cls neg items, rest)
    else none) = _
  rw [if_pos h]

theorem parseAtomT_ref (f : Nat) (n : List Char) (rest : List ETok)
    (h : refOkB n = true) :
    parseAtomT (f + 1) (ETok.tIdent n :: rest) = some (.ref n, rest) := by
  rw [refOkB, Bool.and_eq_true] at h
  have hne : ¬n = tagDispatchChars := by
    have h2 := h.2
    intro he
    rw [he] at h2
    exact absurd h2 (by decide)
  rcases rest with _ | ⟨t, r2⟩
  · rw [parseAtomT]
    · rw [if_neg hne, if_pos h.1]
    · intro r2 hc
      simp at hc
  · cases t <;> (rw [parseAtomT]; rw [if_neg hne, if_pos h.1]) <;>
      (intro r2m hc; simp at hc)

theorem parseAtomT_group (f : Nat) (ts : List ETok) (b : GAlts) (r2 : List ETok)
    (h : parseAltsT f ts = some (b, ETok.tClose :: r2)) :
    parseAtomT (f + 1) (ETok.tOpen :: ts) = some (.group b, r2) := by
  rw [parseAtomT]
  show (match parseAltsT f ts with
    | some (b, ETok.tClose :: r2) => some (GAtom.group b, r2)
    | _ => none) = _
  rw [h]

theorem parseAtomT_disp (f : Nat) (ts : List ETok) :
    parseAtomT (f + 1) (ETok.tIdent tagDispatchChars :: ETok.tOpen :: ts) =
      parseDispItemsT f [] ts := by
  rw [parseAtomT]
  show (if tagDispatchChars = tagDispatchChars then parseDispItemsT f [] ts
    else if identOkB tagDispatchChars = true then
      some (GAtom.ref tagDispatchChars, ETok.tOpen :: ts) else none) = _
  rw [if_pos rfl]

theorem parseElemT_quant (f : Nat) (ts : List ETok) (a : GAtom) (q : EQuant)
    (r2 : List ETok)
    (h : parseAtomT f ts = some (a, tokensOfQuant (some q) ++ r2)) :
    parseElemT (f + 1) ts = some (GElem.elem a (some q), r2) := by
  cases q with
  | star => rw [parseElemT]; simp only [h]; rfl
  | plus => rw [parseElemT]; simp only [h]; rfl
  | opt => rw [parseElemT]; simp only [h]; rfl
  | rep m n => rw [parseElemT]; simp only [h]; rfl

theorem parseElemT_noquant (f : Nat) (ts : List ETok) (a : GAtom)
    (r : List ETok) (h : parseAtomT f ts = some (a, r))
    (hq : quantStart r = false) :
    parseElemT (f + 1) ts = some (GElem.elem a none, r) := by
  rw [parseElemT]
  simp only [h]
  rcases r with _ | ⟨t, r2⟩
  · rfl
  · cases t <;>
      first
        | rfl
        | (exfalso; rw [quantStart] at hq; simp [isQuantTok] at hq)

theorem parseSeqnT_last (f : Nat) (ts : List ETok) (e : GElem) (r : List ETok)
    (h : parseElemT f ts = some (e, r)) (hr : atomStart r = false) :
    parseSeqnT (f + 1) ts = some (GSeqn.last e, r) := by
  rw [parseSeqnT]
  simp only [h]
  rw [if_neg (by rw [hr]; exact Bool.false_ne_true)]

theorem parseSeqnT_cons (f : Nat) (ts : List ETok) (e : GElem)
    (r r2 : List ETok) (sq : GSeqn) (h : parseElemT f ts = some (e, r))
    (hr : atomStart r = true) (h2 : parseSeqnT f r = some (sq, r2)) :
    parseSeqnT (f + 1) ts = some (GSeqn.cons e sq, r2) := by
  rw [parseSeqnT]
  simp only [h]
  rw [if_pos hr]
  simp only [h2]

theorem parseAltsT_last (f : Nat) (ts : List ETok) (s : GSeqn) (r : List ETok)
    (h : parseSeqnT f ts = some (s, r)) (hr : notBarStart r = true) :
    parseAltsT (f + 1) ts = some (GAlts.last s, r) := by
  rw [parseAltsT]
  simp only [h]
  rcases r with _ | ⟨t, r2⟩
  · rfl
  · cases t <;>
      first
        | rfl
        | (exfalso; rw [notBarStart] at hr; exact absurd hr (by decide))

theorem parseAltsT_cons (f : Nat) (ts : List ETok) (s : GSeqn)
    (r2 r3 : List ETok) (b : GAlts) (h : parseSeqnT f ts = some (s, ETok.tBar :: r2))
    (h2 : parseAltsT f r2 = some (b, r3)) :
    parseAltsT (f + 1) ts = some (GAlts.cons s b, r3) := by
  rw [parseAltsT]
  simp only [h]
  simp only [h2]

theorem parseDispParamsT_close (f : Nat) (ps : List (List Nat × List Char))
    (se : Bool) (ss : List (List Nat)) (lad : Bool) (ex : List (List Nat))
    (rest : List ETok) (h : (!se && ss.isEmpty) = false) :
    parseDispParamsT (f + 1) ps se ss lad ex (ETok.tClose :: rest) =
      some (.dispatch ps se ss lad ex, rest) := by
  rw [parseDispParamsT]
  show (if (!se && ss.isEmpty) = true then none
    else some (GAtom.dispatch ps se ss lad ex, rest)) = _
  rw [if_neg (by rw [h]; exact Bool.false_ne_true)]

theorem parseDispParamsT_se (f : Nat) (ps : List (List Nat × List Char))
    (se : Bool) (ss : List (List Nat)) (lad : Bool) (ex : List (List Nat))
    (b : Bool) (rest : List ETok) :
    parseDispParamsT (f + 1) ps se ss lad ex
      (ETok.tIdent stopEosChars :: ETok.tEq :: ETok.tIdent (printBool b) :: rest) =
      parseDispSepT f ps b ss lad ex rest := by
  rw [parseDispParamsT]
  show (if stopEosChars = stopEosChars then
      match identBool (printBool b) with
      | some v => parseDispSepT f ps v ss lad ex rest
      | none => none
    else _) = _
  rw [if_pos rfl, identBool_printBool]

theorem parseDispParamsT_ss (f : Nat) (ps : List (List Nat × List Char))
    (se : Bool) (ss : List (List Nat)) (lad : Bool) (ex : List (List Nat))
    (v : List (List Nat)) (hok : ∀ t ∈ v, litOkB t = true) (rest : List ETok) :
    parseDispParamsT (f + 1) ps se ss lad ex
      (ETok.tIdent stopStrChars :: ETok.tEq :: (strTupleToks v ++ rest)) =
      parseDispSepT f ps se v lad ex rest := by
  obtain ⟨X, hX⟩ : ∃ X, strTupleToks v ++ rest = ETok.tOpen :: X := by
    cases v with
    | nil => exact ⟨_, rfl⟩
    | cons t ts => exact ⟨_, rfl⟩
  rw [hX, parseDispParamsT]
  · rw [if_neg (by decide), if_pos rfl, ← hX, parseStrTupleT_toks v hok]
  · intro b r2m hc
    simp at hc

theorem parseDispParamsT_lad (f : Nat) (ps : List (List Nat × List Char))
    (se : Bool) (ss : List (List Nat)) (lad : Bool) (ex : List (List Nat))
    (b : Bool) (rest : List ETok) :
    parseDispParamsT (f + 1) ps se ss lad ex
      (ETok.tIdent loopAfterChars :: ETok.tEq :: ETok.tIdent (printBool b) :: rest) =
      parseDispSepT f ps se ss b ex rest := by
  rw [parseDispParamsT]
  show (if loopAfterChars = stopEosChars then _
    else if loopAfterChars = stopStrChars then _
    else if loopAfterChars = loopAfterChars then
      match identBool (printBool b) with
      | some v => parseDispSepT f ps se ss v ex rest
      | none => none
    else _) = _
  rw [if_neg (by decide), if_neg (by decide), if_pos rfl, identBool_printBool]

theorem parseDispParamsT_ex (f : Nat) (ps : List (List Nat × List Char))
    (se : Bool) (ss : List (List Nat)) (lad : Bool) (ex : List (List Nat))
    (v : List (List Nat)) (hok : ∀ t ∈ v, litOkB t = true) (rest : List ETok) :
    parseDispParamsT (f + 1) ps se ss lad ex
      (ETok.tIdent excludesChars :: ETok.tEq :: (strTupleToks v ++ rest)) =
      parseDispSepT f ps se ss lad v rest := by
  obtain ⟨X, hX⟩ : ∃ X, strTupleToks v ++ rest = ETok.tOpen :: X := by
    cases v with
    | nil => exact ⟨_, rfl⟩
    | cons t ts => exact ⟨_, rfl⟩
  rw [hX, parseDispParamsT]
  · rw [if_neg (by decide), if_neg (by decide), if_neg (by decide), if_pos rfl,
      ← hX, parseStrTupleT_toks v hok]
  · intro b r2m hc
    simp at hc

theorem parseDispSepT_comma (f : Nat) (ps : List (List Nat × List Char))
    (se : Bool) (ss : List (List Nat)) (lad : Bool) (ex : List (List Nat))
    (rest : List ETok) :
    parseDispSepT (f + 1) ps se ss lad ex (ETok.tComma :: rest) =
      parseDispParamsT f ps se ss lad ex rest := by
  rw [parseDispSepT]

theorem parseDispSepT_close (f : Nat) (ps : List (List Nat × List Char))
    (se : Bool) (ss : List (List Nat)) (lad : Bool) (ex : List (List Nat))
    (rest : List ETok) :
    parseDispSepT (f + 1) ps se ss lad ex (ETok.tClose :: rest) =
      parseDispParamsT f ps se ss lad ex (ETok.tClose :: rest) := by
  rw [parseDispSepT]

theorem parseDispItemsT_pair_more (f : Nat) (acc : List (List Nat × List Char))
    (tag : List Nat) (rn : List Char) (r3 : List ETok)
    (h : (!tag.isEmpty && litOkB tag && identOkB rn) = true) :
    parseDispItemsT (f + 1) acc (ETok.tOpen :: ETok.tLit tag :: ETok.tComma ::
        ETok.tIdent rn :: ETok.tClose :: ETok.tComma :: ETok.tOpen :: r3) =
      parseDispItemsT f ((tag, rn) :: acc) (ETok.tOpen :: r3) := by
  simp only [Bool.and_eq_true] at h
  have h1 : tag.isEmpty = false := by
    have := h.1.1
    cases he : tag.isEmpty
    · rfl
    · rw [he] at this; exact absurd this (by decide)
  rw [parseDispItemsT]
  rw [if_neg (by rw [h1, h.1.2, h.2]; decide)]

theorem parseDispItemsT_pair_params (f : Nat) (acc : List (List Nat × List Char))
    (tag : List Nat) (rn : List Char) (n : List Char) (r2 : List ETok)
    (h : (!tag.isEmpty && litOkB tag && identOkB rn) = true) :
    parseDispItemsT (f + 1) acc (ETok.tOpen :: ETok.tLit tag :: ETok.tComma ::
        ETok.tIdent rn :: ETok.tClose :: ETok.tComma :: ETok.tIdent n :: r2) =
      parseDispParamsT f (((tag, rn) :: acc).reverse) true [] true []
        (ETok.tIdent n :: r2) := by
  simp only [Bool.and_eq_true] at h
  have h1 : tag.isEmpty = false := by
    have := h.1.1
    cases he : tag.isEmpty
    · rfl
    · rw [he] at this; exact absurd this (by decide)
  rw [parseDispItemsT]
  · rw [if_neg (by rw [h1, h.1.2, h.2]; decide)]
  · intro r3 hc
    simp at hc

theorem parseDispItemsT_pair_close (f : Nat) (acc : List (List Nat × List Char))
    (tag : List Nat) (rn : List Char) (r2 : List ETok)
    (h : (!tag.isEmpty && litOkB tag && identOkB rn) = true) :
    parseDispItemsT (f + 1) acc (ETok.tOpen :: ETok.tLit tag :: ETok.tComma ::
        ETok.tIdent rn :: ETok.tClose :: ETok.tClose :: r2) =
      parseDispParamsT f (((tag, rn) :: acc).reverse) true [] true []
        (ETok.tClose :: r2) := by
  simp only [Bool.and_eq_true] at h
  have h1 : tag.isEmpty = false := by
    have := h.1.1
    cases he : tag.isEmpty
    · rfl
    · rw [he] at this; exact absurd this (by decide)
  rw [parseDispItemsT]
  rw [if_neg (by rw [h1, h.1.2, h.2]; decide)]

theorem parseDispItemsT_params (f : Nat) (acc : List (List Nat × List Char))
    (n : List Char) (r : List ETok) :
    parseDispItemsT (f + 1) acc (ETok.tIdent n :: r) =
      parseDispParamsT f acc.reverse true [] true [] (ETok.tIdent n :: r) := by
  rw [parseDispItemsT]
  intro tag rn r3 hc
  simp at hc

theorem parseDispItemsT_close (f : Nat) (acc : List (List Nat × List Char))
    (r : List ETok) :
    parseDispItemsT (f + 1) acc (ETok.tClose :: r) =
      parseDispParamsT f acc.reverse true [] true [] (ETok.tClose :: r) := by
  rw [parseDispItemsT]
  intro tag rn r3 hc
  simp at hc



/-! ### Auxiliary step and size lemmas for the roundtrip induction -/

theorem parseDispItemsT_pair_cclose (f : Nat) (acc : List (List Nat × List Char))
    (tag : List Nat) (rn : List Char) (r2 : List ETok)
    (h : (!tag.isEmpty && litOkB tag && identOkB rn) = true) :
    parseDispItemsT (f + 1) acc (ETok.tOpen :: ETok.tLit tag :: ETok.tComma ::
        ETok.tIdent rn :: ETok.tClose :: ETok.tComma :: ETok.tClose :: r2) =
      parseDispParamsT f (((tag, rn) :: acc).reverse) true [] true []
        (ETok.tClose :: r2) := by
  simp only [Bool.and_eq_true] at h
  have h1 : tag.isEmpty = false := by
    have := h.1.1
    cases he : tag.isEmpty
    · rfl
    · rw [he] at this; exact absurd this (by decide)
  rw [parseDispItemsT]
  all_goals try (intro r3 hc; simp at hc)
  rw [if_neg (by rw [h1, h.1.2, h.2]; decide)]

theorem pvalToks_shape (v : PVal) :
    ∃ k tl, pvalToks v = ETok.tIdent k :: ETok.tEq :: tl := by
  cases v with
  | pse b => exact ⟨_, _, rfl⟩
  | pss ss => exact ⟨_, _, rfl⟩
  | plad b => exact ⟨_, _, rfl⟩
  | pex ss => exact ⟨_, _, rfl⟩

theorem parseDispParamsT_pval (f : Nat) (ps : List (List Nat × List Char))
    (se : Bool) (ss : List (List Nat)) (lad : Bool) (ex : List (List Nat))
    (v : PVal) (hok : pvalOk v = true) (rest : List ETok) :
    parseDispParamsT (f + 1) ps se ss lad ex (pvalToks v ++ rest) =
      parseDispSepT f ps (applyPVal (se, ss, lad, ex) v).1
        (applyPVal (se, ss, lad, ex) v).2.1
        (applyPVal (se, ss, lad, ex) v).2.2.1
        (applyPVal (se, ss, lad, ex) v).2.2.2 rest := by
  cases v with
  | pse b => exact parseDispParamsT_se f ps se ss lad ex b rest
  | pss w =>
    have hw : ∀ t ∈ w, litOkB t = true := by
      rw [pvalOk, List.all_eq_true] at hok
      exact hok
    exact parseDispParamsT_ss f ps se ss lad ex w hw rest
  | plad b => exact parseDispParamsT_lad f ps se ss lad ex b rest
  | pex w =>
    have hw : ∀ t ∈ w, litOkB t = true := by
      rw [pvalOk, List.all_eq_true] at hok
      exact hok
    exact parseDispParamsT_ex f ps se ss lad ex w hw rest

theorem close_of_okClose {a b : Bool} (h : (a || !b) = true) :
    (!a && b) = false := by
  cases a <;> cases b <;> simp_all

theorem sizeAtom_pos (a : GAtom) : 1 ≤ sizeAtom a := by
  cases a <;> simp [sizeAtom] <;> omega

theorem sizeElem_pos (e : GElem) : 1 ≤ sizeElem e := by
  obtain ⟨a, q⟩ := e
  simp [sizeElem]

theorem sizeSeqn_pos (s : GSeqn) : 1 ≤ sizeSeqn s := by
  cases s <;> simp [sizeSeqn]

theorem sizeAlts_pos (b : GAlts) : 1 ≤ sizeAlts b := by
  cases b <;> simp [sizeAlts]

theorem tokensOfElem_len (e : GElem) : 1 ≤ (tokensOfElem e).length := by
  obtain ⟨a, q⟩ := e
  obtain ⟨t, ts, ht, -⟩ := tokensOfAtom_cons a
  rw [tokensOfElem, ht]
  simp

theorem tokensOfSeqn_len (s : GSeqn) : 1 ≤ (tokensOfSeqn s).length := by
  cases s with
  | last e => rw [tokensOfSeqn]; exact tokensOfElem_len e
  | cons e s2 =>
    have := tokensOfElem_len e
    rw [tokensOfSeqn]
    simp only [List.length_append]
    omega

theorem strTupleToks_len (ss : List (List Nat)) :
    2 ≤ (strTupleToks ss).length := by
  cases ss with
  | nil => rw [strTupleToks]; simp
  | cons t ts =>
    rw [strTupleToks]
    simp only [List.length_cons, List.length_append]
    omega

theorem pairToks_join_len (ps : List (List Nat × List Char)) :
    ((ps.map pairToks).join).length = 6 * ps.length := by
  induction ps with
  | nil => rfl
  | cons p ps ih =>
    rw [List.map_cons,
      show ((pairToks p :: ps.map pairToks).join : List ETok) =
        pairToks p ++ (ps.map pairToks).join from rfl]
    simp only [List.length_append, ih, List.length_cons]
    rw [show (pairToks p).length = 6 from by obtain ⟨a, b⟩ := p; rfl]
    omega

mutual

theorem sizeAtom_le (a : GAtom) : sizeAtom a + 1 ≤ 2 * (tokensOfAtom a).length := by
  cases a with
  | lit cs => simp [sizeAtom, tokensOfAtom]
  | cls neg items => simp [sizeAtom, tokensOfAtom]
  | ref n => simp [sizeAtom, tokensOfAtom]
  | group b =>
    have := sizeAlts_le b
    simp only [sizeAtom, tokensOfAtom, List.length_cons, List.length_append]
    simp at this ⊢
    omega
  | dispatch ps se ss lad ex =>
    have h1 := strTupleToks_len ss
    have h2 := strTupleToks_len ex
    have h3 := pairToks_join_len ps
    simp only [sizeAtom, tokensOfAtom, paramToks, List.length_cons,
      List.length_append, h3]
    simp
    omega

theorem sizeElem_le (e : GElem) : sizeElem e ≤ 2 * (tokensOfElem e).length := by
  obtain ⟨a, q⟩ := e
  have := sizeAtom_le a
  simp only [sizeElem, tokensOfElem, List.length_append]
  omega

theorem sizeSeqn_le (s : GSeqn) : sizeSeqn s ≤ 2 * (tokensOfSeqn s).length + 1 := by
  cases s with
  | last e =>
    have := sizeElem_le e
    simp only [sizeSeqn, tokensOfSeqn]
    omega
  | cons e s2 =>
    have h1 := sizeElem_le e
    have h2 := sizeSeqn_le s2
    have h3 := tokensOfElem_len e
    simp only [sizeSeqn, tokensOfSeqn, List.length_append]
    have hm : max (sizeElem e) (sizeSeqn s2) ≤
        2 * ((tokensOfElem e).length + (tokensOfSeqn s2).length) :=
      Nat.max_le.mpr ⟨by omega, by omega⟩
    omega

theorem sizeAlts_le (b : GAlts) : sizeAlts b ≤ 2 * (tokensOfAlts b).length + 2 := by
  cases b with
  | last s =>
    have := sizeSeqn_le s
    simp only [sizeAlts, tokensOfAlts]
    omega
  | cons s b2 =>
    have h1 := sizeSeqn_le s
    have h2 := sizeAlts_le b2
    have h3 := tokensOfSeqn_len s
    simp only [sizeAlts, tokensOfAlts, List.length_append, List.length_cons]
    have hm : max (sizeSeqn s) (sizeAlts b2) ≤
        2 * ((tokensOfSeqn s).length + ((tokensOfAlts b2).length + 1)) + 1 :=
      Nat.max_le.mpr ⟨by omega, by omega⟩
    omega

end

theorem tNL_notin_strTuple (ss : List (List Nat)) :
    ETok.tNL ∉ strTupleToks ss := by
  cases ss <;> simp [strTupleToks, List.mem_join]

theorem tNL_notin_paramToks (se : Bool) (ss : List (List Nat)) (lad : Bool)
    (ex : List (List Nat)) : ETok.tNL ∉ paramToks se ss lad ex := by
  have h1 := tNL_notin_strTuple ss
  have h2 := tNL_notin_strTuple ex
  simp [paramToks, List.mem_append, h1, h2]

theorem tNL_notin_pairs (ps : List (List Nat × List Char)) :
    ETok.tNL ∉ (ps.map pairToks).join := by
  simp only [List.mem_join, List.mem_map, pairToks, not_exists]
  intro x hx
  obtain ⟨⟨p, hmem, hab⟩, hm⟩ := hx
  rw [← hab] at hm
  simp at hm

theorem tNL_notin_quant (q : Option EQuant) : ETok.tNL ∉ tokensOfQuant q := by
  cases q with
  | none => simp [tokensOfQuant]
  | some qq => cases qq <;> simp [tokensOfQuant]

mutual

theorem tNL_notin_atom (a : GAtom) : ETok.tNL ∉ tokensOfAtom a := by
  cases a with
  | lit cs => simp [tokensOfAtom]
  | cls neg items => simp [tokensOfAtom]
  | ref n => simp [tokensOfAtom]
  | group b =>
    have := tNL_notin_alts b
    simp [tokensOfAtom, List.mem_append, this]
  | dispatch ps se ss lad ex =>
    have h1 := tNL_notin_pairs ps
    have h2 := tNL_notin_paramToks se ss lad ex
    simp [tokensOfAtom, List.mem_append, h1, h2]

theorem tNL_notin_elem (e : GElem) : ETok.tNL ∉ tokensOfElem e := by
  obtain ⟨a, q⟩ := e
  have h1 := tNL_notin_atom a
  have h2 := tNL_notin_quant q
  simp [tokensOfElem, List.mem_append, h1, h2]

theorem tNL_notin_seqn (s : GSeqn) : ETok.tNL ∉ tokensOfSeqn s := by
  cases s with
  | last e => rw [tokensOfSeqn]; exact tNL_notin_elem e
  | cons e s2 =>
    have h1 := tNL_notin_elem e
    have h2 := tNL_notin_seqn s2
    simp [tokensOfSeqn, List.mem_append, h1, h2]

theorem tNL_notin_alts (b : GAlts) : ETok.tNL ∉ tokensOfAlts b := by
  cases b with
  | last s => rw [tokensOfAlts]; exact tNL_notin_seqn s
  | cons s b2 =>
    have h1 := tNL_notin_seqn s
    have h2 := tNL_notin_alts b2
    simp [tokensOfAlts, List.mem_append, h1, h2]

end

theorem tNL_notin_rule (r : ERule) : ETok.tNL ∉ tokensOfRule r := by
  have h1 := tNL_notin_alts r.alts
  have h2 : ETok.tNL ∉ (match r.look with
      | none => ([] : List ETok)
      | some s => ETok.tLook :: (tokensOfSeqn s ++ [ETok.tClose])) := by
    cases hl : r.look with
    | none => simp
    | some s =>
      have := tNL_notin_seqn s
      simp [List.mem_append, this]
  simp [tokensOfRule, List.mem_append, h1, h2]

/-! ### The token-parser roundtrip, by strong induction on fuel -/

theorem parse_toks_round (f : Nat) :
    (∀ (ps : List (List Nat × List Char)) (se : Bool) (ss : List (List Nat))
        (lad : Bool) (ex : List (List Nat)) (vs : List PVal) (rest : List ETok),
      (∀ v ∈ vs, pvalOk v = true) →
      okClose (List.foldl applyPVal (se, ss, lad, ex) vs) = true →
      2 * vs.length + 1 ≤ f →
      parseDispParamsT f ps se ss lad ex (paramsToks vs ++ rest) =
        some (GAtom.dispatch ps (List.foldl applyPVal (se, ss, lad, ex) vs).1
          (List.foldl applyPVal (se, ss, lad, ex) vs).2.1
          (List.foldl applyPVal (se, ss, lad, ex) vs).2.2.1
          (List.foldl applyPVal (se, ss, lad, ex) vs).2.2.2, rest)) ∧
    (∀ (ps : List (List Nat × List Char)) (se : Bool) (ss : List (List Nat))
        (lad : Bool) (ex : List (List Nat)) (vs : List PVal) (rest : List ETok),
      (∀ v ∈ vs, pvalOk v = true) →
      okClose (List.foldl applyPVal (se, ss, lad, ex) vs) = true →
      2 * vs.length + 2 ≤ f →
      parseDispSepT f ps se ss lad ex (sepParamsToks vs ++ rest) =
        some (GAtom.dispatch ps (List.foldl applyPVal (se, ss, lad, ex) vs).1
          (List.foldl applyPVal (se, ss, lad, ex) vs).2.1
          (List.foldl applyPVal (se, ss, lad, ex) vs).2.2.1
          (List.foldl applyPVal (se, ss, lad, ex) vs).2.2.2, rest)) ∧
    (∀ (acc ps2 : List (List Nat × List Char)) (vs : List PVal) (rest : List ETok),
      (∀ p ∈ ps2, pairOkB p = true) → (∀ v ∈ vs, pvalOk v = true) →
      okClose (List.foldl applyPVal (true, [], true, []) vs) = true →
      ps2.length + 2 * vs.length + 2 ≤ f →
      parseDispItemsT f acc ((ps2.map pairToks).join ++ (paramsToks vs ++ rest)) =
        some (GAtom.dispatch (acc.reverse ++ ps2)
          (List.foldl applyPVal (true, [], true, []) vs).1
          (List.foldl applyPVal (true, [], true, []) vs).2.1
          (List.foldl applyPVal (true, [], true, []) vs).2.2.1
          (List.foldl applyPVal (true, [], true, []) vs).2.2.2, rest)) ∧
    (∀ (a : GAtom) (rest : List ETok), atomOkB a = true → sizeAtom a ≤ f →
      parseAtomT f (tokensOfAtom a ++ rest) = some (a, rest)) ∧
    (∀ (e : GElem) (rest : List ETok), elemOkB e = true → sizeElem e ≤ f →
      quantStart rest = false →
      parseElemT f (tokensOfElem e ++ rest) = some (e, rest)) ∧
    (∀ (s : GSeqn) (rest : List ETok), seqnOkB s = true → sizeSeqn s ≤ f →
      atomStart rest = false → quantStart rest = false →
      parseSeqnT f (tokensOfSeqn s ++ rest) = some (s, rest)) ∧
    (∀ (b : GAlts) (rest : List ETok), altsOkB b = true → sizeAlts b ≤ f →
      atomStart rest = false → quantStart rest = false → notBarStart rest = true →
      parseAltsT f (tokensOfAlts b ++ rest) = some (b, rest)) := by
  induction f using Nat.strong_induction_on with
  | _ f IH =>
  cases f with
  | zero =>
    refine ⟨?_, ?_, ?_, ?_, ?_, ?_, ?_⟩
    · intro ps se ss lad ex vs rest _ _ hf
      omega
    · intro ps se ss lad ex vs rest _ _ hf
      omega
    · intro acc ps2 vs rest _ _ _ hf
      omega
    · intro a rest _ hf
      have := sizeAtom_pos a
      omega
    · intro e rest _ hf _
      have := sizeElem_pos e
      omega
    · intro s rest _ hf _ _
      have := sizeSeqn_pos s
      omega
    · intro b rest _ hf _ _ _
      have := sizeAlts_pos b
      omega
  | succ f =>
    obtain ⟨ihPar, ihSep, ihItems, ihAtom, ihElem, ihSeqn, ihAlts⟩ :=
      IH f (Nat.lt_succ_self f)
    refine ⟨?_, ?_, ?_, ?_, ?_, ?_, ?_⟩
    · -- parseDispParamsT on a printed parameter list
      intro ps se ss lad ex vs rest hvs hcl hf
      cases vs with
      | nil =>
        rw [show paramsToks ([] : List PVal) ++ rest = ETok.tClose :: rest from rfl]
        have hcl2 : (se || !ss.isEmpty) = true := hcl
        exact parseDispParamsT_close f ps se ss lad ex rest (close_of_okClose hcl2)
      | cons v vs =>
        rw [show paramsToks (v :: vs) = pvalToks v ++ sepParamsToks vs from rfl,
          List.append_assoc]
        rw [parseDispParamsT_pval f ps se ss lad ex v
          (hvs v (List.mem_cons_self _ _)) (sepParamsToks vs ++ rest)]
        exact ihSep ps _ _ _ _ vs rest
          (fun u hu => hvs u (List.mem_cons_of_mem _ hu)) hcl
          (by simp only [List.length_cons] at hf; omega)
    · -- parseDispSepT on a printed separator-led parameter list
      intro ps se ss lad ex vs rest hvs hcl hf
      cases vs with
      | nil =>
        rw [show sepParamsToks ([] : List PVal) ++ rest = ETok.tClose :: rest from rfl]
        rw [parseDispSepT_close]
        exact ihPar ps se ss lad ex [] rest (by intro v hv; cases hv) hcl
          (by simp only [List.length_nil] at hf ⊢; omega)
      | cons v vs =>
        rw [show sepParamsToks (v :: vs) ++ rest =
          ETok.tComma :: (paramsToks (v :: vs) ++ rest) from rfl]
        rw [parseDispSepT_comma]
        exact ihPar ps se ss lad ex (v :: vs) rest hvs hcl
          (by simp only [List.length_cons] at hf ⊢; omega)
    · -- parseDispItemsT on printed pairs followed by the parameter block
      intro acc ps2 vs rest hps hvs hcl hf
      cases ps2 with
      | nil =>
        rw [show ((List.map pairToks []).join : List ETok) ++ (paramsToks vs ++ rest) =
          paramsToks vs ++ rest from rfl]
        cases vs with
        | nil =>
          rw [show paramsToks ([] : List PVal) ++ rest = ETok.tClose :: rest from rfl]
          rw [parseDispItemsT_close]
          have := ihPar acc.reverse true [] true [] [] rest
            (by intro v hv; cases hv) hcl
            (by simp only [List.length_nil] at hf ⊢; omega)
          rw [show (acc.reverse : List (List Nat × List Char)) ++ [] = acc.reverse
            from List.append_nil _]
          exact this
        | cons v vs =>
          obtain ⟨k, tl, hk⟩ := pvalToks_shape v
          rw [show paramsToks (v :: vs) ++ rest =
            ETok.tIdent k :: (ETok.tEq :: (tl ++ (sepParamsToks vs ++ rest))) from by
              rw [show paramsToks (v :: vs) = pvalToks v ++ sepParamsToks vs from rfl,
                hk, List.append_assoc, List.cons_append, List.cons_append]]
          rw [parseDispItemsT_params]
          have := ihPar acc.reverse true [] true [] (v :: vs) rest hvs hcl
            (by simp only [List.length_nil, List.length_cons] at hf ⊢; omega)
          rw [show paramsToks (v :: vs) ++ rest =
            ETok.tIdent k :: (ETok.tEq :: (tl ++ (sepParamsToks vs ++ rest))) from by
              rw [show paramsToks (v :: vs) = pvalToks v ++ sepParamsToks vs from rfl,
                hk, List.append_assoc, List.cons_append, List.cons_append]] at this
          rw [show (acc.reverse : List (List Nat × List Char)) ++ [] = acc.reverse
            from List.append_nil _]
          exact this
      | cons p ps2 =>
        obtain ⟨tag, rn⟩ := p
        have hpok : (!tag.isEmpty && litOkB tag && identOkB rn) = true :=
          hps (tag, rn) (List.mem_cons_self _ _)
        cases ps2 with
        | cons p2 ps3 =>
          obtain ⟨tag2, rn2⟩ := p2
          rw [show ((List.map pairToks ((tag, rn) :: (tag2, rn2) :: ps3)).join : List ETok)
              ++ (paramsToks vs ++ rest) =
            ETok.tOpen :: ETok.tLit tag :: ETok.tComma :: ETok.tIdent rn ::
              ETok.tClose :: ETok.tComma :: ETok.tOpen ::
              (ETok.tLit tag2 :: ETok.tComma :: ETok.tIdent rn2 :: ETok.tClose ::
                ETok.tComma :: ((List.map pairToks ps3).join ++ (paramsToks vs ++ rest)))
            from rfl]
          rw [parseDispItemsT_pair_more f acc tag rn _ hpok]
          have := ihItems ((tag, rn) :: acc) ((tag2, rn2) :: ps3) vs rest
            (fun u hu => hps u (List.mem_cons_of_mem _ hu)) hvs hcl
            (by simp only [List.length_cons] at hf ⊢; omega)
          rw [show ((List.map pairToks ((tag2, rn2) :: ps3)).join : List ETok)
              ++ (paramsToks vs ++ rest) =
            ETok.tOpen :: (ETok.tLit tag2 :: ETok.tComma :: ETok.tIdent rn2 ::
              ETok.tClose :: ETok.tComma ::
              ((List.map pairToks ps3).join ++ (paramsToks vs ++ rest))) from rfl] at this
          rw [show (((tag, rn) :: acc).reverse : List (List Nat × List Char)) =
            acc.reverse ++ [(tag, rn)] from List.reverse_cons _ _] at this
          rw [List.append_assoc] at this
          rw [show ([(tag, rn)] : List (List Nat × List Char)) ++ (tag2, rn2) :: ps3 =
            (tag, rn) :: (tag2, rn2) :: ps3 from rfl] at this
          exact this
        | nil =>
          cases vs with
          | cons v vs2 =>
            obtain ⟨k, tl, hk⟩ := pvalToks_shape v
            rw [show ((List.map pairToks [(tag, rn)]).join : List ETok) ++
                (paramsToks (v :: vs2) ++ rest) =
              ETok.tOpen :: ETok.tLit tag :: ETok.tComma :: ETok.tIdent rn ::
                ETok.tClose :: ETok.tComma :: ETok.tIdent k ::
                (ETok.tEq :: (tl ++ (sepParamsToks vs2 ++ rest))) from by
                rw [show ((List.map pairToks [(tag, rn)]).join : List ETok) ++
                    (paramsToks (v :: vs2) ++ rest) =
                  ETok.tOpen :: ETok.tLit tag :: ETok.tComma :: ETok.tIdent rn ::
                    ETok.tClose :: ETok.tComma :: (paramsToks (v :: vs2) ++ rest)
                  from rfl,
                  show paramsToks (v :: vs2) = pvalToks v ++ sepParamsToks vs2 from rfl,
                  hk, List.append_assoc, List.cons_append, List.cons_append]]
            rw [parseDispItemsT_pair_params f acc tag rn k _ hpok]
            have := ihPar (((tag, rn) :: acc).reverse) true [] true [] (v :: vs2) rest
              hvs hcl (by simp only [List.length_cons, List.length_nil] at hf ⊢; omega)
            rw [show paramsToks (v :: vs2) ++ rest =
              ETok.tIdent k :: (ETok.tEq :: (tl ++ (sepParamsToks vs2 ++ rest))) from by
                rw [show paramsToks (v :: vs2) = pvalToks v ++ sepParamsToks vs2 from rfl,
                  hk, List.append_assoc, List.cons_append, List.cons_append]] at this
            rw [show (((tag, rn) :: acc).reverse : List (List Nat × List Char)) =
              acc.reverse ++ [(tag, rn)] from List.reverse_cons _ _] at this ⊢
            exact this
          | nil =>
            rw [show ((List.map pairToks [(tag, rn)]).join : List ETok) ++
                (paramsToks ([] : List PVal) ++ rest) =
              ETok.tOpen :: ETok.tLit tag :: ETok.tComma :: ETok.tIdent rn ::
                ETok.tClose :: ETok.tComma :: ETok.tClose :: rest from rfl]
            rw [parseDispItemsT_pair_cclose f acc tag rn rest hpok]
            have := ihPar (((tag, rn) :: acc).reverse) true [] true [] [] rest
              (by intro v hv; cases hv) hcl
              (by simp only [List.length_cons, List.length_nil] at hf ⊢; omega)
            rw [show (((tag, rn) :: acc).reverse : List (List Nat × List Char)) =
              acc.reverse ++ [(tag, rn)] from List.reverse_cons _ _] at this ⊢
            exact this
    · -- parseAtomT on a printed atom
      intro a rest hok hf
      cases a with
      | lit cs => exact parseAtomT_lit f cs rest hok
      | cls neg items => exact parseAtomT_cls f neg items rest hok
      | ref n => exact parseAtomT_ref f n rest hok
      | group b =>
        rw [show tokensOfAtom (GAtom.group b) ++ rest =
          ETok.tOpen :: (tokensOfAlts b ++ (ETok.tClose :: rest)) from by
            rw [show tokensOfAtom (GAtom.group b) =
              ETok.tOpen :: (tokensOfAlts b ++ [ETok.tClose]) from rfl,
              List.cons_append, List.append_assoc]
            rfl]
        have h2 : sizeAlts b + 1 ≤ f + 1 := hf
        exact parseAtomT_group f _ b rest
          (ihAlts b (ETok.tClose :: rest) hok (by omega) rfl rfl rfl)
      | dispatch ps se ss lad ex =>
        simp only [atomOkB, Bool.and_eq_true] at hok
        obtain ⟨⟨⟨hps, hse⟩, hss⟩, hex⟩ := hok
        rw [show tokensOfAtom (GAtom.dispatch ps se ss lad ex) ++ rest =
          ETok.tIdent tagDispatchChars :: ETok.tOpen ::
            ((ps.map pairToks).join ++
              (paramsToks [PVal.pse se, PVal.pss ss, PVal.plad lad, PVal.pex ex] ++
                rest)) from by
            rw [show tokensOfAtom (GAtom.dispatch ps se ss lad ex) =
              ETok.tIdent tagDispatchChars :: ETok.tOpen ::
                ((ps.map pairToks).join ++ paramToks se ss lad ex) from rfl,
              paramToks_eq, List.cons_append, List.cons_append, List.append_assoc]]
        rw [parseAtomT_disp]
        have hargs1 : ∀ p ∈ ps, pairOkB p = true := by
          rw [List.all_eq_true] at hps
          exact fun p hp => hps p hp
        have hargs2 : ∀ v ∈ ([PVal.pse se, PVal.pss ss, PVal.plad lad,
            PVal.pex ex] : List PVal), pvalOk v = true := by
          intro v hv
          simp only [List.mem_cons] at hv
          rcases hv with rfl | rfl | rfl | rfl | h
          · rfl
          · exact hss
          · rfl
          · exact hex
          · cases h
        have hargs3 : okClose (List.foldl applyPVal (true, [], true, [])
            [PVal.pse se, PVal.pss ss, PVal.plad lad, PVal.pex ex]) = true := by
          show (se || !ss.isEmpty) = true
          exact hse
        have hargs4 : ps.length + 2 * ([PVal.pse se, PVal.pss ss, PVal.plad lad,
            PVal.pex ex] : List PVal).length + 2 ≤ f := by
          have h2 : ps.length + 12 ≤ f + 1 := hf
          simp only [List.length_cons, List.length_nil]
          omega
        exact ihItems [] ps _ rest hargs1 hargs2 hargs3 hargs4
    · -- parseElemT on a printed element
      intro e rest hok hf hq
      obtain ⟨a, q⟩ := e
      have hsa : sizeAtom a + 1 ≤ f + 1 := hf
      cases q with
      | none =>
        rw [show tokensOfElem (GElem.elem a none) ++ rest =
          tokensOfAtom a ++ rest from by
            rw [show tokensOfElem (GElem.elem a none) =
              tokensOfAtom a ++ tokensOfQuant none from rfl,
              show tokensOfQuant none = ([] : List ETok) from rfl, List.append_nil]]
        exact parseElemT_noquant f _ a rest (ihAtom a rest hok (by omega)) hq
      | some qq =>
        rw [show tokensOfElem (GElem.elem a (some qq)) ++ rest =
          tokensOfAtom a ++ (tokensOfQuant (some qq) ++ rest) from by
            rw [show tokensOfElem (GElem.elem a (some qq)) =
              tokensOfAtom a ++ tokensOfQuant (some qq) from rfl, List.append_assoc]]
        exact parseElemT_quant f _ a qq rest
          (ihAtom a (tokensOfQuant (some qq) ++ rest) hok (by omega))
    · -- parseSeqnT on a printed sequence
      intro s rest hok hf hra hrq
      cases s with
      | last e =>
        have h2 : sizeElem e + 1 ≤ f + 1 := hf
        rw [show tokensOfSeqn (GSeqn.last e) ++ rest = tokensOfElem e ++ rest from rfl]
        exact parseSeqnT_last f _ e rest (ihElem e rest hok (by omega) hrq) hra
      | cons e s2 =>
        rw [seqnOkB, Bool.and_eq_true] at hok
        have h2 : max (sizeElem e) (sizeSeqn s2) + 1 ≤ f + 1 := hf
        have hme : sizeElem e ≤ f := by
          have := Nat.le_max_left (sizeElem e) (sizeSeqn s2)
          omega
        have hms : sizeSeqn s2 ≤ f := by
          have := Nat.le_max_right (sizeElem e) (sizeSeqn s2)
          omega
        rw [show tokensOfSeqn (GSeqn.cons e s2) ++ rest =
          tokensOfElem e ++ (tokensOfSeqn s2 ++ rest) from by
            rw [show tokensOfSeqn (GSeqn.cons e s2) =
              tokensOfElem e ++ tokensOfSeqn s2 from rfl, List.append_assoc]]
        obtain ⟨hstart, hqs⟩ := tokensOfSeqn_head s2 rest
        exact parseSeqnT_cons f _ e (tokensOfSeqn s2 ++ rest) rest s2
          (ihElem e (tokensOfSeqn s2 ++ rest) hok.1 hme hqs) hstart
          (ihSeqn s2 rest hok.2 hms hra hrq)
    · -- parseAltsT on a printed alternation
      intro b rest hok hf hra hrq hrb
      cases b with
      | last s =>
        have h2 : sizeSeqn s + 1 ≤ f + 1 := hf
        rw [show tokensOfAlts (GAlts.last s) ++ rest = tokensOfSeqn s ++ rest from rfl]
        exact parseAltsT_last f _ s rest (ihSeqn s rest hok (by omega) hra hrq) hrb
      | cons s b2 =>
        rw [altsOkB, Bool.and_eq_true] at hok
        have h2 : max (sizeSeqn s) (sizeAlts b2) + 1 ≤ f + 1 := hf
        have hm1 : sizeSeqn s ≤ f := by
          have := Nat.le_max_left (sizeSeqn s) (sizeAlts b2)
          omega
        have hm2 : sizeAlts b2 ≤ f := by
          have := Nat.le_max_right (sizeSeqn s) (sizeAlts b2)
          omega
        rw [show tokensOfAlts (GAlts.cons s b2) ++ rest =
          tokensOfSeqn s ++ (ETok.tBar :: (tokensOfAlts b2 ++ rest)) from by
            rw [show tokensOfAlts (GAlts.cons s b2) =
              tokensOfSeqn s ++ ETok.tBar :: tokensOfAlts b2 from rfl,
              List.append_assoc, List.cons_append]]
        exact parseAltsT_cons f _ s (tokensOfAlts b2 ++ rest) rest b2
          (ihSeqn s (ETok.tBar :: (tokensOfAlts b2 ++ rest)) hok.1 hm1 rfl rfl)
          (ihAlts b2 rest hok.2 hm2 hra hrq hrb)

/-! ### Rule- and grammar-level roundtrip -/

theorem parseRuleToks_toks (r : ERule) (hok : ruleOkB r = true) :
    parseRuleToks (2 * (tokensOfRule r).length + 6) (tokensOfRule r) = some r := by
  obtain ⟨nm, alts, look⟩ := r
  simp only [ruleOkB, Bool.and_eq_true] at hok
  obtain ⟨⟨hnm, halts⟩, hlook⟩ := hok
  cases look with
  | none =>
    rw [show tokensOfRule ⟨nm, alts, none⟩ =
      ETok.tIdent nm :: ETok.tDef :: tokensOfAlts alts from by
        rw [show tokensOfRule ⟨nm, alts, none⟩ =
          ETok.tIdent nm :: ETok.tDef :: (tokensOfAlts alts ++ []) from rfl,
          List.append_nil]]
    have hsz : sizeAlts alts ≤
        2 * (ETok.tIdent nm :: ETok.tDef :: tokensOfAlts alts).length + 6 := by
      have := sizeAlts_le alts
      simp only [List.length_cons]
      omega
    have halt := (parse_toks_round
        (2 * (ETok.tIdent nm :: ETok.tDef :: tokensOfAlts alts).length + 6)).2.2.2.2.2.2
      alts [] halts hsz rfl rfl rfl
    rw [List.append_nil] at halt
    rw [parseRuleToks, if_pos hnm]
    simp only [halt]
  | some lk =>
    have hlk : seqnOkB lk = true := hlook
    rw [show tokensOfRule ⟨nm, alts, some lk⟩ =
      ETok.tIdent nm :: ETok.tDef :: (tokensOfAlts alts ++
        (ETok.tLook :: (tokensOfSeqn lk ++ [ETok.tClose]))) from rfl]
    have hsz1 : sizeAlts alts ≤
        2 * (ETok.tIdent nm :: ETok.tDef :: (tokensOfAlts alts ++
          (ETok.tLook :: (tokensOfSeqn lk ++ [ETok.tClose])))).length + 6 := by
      have := sizeAlts_le alts
      simp only [List.length_cons, List.length_append]
      omega
    have hsz2 : sizeSeqn lk ≤
        2 * (ETok.tIdent nm :: ETok.tDef :: (tokensOfAlts alts ++
          (ETok.tLook :: (tokensOfSeqn lk ++ [ETok.tClose])))).length + 6 := by
      have := sizeSeqn_le lk
      simp only [List.length_cons, List.length_append]
      omega
    have halt := (parse_toks_round
        (2 * (ETok.tIdent nm :: ETok.tDef :: (tokensOfAlts alts ++
          (ETok.tLook :: (tokensOfSeqn lk ++ [ETok.tClose])))).length + 6)).2.2.2.2.2.2
      alts (ETok.tLook :: (tokensOfSeqn lk ++ [ETok.tClose])) halts hsz1 rfl rfl rfl
    have hseq := (parse_toks_round
        (2 * (ETok.tIdent nm :: ETok.tDef :: (tokensOfAlts alts ++
          (ETok.tLook :: (tokensOfSeqn lk ++ [ETok.tClose])))).length + 6)).2.2.2.2.2.1
      lk [ETok.tClose] hlk hsz2 rfl rfl
    rw [parseRuleToks, if_pos hnm]
    simp only [halt, hseq]

theorem parseGrammarToks_toks (g : EGrammar) (hok : g.all ruleOkB = true)
    (hval : validG g = true) :
    parseGrammarToks (tokensOfGrammar g) = some g := by
  have hsplit : splitSep ETok.tNL (tokensOfGrammar g) =
      (g.map tokensOfRule) ++ [[]] := by
    rw [show tokensOfGrammar g =
      ((g.map tokensOfRule).map (fun l => l ++ [ETok.tNL])).join from by
        rw [tokensOfGrammar, List.map_map]
        rfl]
    exact splitSep_join_trailing ETok.tNL (g.map tokensOfRule) (by
      intro xs hxs
      obtain ⟨r, hr, hrr⟩ := List.mem_map.mp hxs
      rw [← hrr]
      exact tNL_notin_rule r)
  rw [parseGrammarToks, hsplit]
  rw [show ((g.map tokensOfRule ++ [[]] : List (List ETok))).reverse =
    [] :: (g.map tokensOfRule).reverse from by simp]
  show (match mapOptionList (fun line => parseRuleToks (2 * line.length + 6) line)
      (g.map tokensOfRule).reverse.reverse with
    | some g2 => if validG g2 then some g2 else none
    | none => none) = some g
  rw [List.reverse_reverse]
  rw [mapOptionList_map_some (fun line => parseRuleToks (2 * line.length + 6) line)
    tokensOfRule g (by
      intro r hr
      rw [List.all_eq_true] at hok
      exact parseRuleToks_toks r (hok r hr))]
  show (if validG g = true then some g else none) = some g
  rw [if_pos hval]

theorem parseEbnf_print (g : EGrammar) (hok : grammarOk g = true) :
    parseEbnf (printEbnf g) = some g := by
  rw [grammarOk, Bool.and_eq_true] at hok
  rw [parseEbnf, tok_print_ebnf g hok.1]
  exact parseGrammarToks_toks g hok.1 hok.2

/-! ### Soundness: every parse result is well-formed -/

theorem parseStrMoreT_ok (n : Nat) : ∀ ts : List ETok, ts.length ≤ n →
    ∀ (ss : List (List Nat)) (r : List ETok),
    parseStrMoreT ts = some (ss, r) → ss.all litOkB = true := by
  induction n with
  | zero =>
    intro ts hlen ss r h
    cases ts with
    | nil => simp [parseStrMoreT] at h
    | cons t ts2 => simp at hlen
  | succ n ih =>
    intro ts hlen ss r h
    rcases ts with _ | ⟨t, ts2⟩
    · simp [parseStrMoreT] at h
    cases t with
    | tClose =>
      rw [parseStrMoreT] at h
      simp only [Option.some.injEq, Prod.mk.injEq] at h
      obtain ⟨rfl, rfl⟩ := h
      rfl
    | tComma =>
      rcases ts2 with _ | ⟨t2, ts3⟩
      · simp [parseStrMoreT] at h
      cases t2 with
      | tLit cs =>
        rw [parseStrMoreT] at h
        by_cases hs : litOkB cs = true
        · rw [if_pos hs] at h
          cases heq : parseStrMoreT ts3 with
          | none => rw [heq] at h; simp at h
          | some p =>
            obtain ⟨ss2, r2⟩ := p
            rw [heq] at h
            simp only [Option.some.injEq, Prod.mk.injEq] at h
            obtain ⟨rfl, rfl⟩ := h
            have := ih ts3 (by simp at hlen; omega) ss2 r2 heq
            simp [List.all_cons, hs, this]
        · rw [if_neg hs] at h
          simp at h
      | _ => simp [parseStrMoreT] at h
    | _ => simp [parseStrMoreT] at h

theorem parseStrTupleT_ok (ts : List ETok) (ss : List (List Nat)) (r : List ETok)
    (h : parseStrTupleT ts = some (ss, r)) : ss.all litOkB = true := by
  rcases ts with _ | ⟨t, ts2⟩
  · simp [parseStrTupleT] at h
  cases t with
  | tOpen =>
    rcases ts2 with _ | ⟨t2, ts3⟩
    · simp [parseStrTupleT] at h
    cases t2 with
    | tClose =>
      rw [parseStrTupleT] at h
      simp only [Option.some.injEq, Prod.mk.injEq] at h
      obtain ⟨rfl, rfl⟩ := h
      rfl
    | tLit cs =>
      rw [parseStrTupleT] at h
      by_cases hs : litOkB cs = true
      · rw [if_pos hs] at h
        cases heq : parseStrMoreT ts3 with
        | none => rw [heq] at h; simp at h
        | some p =>
          obtain ⟨ss2, r2⟩ := p
          rw [heq] at h
          simp only [Option.some.injEq, Prod.mk.injEq] at h
          obtain ⟨rfl, rfl⟩ := h
          have := parseStrMoreT_ok ts3.length ts3 (Nat.le_refl _) ss2 r2 heq
          simp [List.all_cons, hs, this]
      · rw [if_neg hs] at h
        simp at h
    | _ => simp [parseStrTupleT] at h
  | _ => simp [parseStrTupleT] at h

theorem parseAtomT_succ (f : Nat) (ts : List ETok) :
    parseAtomT (f + 1) ts = (match ts with
      | ETok.tLit cs :: r => if litOkB cs then some (GAtom.lit cs, r) else none
      | ETok.tClass neg items :: r =>
        if items.all itemOkB then some (GAtom.cls neg items, r) else none
      | ETok.tIdent s :: r =>
        if s = tagDispatchChars then
          match r with
          | ETok.tOpen :: r2 => parseDispItemsT f [] r2
          | _ => none
        else if identOkB s then some (GAtom.ref s, r) else none
      | ETok.tOpen :: r =>
        match parseAltsT f r with
        | some (b, ETok.tClose :: r2) => some (GAtom.group b, r2)
        | _ => none
      | _ => none) := rfl

theorem parseDispItemsT_succ (f : Nat) (acc : List (List Nat × List Char))
    (ts : List ETok) :
    parseDispItemsT (f + 1) acc ts = (match ts with
      | ETok.tOpen :: ETok.tLit tag :: ETok.tComma :: ETok.tIdent rn ::
          ETok.tClose :: r =>
        if tag.isEmpty || !litOkB tag || !identOkB rn then none
        else
          match r with
          | ETok.tComma :: (ETok.tOpen :: r3) =>
            parseDispItemsT f ((tag, rn) :: acc) (ETok.tOpen :: r3)
          | ETok.tComma :: r2 =>
            parseDispParamsT f (((tag, rn) :: acc).reverse) true [] true [] r2
          | ETok.tClose :: r2 =>
            parseDispParamsT f (((tag, rn) :: acc).reverse) true [] true []
              (ETok.tClose :: r2)
          | _ => none
      | _ => parseDispParamsT f acc.reverse true [] true [] ts) := rfl

theorem parseDispParamsT_succ (f : Nat) (ps : List (List Nat × List Char))
    (se : Bool) (ss : List (List Nat)) (lad : Bool) (ex : List (List Nat))
    (ts : List ETok) :
    parseDispParamsT (f + 1) ps se ss lad ex ts = (match ts with
      | ETok.tClose :: r =>
        if !se && ss.isEmpty then none
        else some (GAtom.dispatch ps se ss lad ex, r)
      | ETok.tIdent n :: ETok.tEq :: r =>
        if n = stopEosChars then
          match r with
          | ETok.tIdent b :: r2 =>
            match identBool b with
            | some v => parseDispSepT f ps v ss lad ex r2
            | none => none
          | _ => none
        else if n = stopStrChars then
          match parseStrTupleT r with
          | some (v, r2) => parseDispSepT f ps se v lad ex r2
          | none => none
        else if n = loopAfterChars then
          match r with
          | ETok.tIdent b :: r2 =>
            match identBool b with
            | some v => parseDispSepT f ps se ss v ex r2
            | none => none
          | _ => none
        else if n = excludesChars then
          match parseStrTupleT r with
          | some (v, r2) => parseDispSepT f ps se ss lad v r2
          | none => none
        else none
      | _ => none) := rfl

theorem parseDispSepT_succ (f : Nat) (ps : List (List Nat × List Char))
    (se : Bool) (ss : List (List Nat)) (lad : Bool) (ex : List (List Nat))
    (ts : List ETok) :
    parseDispSepT (f + 1) ps se ss lad ex ts = (match ts with
      | ETok.tComma :: r => parseDispParamsT f ps se ss lad ex r
      | ETok.tClose :: r => parseDispParamsT f ps se ss lad ex (ETok.tClose :: r)
      | _ => none) := rfl

theorem parseElemT_succ (f : Nat) (ts : List ETok) :
    parseElemT (f + 1) ts = (match parseAtomT f ts with
      | some (a, r) =>
        match r with
        | ETok.tStar :: r2 => some (GElem.elem a (some EQuant.star), r2)
        | ETok.tPlus :: r2 => some (GElem.elem a (some EQuant.plus), r2)
        | ETok.tQuest :: r2 => some (GElem.elem a (some EQuant.opt), r2)
        | ETok.tRep m n :: r2 => some (GElem.elem a (some (EQuant.rep m n)), r2)
        | _ => some (GElem.elem a none, r)
      | none => none) := rfl

theorem parseSeqnT_succ (f : Nat) (ts : List ETok) :
    parseSeqnT (f + 1) ts = (match parseElemT f ts with
      | some (e, r) =>
        if atomStart r then
          match parseSeqnT f r with
          | some (s, r2) => some (GSeqn.cons e s, r2)
          | none => none
        else some (GSeqn.last e, r)
      | none => none) := rfl

theorem parseAltsT_succ (f : Nat) (ts : List ETok) :
    parseAltsT (f + 1) ts = (match parseSeqnT f ts with
      | some (s, r) =>
        match r with
        | ETok.tBar :: r2 =>
          match parseAltsT f r2 with
          | some (b, r3) => some (GAlts.cons s b, r3)
          | none => none
        | _ => some (GAlts.last s, r)
      | none => none) := rfl

theorem okClose_of_params {a b : Bool} (h : ¬((!a && b) = true)) :
    (a || !b) = true := by
  cases a <;> cases b <;> simp_all

theorem parse_sound (f : Nat) :
    (∀ (ps : List (List Nat × List Char)) (se : Bool) (ss : List (List Nat))
        (lad : Bool) (ex : List (List Nat)) (ts : List ETok) (a : GAtom)
        (r : List ETok),
      (∀ p ∈ ps, pairOkB p = true) → ss.all litOkB = true → ex.all litOkB = true →
      parseDispParamsT f ps se ss lad ex ts = some (a, r) → atomOkB a = true) ∧
    (∀ (ps : List (List Nat × List Char)) (se : Bool) (ss : List (List Nat))
        (lad : Bool) (ex : List (List Nat)) (ts : List ETok) (a : GAtom)
        (r : List ETok),
      (∀ p ∈ ps, pairOkB p = true) → ss.all litOkB = true → ex.all litOkB = true →
      parseDispSepT f ps se ss lad ex ts = some (a, r) → atomOkB a = true) ∧
    (∀ (acc : List (List Nat × List Char)) (ts : List ETok) (a : GAtom)
        (r : List ETok),
      (∀ p ∈ acc, pairOkB p = true) →
      parseDispItemsT f acc ts = some (a, r) → atomOkB a = true) ∧
    (∀ (ts : List ETok) (a : GAtom) (r : List ETok),
      parseAtomT f ts = some (a, r) → atomOkB a = true) ∧
    (∀ (ts : List ETok) (e : GElem) (r : List ETok),
      parseElemT f ts = some (e, r) → elemOkB e = true) ∧
    (∀ (ts : List ETok) (s : GSeqn) (r : List ETok),
      parseSeqnT f ts = some (s, r) → seqnOkB s = true) ∧
    (∀ (ts : List ETok) (b : GAlts) (r : List ETok),
      parseAltsT f ts = some (b, r) → altsOkB b = true) := by
  induction f with
  | zero =>
    refine ⟨?_, ?_, ?_, ?_, ?_, ?_, ?_⟩
    · intro ps se ss lad ex ts a r _ _ _ h
      rw [parseDispParamsT] at h
      exact Option.noConfusion h
    · intro ps se ss lad ex ts a r _ _ _ h
      rw [parseDispSepT] at h
      exact Option.noConfusion h
    · intro acc ts a r _ h
      rw [parseDispItemsT] at h
      exact Option.noConfusion h
    · intro ts a r h
      rw [parseAtomT] at h
      exact Option.noConfusion h
    · intro ts e r h
      rw [parseElemT] at h
      exact Option.noConfusion h
    · intro ts s r h
      rw [parseSeqnT] at h
      exact Option.noConfusion h
    · intro ts b r h
      rw [parseAltsT] at h
      exact Option.noConfusion h
  | succ f IH =>
    obtain ⟨ihPar, ihSep, ihItems, ihAtom, ihElem, ihSeqn, ihAlts⟩ := IH
    refine ⟨?_, ?_, ?_, ?_, ?_, ?_, ?_⟩
    · -- parseDispParamsT soundness
      intro ps se ss lad ex ts a r hps hss hex h
      rw [parseDispParamsT_succ] at h
      split at h
      · split at h
        · exact Option.noConfusion h
        · rename_i hcl
          simp only [Option.some.injEq, Prod.mk.injEq] at h
          obtain ⟨rfl, -⟩ := h
          show (ps.all (fun p => !p.1.isEmpty && litOkB p.1 && identOkB p.2) &&
            (se || !ss.isEmpty) && ss.all litOkB && ex.all litOkB) = true
          have c1 : ps.all (fun p => !p.1.isEmpty && litOkB p.1 && identOkB p.2)
              = true := List.all_eq_true.mpr (fun p hp => hps p hp)
          simp [c1, okClose_of_params hcl, hss, hex]
      · split at h
        · split at h
          · split at h
            · rename_i v heq
              exact ihSep ps v ss lad ex _ a r hps hss hex h
            · exact Option.noConfusion h
          · exact Option.noConfusion h
        · split at h
          · split at h
            · rename_i v r2 heq
              exact ihSep ps se v lad ex _ a r hps
                (parseStrTupleT_ok _ v r2 heq) hex h
            · exact Option.noConfusion h
          · split at h
            · split at h
              · split at h
                · rename_i v heq
                  exact ihSep ps se ss v ex _ a r hps hss hex h
                · exact Option.noConfusion h
              · exact Option.noConfusion h
            · split at h
              · split at h
                · rename_i v r2 heq
                  exact ihSep ps se ss lad v _ a r hps hss
                    (parseStrTupleT_ok _ v r2 heq) h
                · exact Option.noConfusion h
              · exact Option.noConfusion h
      · exact Option.noConfusion h
    · -- parseDispSepT soundness
      intro ps se ss lad ex ts a r hps hss hex h
      rw [parseDispSepT_succ] at h
      split at h
      · exact ihPar ps se ss lad ex _ a r hps hss hex h
      · exact ihPar ps se ss lad ex _ a r hps hss hex h
      · exact Option.noConfusion h
    · -- parseDispItemsT soundness
      intro acc ts a r hacc h
      rw [parseDispItemsT_succ] at h
      split at h
      · rename_i tag rn r2
        split at h
        · exact Option.noConfusion h
        · rename_i hcond
          have hpair : pairOkB (tag, rn) = true := by
            rw [show pairOkB (tag, rn) =
              (!tag.isEmpty && litOkB tag && identOkB rn) from rfl]
            revert hcond
            cases htag : tag.isEmpty <;> cases hlit : litOkB tag <;>
              cases hid : identOkB rn <;> simp
          have hacc2 : ∀ p ∈ (tag, rn) :: acc, pairOkB p = true := by
            intro p hp
            rcases List.mem_cons.mp hp with rfl | hp2
            · exact hpair
            · exact hacc p hp2
          split at h
          · exact ihItems ((tag, rn) :: acc) _ a r hacc2 h
          · exact ihPar (((tag, rn) :: acc).reverse) true [] true [] _ a r
              (by intro p hp; exact hacc2 p (List.mem_reverse.mp hp)) rfl rfl h
          · exact ihPar (((tag, rn) :: acc).reverse) true [] true [] _ a r
              (by intro p hp; exact hacc2 p (List.mem_reverse.mp hp)) rfl rfl h
          · exact Option.noConfusion h
      · exact ihPar (acc.reverse) true [] true [] _ a r
          (by intro p hp; exact hacc p (List.mem_reverse.mp hp)) rfl rfl h
    · -- parseAtomT soundness
      intro ts a r h
      rw [parseAtomT_succ] at h
      split at h
      · split at h
        · rename_i hc
          simp only [Option.some.injEq, Prod.mk.injEq] at h
          obtain ⟨rfl, -⟩ := h
          exact hc
        · exact Option.noConfusion h
      · split at h
        · rename_i hc
          simp only [Option.some.injEq, Prod.mk.injEq] at h
          obtain ⟨rfl, -⟩ := h
          exact hc
        · exact Option.noConfusion h
      · split at h
        · split at h
          · exact ihItems [] _ a r (by intro p hp; cases hp) h
          · exact Option.noConfusion h
        · split at h
          · rename_i hTD hid
            simp only [Option.some.injEq, Prod.mk.injEq] at h
            obtain ⟨rfl, -⟩ := h
            show refOkB _ = true
            rw [refOkB]
            simp [hid, hTD]
          · exact Option.noConfusion h
      · split at h
        · rename_i b r3 heq
          simp only [Option.some.injEq, Prod.mk.injEq] at h
          obtain ⟨rfl, -⟩ := h
          exact ihAlts _ b (ETok.tClose :: r3) heq
        · exact Option.noConfusion h
      · exact Option.noConfusion h
    · -- parseElemT soundness
      intro ts e r h
      rw [parseElemT_succ] at h
      split at h
      · rename_i a1 r1 heq
        have hA := ihAtom ts a1 r1 heq
        split at h <;>
          (simp only [Option.some.injEq, Prod.mk.injEq] at h
           obtain ⟨rfl, -⟩ := h
           exact hA)
      · exact Option.noConfusion h
    · -- parseSeqnT soundness
      intro ts s r h
      rw [parseSeqnT_succ] at h
      split at h
      · rename_i e1 r1 heq
        have hE := ihElem ts e1 r1 heq
        split at h
        · split at h
          · rename_i s2 r2 heq2
            simp only [Option.some.injEq, Prod.mk.injEq] at h
            obtain ⟨rfl, -⟩ := h
            show (elemOkB e1 && seqnOkB s2) = true
            simp [hE, ihSeqn r1 s2 r2 heq2]
          · exact Option.noConfusion h
        · simp only [Option.some.injEq, Prod.mk.injEq] at h
          obtain ⟨rfl, -⟩ := h
          exact hE
      · exact Option.noConfusion h
    · -- parseAltsT soundness
      intro ts b r h
      rw [parseAltsT_succ] at h
      split at h
      · rename_i s1 r1 heq
        have hS := ihSeqn ts s1 r1 heq
        split at h
        · split at h
          · rename_i b2 r3 heq2
            simp only [Option.some.injEq, Prod.mk.injEq] at h
            obtain ⟨rfl, -⟩ := h
            show (seqnOkB s1 && altsOkB b2) = true
            simp [hS, ihAlts _ b2 r3 heq2]
          · exact Option.noConfusion h
        · simp only [Option.some.injEq, Prod.mk.injEq] at h
          obtain ⟨rfl, -⟩ := h
          exact hS
      · exact Option.noConfusion h

theorem parseRuleToks_sound (f : Nat) (ts : List ETok) (r : ERule)
    (h : parseRuleToks f ts = some r) : ruleOkB r = true := by
  rw [parseRuleToks.eq_def] at h
  split at h
  · rename_i n rest
    split at h
    · rename_i hn
      split at h
      · rename_i b heq
        simp only [Option.some.injEq] at h
        rw [← h]
        have hb := (parse_sound f).2.2.2.2.2.2 rest b [] heq
        show (identOkB n && altsOkB b && true) = true
        simp [hn, hb]
      · rename_i b r2 heq
        split at h
        · rename_i s heq2
          simp only [Option.some.injEq] at h
          rw [← h]
          have hb := (parse_sound f).2.2.2.2.2.2 rest b (ETok.tLook :: r2) heq
          have hs := (parse_sound f).2.2.2.2.2.1 r2 s [ETok.tClose] heq2
          show (identOkB n && altsOkB b && seqnOkB s) = true
          simp [hn, hb, hs]
        · exact Option.noConfusion h
      · exact Option.noConfusion h
    · exact Option.noConfusion h
  · exact Option.noConfusion h

theorem parseGrammarToks_sound (ts : List ETok) (g : EGrammar)
    (h : parseGrammarToks ts = some g) : grammarOk g = true := by
  rw [parseGrammarToks] at h
  split at h
  · split at h
    · rename_i g2 heq2
      split at h
      · rename_i hval
        simp only [Option.some.injEq] at h
        subst h
        rw [grammarOk]
        have hall : g2.all ruleOkB = true := by
          rw [List.all_eq_true]
          intro rr hrr
          obtain ⟨-, hmem⟩ := mapOptionList_ok heq2
          obtain ⟨x, hx⟩ := hmem rr hrr
          exact parseRuleToks_sound _ x rr hx
        simp [hall, hval]
      · exact Option.noConfusion h
    · exact Option.noConfusion h
  · exact Option.noConfusion h

theorem parseEbnf_sound (l : List Char) (g : EGrammar)
    (h : parseEbnf l = some g) : grammarOk g = true := by
  rw [parseEbnf] at h
  cases htok : tokenize l with
  | none => rw [htok] at h; exact Option.noConfusion h
  | some ts =>
    rw [htok] at h
    exact parseGrammarToks_sound ts g h

/-- C6: for every EBNF text the parser accepts, printing the parsed grammar
and parsing it again returns the same grammar, so one print-parse pass is
idempotent: print(parse(print(parse(x)))) = print(parse(x)). -/
theorem ebnf_print_roundtrip (x : List Char) (g : EGrammar)
    (h : parseEbnf x = some g) :
    parseEbnf (printEbnf g) = some g ∧
      (parseEbnf (printEbnf g)).map printEbnf = some (printEbnf g) := by
  have hok := parseEbnf_sound x g h
  have h1 := parseEbnf_print g hok
  exact ⟨h1, by rw [h1]; rfl⟩




theorem ebnf_print_roundtrip_witness :
    parseEbnf (printEbnf gW) = some gW ∧
      (parseEbnf (printEbnf gW)).map printEbnf = some (printEbnf gW) :=
  ebnf_print_roundtrip (printEbnf gW) gW (parseEbnf_print gW (by decide))

end Xg

